import Mathlib

/-!
# Update checker plugin (`src/Plugin/update_checker.cpp`)

A shallow embedding of the text scanners, the version comparison and the worker
activity of the update checker, followed by the properties proved about them.

Modelling conventions

* A `std::string` is a `Str = List Char`, one `Char` per byte.  The scanners only
  compare bytes with ASCII constants and copy them, so nothing depends on the
  byte range.
* `std::string::npos` is `none`: `std::string::find` returns `Option Nat`.
* A `std::wstring` is a value of an arbitrary linearly ordered type `W` (the order
  is `std::wstring::operator<`, which `std::map` uses); `U82W`, which wraps the
  system call `MultiByteToWideChar`, is a parameter `U82W : Str → W`.
* A `std::map<std::wstring, std::wstring>` is the list of its entries in
  iteration order (increasing keys).
* The functions that look inside a wide string (`Trim`, `StripQuotes`, `ToLower`,
  `LaunchExternalNoConsole`) take it as `WStr = List Nat`, the list of its UTF-16
  code units; the library functions `iswspace` and `towlower` are parameters.
* The globals, the menu of the host window and a log of what the module does to the
  outside form the state `Plugin`; the answers of the host and of the operating
  system during one call are records (`HostEnv`, `OsAnswers`).
* A bitmap handle is identified with the bitmap it stands for, the circle of a colour
  at a size that `MakeCircleBitmap` draws; a null handle is `none`.
* A `while (true)` loop is a step function giving `Step.cont` (next iteration) or
  `Step.stop` (`break`), iterated with fuel; running out of fuel gives `none`.
-/

namespace UpdateChecker

/-- A byte string (`std::string`). -/
abbrev Str := List Char

/-! ## `std::string` primitives -/

/-- Scan of a suffix for the byte `c`; `i` is the index of the suffix's first byte. -/
def findCharFrom (c : Char) : Str → Nat → Option Nat
  | [], _ => none
  | x :: xs, i => if x = c then some i else findCharFrom c xs (i + 1)

/-- Model of `s.find(c, pos)` for a single byte `c`. -/
def strFindChar (s : Str) (c : Char) (pos : Nat) : Option Nat :=
  findCharFrom c (s.drop pos) pos

/-- Scan of a suffix for the byte sequence `tok`; `i` is the index of the suffix's
first byte. -/
def findStrFrom (tok : Str) : Str → Nat → Option Nat
  | [], i => if tok = [] then some i else none
  | x :: xs, i => if tok.isPrefixOf (x :: xs) then some i else findStrFrom tok xs (i + 1)

/-- Model of `s.find(tok, pos)` for a byte sequence `tok`. -/
def strFind (s tok : Str) (pos : Nat) : Option Nat :=
  if pos ≤ s.length then findStrFrom tok (s.drop pos) pos else none

/-- Model of `s.substr(pos, n)` (for `pos ≤ s.size()`). -/
def substr (s : Str) (pos n : Nat) : Str := (s.drop pos).take n

/-- `FindToken(s, pos, token)`. -/
def FindToken (s : Str) (pos : Nat) (token : Str) : Option Nat := strFind s token pos

/-! ## `std::map<std::wstring, std::wstring>` -/

/-- The entries of a `std::map`, in iteration order. -/
abbrev StdMap (W : Type) := List (W × W)

namespace StdMap

variable {W : Type} [LinearOrder W]

/-- Model of `m.find(k)`: `none` stands for `m.end()`, `some v` for an iterator to
`(k, v)`. -/
def find : StdMap W → W → Option W
  | [], _ => none
  | (k', v') :: r, k => if k = k' then some v' else find r k

/-- Model of `m[k] = v`: overwrite the entry of `k`, or insert one at its place in
key order. -/
def set : StdMap W → W → W → StdMap W
  | [], k, v => [(k, v)]
  | (k', v') :: r, k, v =>
    if k = k' then (k, v) :: r
    else if k < k' then (k, v) :: (k', v') :: r
    else (k', v') :: set r k v

/-- Model of `m.size()`. -/
def size (m : StdMap W) : Nat := m.length

/-- The keys of the map, in iteration order. -/
def keys (m : StdMap W) : List W := m.map Prod.fst

end StdMap

/-- Outcome of one iteration of a `while (true)` loop over `(pos, m)`. -/
inductive Step (W : Type) where
  /-- The iteration ends (by `continue` or by reaching its end) with these values. -/
  | cont (pos : Nat) (m : StdMap W)
  /-- The iteration leaves the loop by `break`. -/
  | stop (m : StdMap W)
deriving DecidableEq, Repr

/-! ## The JSON scanners -/

/-- `ExtractJSONString(s, posAfterColon, out)`: `some out` when it returns `true`,
`none` when it returns `false` (`out` is then untouched). -/
def ExtractJSONString (s : Str) (posAfterColon : Nat) : Option Str :=
  match strFindChar s '"' posAfterColon with
  | none => none
  | some q1 =>
    match strFindChar s '"' (q1 + 1) with
    | none => none
    | some q2 => some (substr s (q1 + 1) (q2 - (q1 + 1)))

section Scanners

variable {W : Type} [LinearOrder W] (U82W : Str → W)

/-- One iteration of the loop of `ParseInstalledJson`. -/
def ParseInstalledJsonStep (json : Str) (pos : Nat) (m : StdMap W) : Step W :=
  match strFindChar json '"' pos with
  | none => .stop m
  | some qKey1 =>
    match strFindChar json '"' (qKey1 + 1) with
    | none => .stop m
    | some qKey2 =>
      let key := substr json (qKey1 + 1) (qKey2 - (qKey1 + 1))
      match strFindChar json ':' qKey2 with
      | none => .stop m
      | some colon =>
        match ExtractJSONString json (colon + 1) with
        | none => .cont (qKey2 + 1) m
        | some val => .cont (qKey2 + 1) (m.set (U82W key) (U82W val))

/-- The loop of `ParseInstalledJson`, run for at most `fuel` iterations. -/
def ParseInstalledJsonLoop (json : Str) : Nat → Nat → StdMap W → Option (StdMap W)
  | 0, _, _ => none
  | fuel + 1, pos, m =>
    match ParseInstalledJsonStep U82W json pos m with
    | .stop m' => some m'
    | .cont pos' m' => ParseInstalledJsonLoop json fuel pos' m'

/-- `ParseInstalledJson(json)`. -/
def ParseInstalledJson (json : Str) : Option (StdMap W) :=
  ParseInstalledJsonLoop U82W json (json.length + 1) 0 []

/-- The lambda `isWanted` of `ParseIndexLatestJsonFiltered`. -/
def isWanted (idsWanted : List W) (id : W) : Bool :=
  match idsWanted with
  | [] => false
  | w :: ws => if w = id then true else isWanted ws id

/-- The token `"id"` (with its quotes). -/
def idToken : Str := ['"', 'i', 'd', '"']

/-- The token `"latest-version"` (with its quotes). -/
def lvToken : Str := '"' :: "latest-version".toList ++ ['"']

/-- One iteration of the loop of `ParseIndexLatestJsonFiltered`. -/
def ParseIndexLatestJsonFilteredStep (json : Str) (idsWanted : List W) (pos : Nat)
    (m : StdMap W) : Step W :=
  match FindToken json pos idToken with
  | none => .stop m
  | some idField =>
    match strFindChar json ':' idField with
    | none => .stop m
    | some colon =>
      match ExtractJSONString json (colon + 1) with
      | none => .cont (idField + 4) m
      | some idUtf8 =>
        let idW := U82W idUtf8
        match strFindChar json '"' (colon + 1) with
        | none => .cont (idField + 4) m
        | some afterIdVal =>
          match strFindChar json '\x7d' afterIdVal with
          | none => .cont (idField + 4) m
          | some objClose =>
            if !isWanted idsWanted idW then .cont (objClose + 1) m
            else
              match FindToken json colon lvToken with
              | none => .cont (objClose + 1) m
              | some lvField =>
                if lvField > objClose then .cont (objClose + 1) m
                else
                  match strFindChar json ':' lvField with
                  | none => .cont (objClose + 1) m
                  | some lvColon =>
                    if lvColon > objClose then .cont (objClose + 1) m
                    else
                      match ExtractJSONString json (lvColon + 1) with
                      | none => .cont (objClose + 1) m
                      | some latestUtf8 =>
                        let m' := m.set idW (U82W latestUtf8)
                        if m'.size ≥ idsWanted.length then .stop m'
                        else .cont (objClose + 1) m'

/-- The loop of `ParseIndexLatestJsonFiltered`, run for at most `fuel` iterations. -/
def ParseIndexLatestJsonFilteredLoop (json : Str) (idsWanted : List W) :
    Nat → Nat → StdMap W → Option (StdMap W)
  | 0, _, _ => none
  | fuel + 1, pos, m =>
    match ParseIndexLatestJsonFilteredStep U82W json idsWanted pos m with
    | .stop m' => some m'
    | .cont pos' m' => ParseIndexLatestJsonFilteredLoop json idsWanted fuel pos' m'

/-- `ParseIndexLatestJsonFiltered(json, idsWanted)`. -/
def ParseIndexLatestJsonFiltered (json : Str) (idsWanted : List W) : Option (StdMap W) :=
  if idsWanted.isEmpty then some []
  else ParseIndexLatestJsonFilteredLoop U82W json idsWanted (json.length + 1) 0 []

end Scanners

/-! ## Comparison of installed and latest versions -/

/-- `struct UpdateEntry`. -/
structure UpdateEntry (W : Type) where
  id : W
  installed : W
  latest : W
deriving DecidableEq, Repr

/-- What the system calls of `ComputeUpdates` answer. -/
structure Env where
  /-- `DownloadIndexJsonTo()`: whether `URLDownloadToFileW` succeeded. -/
  downloadOk : Bool
  /-- `LoadInstalledJson(installedJson)`: the bytes read, `none` when it returns `false`. -/
  installedJson : Option Str
  /-- `LoadIndexJson(indexJson)`, called after the download attempt: the bytes read,
  `none` when it returns `false`. -/
  indexJson : Option Str

/-- The globals of the module that the worker activity touches, and the messages
posted so far with `PostMessageW` (window, message). -/
structure Globals (W : Type) where
  g_MenuReady : Bool
  g_UpdateAvailable : Bool
  g_Updates : List (UpdateEntry W)
  /-- The host window, `none` for `nullptr`. -/
  g_MainWnd : Option Nat
  posted : List (Nat × Nat)

/-- `WM_APP_APPLY_MENU = WM_APP + 100`. -/
def WM_APP_APPLY_MENU : Nat := 0x8000 + 100

section Compare

variable {W : Type} [LinearOrder W] (U82W : Str → W)

/-- The state of the module when the library is loaded. -/
def Globals.initial : Globals W :=
  { g_MenuReady := false, g_UpdateAvailable := false, g_Updates := [],
    g_MainWnd := none, posted := [] }

/-- Step 4 of `ComputeUpdates`: the loop over `installed` that fills `result`. -/
def compareVersions (installed latestMap : StdMap W) : List (UpdateEntry W) :=
  installed.foldl
    (fun result kv =>
      match latestMap.find kv.1 with
      | none => result
      | some latest =>
        if latest ≠ kv.2 then result ++ [{ id := kv.1, installed := kv.2, latest := latest }]
        else result)
    []

/-- `ComputeUpdates()`; `none` only if a scanner ran out of fuel. -/
def ComputeUpdates (env : Env) (g : Globals W) : Option (Globals W) :=
  -- 1) DownloadIndexJsonTo(): the outcome `env.downloadOk` is discarded
  match env.installedJson with
  | none => some { g with g_Updates := [], g_UpdateAvailable := false }
  | some installedJson =>
    match env.indexJson with
    | none => some { g with g_Updates := [], g_UpdateAvailable := false }
    | some indexJson =>
      match ParseInstalledJson U82W installedJson with
      | none => none
      | some installed =>
        let idsWanted := installed.keys
        match ParseIndexLatestJsonFiltered U82W indexJson idsWanted with
        | none => none
        | some latestMap =>
          let result := compareVersions installed latestMap
          some { g with g_Updates := result, g_UpdateAvailable := !result.isEmpty }

/-- `WorkerThread`. -/
def WorkerThread (env : Env) (g : Globals W) : Option (Globals W) :=
  match ComputeUpdates U82W env g with
  | none => none
  | some g1 =>
    let g2 := { g1 with g_MenuReady := true }
    match g2.g_MainWnd with
    | some w => some { g2 with posted := g2.posted ++ [(w, WM_APP_APPLY_MENU)] }
    | none => some g2

end Compare

/-! ## `JsonFindString` -/

/-- `IsSpace(c)`. -/
def IsSpace (c : Char) : Bool :=
  c = ' ' || c = '\t' || c = '\r' || c = '\n' || c = Char.ofNat 12

/-- The loop `while (i < json.size() && IsSpace(json[i])) ++i;` on the suffix that
starts at index `i`; the result is the final `i`. -/
def skipSpaces : Str → Nat → Nat
  | [], i => i
  | c :: cs, i => if IsSpace c then skipSpaces cs (i + 1) else i

/-- The string extraction loop of `JsonFindString` on the suffix that starts at the
current index, with the accumulator `acc`: `some acc` when the closing quote is
reached, `none` when the loop runs off the text. -/
def readEscaped : Str → Str → Option Str
  | [], _ => none
  | ch :: rest, acc =>
    if ch = '\\' then
      match rest with
      | [] => none
      | esc :: rest' =>
        if esc = '"' then readEscaped rest' (acc ++ ['"'])
        else if esc = '\\' then readEscaped rest' (acc ++ ['\\'])
        else if esc = '/' then readEscaped rest' (acc ++ ['/'])
        else readEscaped rest' (acc ++ [esc])
    else if ch = '"' then some acc
    else readEscaped rest (acc ++ [ch])

/-- `JsonFindString(json, key, out)`: the returned flag and the value of `out` after
the call. -/
def JsonFindString (json key out : Str) : Bool × Str :=
  let token := ['"'] ++ key ++ ['"']
  match strFind json token 0 with
  | none => (false, out)
  | some pos =>
    match strFindChar json ':' (pos + token.length) with
    | none => (false, out)
    | some i =>
      let i := skipSpaces (json.drop (i + 1)) (i + 1)
      if i ≥ json.length ∨ json[i]? ≠ some '"' then (false, out)
      else
        match readEscaped (json.drop (i + 1)) [] with
        | some acc => (true, acc)
        | none => (false, out)

/-! ## Column widths of the dialog -/

/-- `SetListViewColumnWidths(hList, s, clientCX, margin)`: the widths passed to
`ListView_SetColumn` for the columns 0, 1, 2, or `none` when `hList` is null and
nothing is set.  The scale `s` is not used by the function.  `/` of C++ is `Int.tdiv`. -/
def SetListViewColumnWidths (hList : Option Nat) (clientCX margin : Int) :
    Option (Int × Int × Int) :=
  match hList with
  | none => none
  | some _ =>
    let contentW := clientCX - (margin * 2) - 4
    let w0 := (contentW * 55).tdiv 100
    let w12 := (contentW - w0).tdiv 2
    let w1 := w12
    let w2 := contentW - w0 - w1
    some (w0, w1, w2)

/-! ## Concrete inputs

In the concrete inputs a wide string is the list of the characters of an ASCII text
and `U82W` is the identity: `MultiByteToWideChar` maps an ASCII byte to the code unit
of the same value. -/

/-- `U82W` on ASCII text. -/
def asciiU82W : Str → List Char := fun s => s

/-- The installed manifest `{"a":"1","b":"2"}`. -/
def installedTwo : Str := "\x7b\"a\":\"1\",\"b\":\"2\"\x7d".toList

/-- The catalog document with the ids `A`, `B`, `C`, `D` and the versions `1` to `4`. -/
def catalogABCD : Str :=
  ("[\x7b\"id\":\"A\",\"latest-version\":\"1\"\x7d,\x7b\"id\":\"B\",\"latest-version\":\"2\"\x7d," ++
    "\x7b\"id\":\"C\",\"latest-version\":\"3\"\x7d,\x7b\"id\":\"D\",\"latest-version\":\"4\"\x7d]").toList

/-- The catalog document `[{"id":"A","latest-version":null},{"id":"B","latest-version":"2"}]`. -/
def catalogNullVersion : Str :=
  "[\x7b\"id\":\"A\",\"latest-version\":null\x7d,\x7b\"id\":\"B\",\"latest-version\":\"2\"\x7d]".toList

/-- The text `{"id":"x","latest-version":"2.1"}`. -/
def textIdLatest : Str := "\x7b\"id\":\"x\",\"latest-version\":\"2.1\"\x7d".toList

/-- The text `{"latest-version":"a\"b"}`, whose value holds an escaped quote. -/
def textEscapedQuote : Str := "\x7b\"latest-version\":\"a\\\"b\"\x7d".toList

/-! ## Texts, as the specification describes them -/

/-- The key `k` between double quotes, as it is written in a JSON text. -/
def quoted (k : Str) : Str := ['"'] ++ k ++ ['"']

/-- One unit of the body of a JSON string as it is written: a plain byte, or a
backslash followed by a byte. -/
inductive Piece where
  | plain (c : Char)
  | esc (c : Char)
deriving DecidableEq, Repr

/-- A plain byte is neither a double quote nor a backslash; any byte may follow a
backslash. -/
def Piece.ok : Piece → Bool
  | .plain c => c ≠ '"' && c ≠ '\\'
  | .esc _ => true

/-- The bytes of the text that write the pieces. -/
def written : List Piece → Str
  | [] => []
  | .plain c :: ps => c :: written ps
  | .esc c :: ps => '\\' :: c :: written ps

/-- The bytes the pieces stand for: each pair `\c` gives the byte `c`. -/
def decoded : List Piece → Str
  | [] => []
  | .plain c :: ps => c :: decoded ps
  | .esc c :: ps => c :: decoded ps

/-- The text after the colon and its white space does not open a string: it is empty
or starts with a byte that is neither white space nor a double quote. -/
def NoStringStart (rest : Str) : Prop :=
  rest = [] ∨ ∃ c r, rest = c :: r ∧ c ≠ '"' ∧ IsSpace c = false

/-- The body of a string that is never closed: pieces up to the end of the text,
possibly followed by a backslash that is the last byte. -/
def NeverClosed (body : Str) : Prop :=
  ∃ ps tl, body = written ps ++ tl ∧ (∀ p ∈ ps, p.ok = true) ∧ (tl = [] ∨ tl = ['\\'])

/-- The texts in which the key is absent or malformed: the quoted key does not occur;
or, with `pre` the text before its first occurrence and `after` the text behind it,
no colon occurs in `after`; or behind the first colon of `after` and the white space
`ws` that follows it no string starts; or the string that starts there is never
closed. -/
def KeyAbsentOrMalformed (json key : Str) : Prop :=
  (¬ quoted key <:+: json) ∨
    ∃ pre after, json = pre ++ quoted key ++ after ∧
      (∀ q, q < pre.length → ¬ quoted key <+: json.drop q) ∧
      (':' ∉ after ∨
        ∃ mid ws rest, after = mid ++ ':' :: ws ++ rest ∧ ':' ∉ mid ∧
          (∀ c ∈ ws, IsSpace c = true) ∧
          (NoStringStart rest ∨ ∃ body, rest = '"' :: body ∧ NeverClosed body))

/-- The text `{"a" : 12}`. -/
def textNumberValue : Str := "\x7b\"a\" : 12\x7d".toList

/-! ## Catalog documents, as the specification describes them -/

/-- The key `id`. -/
def idKey : Str := ['i', 'd']

/-- The key `latest-version`. -/
def lvKey : Str := "latest-version".toList

/-- A string field of a flat object. -/
structure Field where
  key : Str
  value : Str
deriving DecidableEq, Repr

/-- The text `"key":"value"`. -/
def Field.text (f : Field) : Str := quoted f.key ++ ':' :: quoted f.value

/-- The fields, each followed by a comma. -/
def trailingComma : List Field → Str
  | [] => []
  | f :: r => f.text ++ ',' :: trailingComma r

/-- The fields, each preceded by a comma. -/
def leadingComma : List Field → Str
  | [] => []
  | f :: r => ',' :: f.text ++ leadingComma r

/-- A byte allowed in the content of a string: no quote, backslash, brace or colon. -/
def cleanChar (c : Char) : Bool :=
  c != '"' && c != '\\' && c != '\x7b' && c != '\x7d' && c != ':'

/-- A string content free of quotes, backslashes, braces and colons. -/
def clean (s : Str) : Bool := s.all cleanChar

/-- A flat object of the catalog in which the field `id` comes before the field
`latest-version`: the other fields before `id`, the id, the other fields between the
two, the latest version, the other fields behind. -/
structure CatalogObject where
  before : List Field
  id : Str
  between : List Field
  latest : Str
  behind : List Field
deriving DecidableEq, Repr

/-- The text of the object: `{`, the fields separated by commas, `}`. -/
def CatalogObject.text (o : CatalogObject) : Str :=
  '\x7b' :: (trailingComma o.before ++
    ((quoted idKey ++ ':' :: quoted o.id) ++
      (leadingComma o.between ++
        (',' :: (quoted lvKey ++ ':' :: quoted o.latest) ++
          (leadingComma o.behind ++ ['\x7d'])))))

/-- A field other than `id` and `latest-version`, with clean key and value. -/
def Field.other (f : Field) : Bool :=
  clean f.key && clean f.value && f.key != idKey && f.key != lvKey

/-- All string contents are clean, the other fields have other keys, no value before
the field `id` is the text `id`, no value between the two fields is the text
`latest-version`, and the id is not the text `latest-version`. -/
def CatalogObject.wellFormed (o : CatalogObject) : Bool :=
  o.before.all Field.other && o.between.all Field.other && o.behind.all Field.other &&
    clean o.id && clean o.latest &&
    o.before.all (fun f => f.value != idKey) &&
    o.between.all (fun f => f.value != lvKey) && o.id != lvKey

section Expected

variable {W : Type} [LinearOrder W] (U82W : Str → W)

/-- The map that the objects give when they are handled one after the other as whole
objects: the id of a wanted object is bound to its latest version, and the scan ends
when the map is as large as the wanted list. -/
def scanObjects (idsWanted : List W) : StdMap W → List CatalogObject → StdMap W
  | m, [] => m
  | m, o :: os =>
    if isWanted idsWanted (U82W o.id) then
      if (m.set (U82W o.id) (U82W o.latest)).size ≥ idsWanted.length then
        m.set (U82W o.id) (U82W o.latest)
      else scanObjects idsWanted (m.set (U82W o.id) (U82W o.latest)) os
    else scanObjects idsWanted m os

end Expected

/-- The catalog document `[{"latest-version":"1","id":"A"}]`. -/
def catalogVersionFirst : Str := "[\x7b\"latest-version\":\"1\",\"id\":\"A\"\x7d]".toList

/-- The catalog document `[{"a":"id","b":"C","id":"A","latest-version":"1"}]`. -/
def catalogIdAsValue : Str :=
  "[\x7b\"a\":\"id\",\"b\":\"C\",\"id\":\"A\",\"latest-version\":\"1\"\x7d]".toList

/-- The catalog document `[{"id":"A","a":"latest-version","b":"c","latest-version":"1"}]`. -/
def catalogVersionAsValue : Str :=
  "[\x7b\"id\":\"A\",\"a\":\"latest-version\",\"b\":\"c\",\"latest-version\":\"1\"\x7d]".toList

/-- The catalog document `[{"id":"latest-version","a":"b","latest-version":"1"}]`. -/
def catalogVersionAsId : Str :=
  "[\x7b\"id\":\"latest-version\",\"a\":\"b\",\"latest-version\":\"1\"\x7d]".toList

/-! ## Catalog documents with white space between the tokens -/

/-- A run of JSON white space: blanks, tabs, line feeds and carriage returns. -/
def blank (w : Str) : Bool := w.all (fun c => c = ' ' || c = '\t' || c = '\n' || c = '\r')

/-- The white space around the tokens of a field: before the key, between the key and
the colon, between the colon and the value, behind the value. -/
structure FieldSpace where
  lead : Str
  afterKey : Str
  afterColon : Str
  afterValue : Str
deriving DecidableEq, Repr

/-- The four runs are white space. -/
def FieldSpace.allBlank (sp : FieldSpace) : Bool :=
  blank sp.lead && blank sp.afterKey && blank sp.afterColon && blank sp.afterValue

/-- The text of the field `"key":"value"` with this white space around its tokens. -/
def fieldText (sp : FieldSpace) (key value : Str) : Str :=
  sp.lead ++ (quoted key ++ (sp.afterKey ++ ':' :: (sp.afterColon ++
    (quoted value ++ sp.afterValue))))

/-- A string field together with the white space around its tokens. -/
structure SpacedField where
  field : Field
  space : FieldSpace
deriving DecidableEq, Repr

/-- The text of the field. -/
def SpacedField.text (f : SpacedField) : Str := fieldText f.space f.field.key f.field.value

/-- The fields, each followed by a comma. -/
def spacedTrailingComma : List SpacedField → Str
  | [] => []
  | f :: r => f.text ++ ',' :: spacedTrailingComma r

/-- The fields, each preceded by a comma. -/
def spacedLeadingComma : List SpacedField → Str
  | [] => []
  | f :: r => ',' :: (f.text ++ spacedLeadingComma r)

/-- A flat object of the catalog in which the field `id` comes before the field
`latest-version`, together with its layout: the white space before the opening
brace, around the tokens of every field, and behind the closing brace. -/
structure SpacedObject where
  lead : Str
  before : List SpacedField
  idSpace : FieldSpace
  id : Str
  between : List SpacedField
  lvSpace : FieldSpace
  latest : Str
  behind : List SpacedField
  trail : Str
deriving DecidableEq, Repr

/-- The text of the object, from the white space before its opening brace to its
closing brace. -/
def SpacedObject.text (o : SpacedObject) : Str :=
  o.lead ++ '\x7b' :: (spacedTrailingComma o.before ++
    (fieldText o.idSpace idKey o.id ++
      (spacedLeadingComma o.between ++
        (',' :: (fieldText o.lvSpace lvKey o.latest ++
          (spacedLeadingComma o.behind ++ ['\x7d']))))))

/-- The object without its layout. -/
def SpacedObject.object (o : SpacedObject) : CatalogObject :=
  { before := o.before.map (fun f => f.field), id := o.id,
    between := o.between.map (fun f => f.field), latest := o.latest,
    behind := o.behind.map (fun f => f.field) }

/-- The object is well formed and its layout is white space. -/
def SpacedObject.wellFormed (o : SpacedObject) : Bool :=
  o.object.wellFormed && blank o.lead && blank o.trail && o.idSpace.allBlank &&
    o.lvSpace.allBlank && o.before.all (fun f => f.space.allBlank) &&
    o.between.all (fun f => f.space.allBlank) && o.behind.all (fun f => f.space.allBlank)

/-- The objects, the first one preceded by the byte `d` and the others by a comma,
each followed by its trailing white space, then the closing bracket of the array and
the text `post`. -/
def spacedObjectsText (post : Str) (d : Char) : List SpacedObject → Str
  | [] => ']' :: post
  | o :: os => d :: (o.text ++ (o.trail ++ spacedObjectsText post ',' os))

/-- A catalog document with its layout: the white space before the opening bracket,
the white space between the brackets when the array has no object, the objects, and
the white space behind the closing bracket. -/
structure SpacedCatalog where
  pre : Str
  inner : Str
  objs : List SpacedObject
  post : Str
deriving DecidableEq, Repr

/-- The text of the catalog document: `[`, the objects separated by commas, `]`, with
the white space of the layout. -/
def SpacedCatalog.text (c : SpacedCatalog) : Str :=
  match c.objs with
  | [] => c.pre ++ '[' :: (c.inner ++ ']' :: c.post)
  | o :: os => c.pre ++ spacedObjectsText c.post '[' (o :: os)

/-- Every object is well formed and the layout is white space. -/
def SpacedCatalog.wellFormed (c : SpacedCatalog) : Bool :=
  blank c.pre && blank c.inner && blank c.post && c.objs.all (fun o => o.wellFormed)

/-- The fields of a pretty-printed object, one per line. -/
def prettySpace : FieldSpace :=
  { lead := "\n    ".toList, afterKey := [], afterColon := " ".toList, afterValue := [] }

/-- A pretty-printed document of two objects: the first one with one field on each
line, indented by four blanks, and a blank behind each colon; the second one on one
line with blanks around its tokens, a tab before the colon of `latest-version` and a
line feed behind it; a line feed behind the closing bracket. -/
def catalogPretty : SpacedCatalog :=
  { pre := [], inner := [], post := "\n".toList,
    objs :=
      [{ lead := "\n  ".toList,
         before := [{ field := { key := "name".toList, value := "x".toList },
                      space := prettySpace }],
         idSpace := prettySpace, id := "A".toList, between := [],
         lvSpace := { prettySpace with afterValue := "\n  ".toList }, latest := "1".toList,
         behind := [], trail := [] },
       { lead := "\n  ".toList, before := [],
         idSpace := { lead := " ".toList, afterKey := " ".toList, afterColon := " ".toList,
                      afterValue := " ".toList },
         id := "B".toList,
         between := [{ field := { key := "n".toList, value := "id".toList },
                       space := { lead := " ".toList, afterKey := [], afterColon := [],
                                  afterValue := [] } }],
         lvSpace := { lead := " ".toList, afterKey := "\t".toList, afterColon := "\n".toList,
                      afterValue := " ".toList },
         latest := "2".toList, behind := [], trail := "\n".toList }] }

section StoresEntryDef

variable {W : Type} [LinearOrder W] (U82W : Str → W)

/-- The searches that an iteration of the filtered scan started at `pos` has to win to
store an entry: the entry is `idW -> latestW` and the scan goes on behind `objClose`. -/
def StoresEntry (json : Str) (idsWanted : List W) (pos : Nat) (idW latestW : W)
    (objClose : Nat) : Prop :=
  ∃ idField colon idUtf8 afterIdVal lvField lvColon latestUtf8,
    FindToken json pos idToken = some idField ∧
    strFindChar json ':' idField = some colon ∧
    ExtractJSONString json (colon + 1) = some idUtf8 ∧
    strFindChar json '"' (colon + 1) = some afterIdVal ∧
    strFindChar json '\x7d' afterIdVal = some objClose ∧
    isWanted idsWanted (U82W idUtf8) = true ∧
    FindToken json colon lvToken = some lvField ∧ lvField ≤ objClose ∧
    strFindChar json ':' lvField = some lvColon ∧ lvColon ≤ objClose ∧
    ExtractJSONString json (lvColon + 1) = some latestUtf8 ∧
    idW = U82W idUtf8 ∧ latestW = U82W latestUtf8

/-- From `p0` on no iteration of the filtered scan stores an entry. -/
def NoEntryFrom (json : Str) (idsWanted : List W) (p0 : Nat) : Prop :=
  ∀ p idW latestW objClose, p0 ≤ p → ¬ StoresEntry U82W json idsWanted p idW latestW objClose

end StoresEntryDef

/-- The text `,{"id":"A","latest-version":"9"}`, to be put behind a catalog document. -/
def textBehind : Str := ",\x7b\"id\":\"A\",\"latest-version\":\"9\"\x7d".toList

/-! ## Documents whose objects may lack the version -/

/-- An object of the form `{"id":"x","latest-version":"v"}`, or `{"id":"x"}` when
`latest` is `none`. -/
structure PlainObject where
  id : Str
  latest : Option Str
deriving DecidableEq, Repr

/-- The text of the object. -/
def PlainObject.text (o : PlainObject) : Str :=
  match o.latest with
  | some v => '\x7b' :: (quoted idKey ++ ':' :: (quoted o.id ++
      (',' :: (quoted lvKey ++ ':' :: quoted v) ++ ['\x7d'])))
  | none => '\x7b' :: (quoted idKey ++ ':' :: (quoted o.id ++ ['\x7d']))

/-- The string contents of the object are clean. -/
def PlainObject.clean (o : PlainObject) : Bool :=
  UpdateChecker.clean o.id &&
    match o.latest with
    | some v => UpdateChecker.clean v
    | none => true

/-- The objects, the first one preceded by the byte `d` and the others by a comma,
followed by the closing bracket of the array. -/
def plainObjectsText (d : Char) : List PlainObject → Str
  | [] => [']']
  | o :: os => d :: (o.text ++ plainObjectsText ',' os)

/-- The text of the document: `[`, the objects separated by commas, `]`. -/
def plainCatalogText : List PlainObject → Str
  | [] => ['[', ']']
  | o :: os => plainObjectsText '[' (o :: os)

/-- The object as a catalog object, when it has the version. -/
def PlainObject.withVersion (o : PlainObject) : Option CatalogObject :=
  match o.latest with
  | some v => some { before := [], id := o.id, between := [], latest := v, behind := [] }
  | none => none

/-- The objects of the document
`[{"id":"A"},{"id":"latest-version","latest-version":"7"},{"id":"B","latest-version":"2"}]`. -/
def plainThreeObjects : List PlainObject :=
  [{ id := "A".toList, latest := none },
   { id := "latest-version".toList, latest := some "7".toList },
   { id := "B".toList, latest := some "2".toList }]

/-! ## The host window, the menu and the state of the module

The window messages and their numbers are those of the Windows headers.  The host
window is the one window that the module subclasses; its menu is the list of its
top-level items, `none` when `GetMenu` returns null.  What the module does to the
outside (message boxes, the dialog, `DrawMenuBar`, the call of the original window
procedure) and each read of `g_Updates` are recorded in a log. -/

/-- `ID_MENU_UPDATE`. -/
def ID_MENU_UPDATE : Nat := 0xE711

/-- `WM_INITMENU` of the Windows headers. -/
def WM_INITMENU : Nat := 0x0116

/-- `WM_ENTERMENULOOP` of the Windows headers. -/
def WM_ENTERMENULOOP : Nat := 0x0211

/-- `WM_COMMAND` of the Windows headers. -/
def WM_COMMAND : Nat := 0x0111

/-- `WM_DPICHANGED` of the Windows headers. -/
def WM_DPICHANGED : Nat := 0x02E0

/-- `WM_PAINT` of the Windows headers, a message that the handler does not treat. -/
def WM_PAINT : Nat := 0x000F

/-- `LOWORD(wParam)`. -/
def LOWORD (wParam : Nat) : Nat := wParam % 65536

/-- `RGB(r, g, b)` of the Windows headers. -/
def RGB (r g b : Nat) : Nat := r + g * 256 + b * 65536

/-- The bitmap that `MakeCircleBitmap(color, size)` draws: a square of `size` pixels
with a filled circle of the colour `color`.  A bitmap handle is identified with the
bitmap it stands for. -/
structure Bitmap where
  color : Nat
  size : Int
deriving DecidableEq, Repr

/-- An item of the host menu: its identifier, its label and its bitmap
(`hbmpItem`, `none` for null). -/
structure MenuItem where
  wID : Nat
  text : String
  hbmpItem : Option Bitmap
deriving DecidableEq, Repr

/-- What the module does to the outside, and its reads of `g_Updates`. -/
inductive Effect where
  /-- A read of `g_Updates`. -/
  | readUpdates
  /-- `MessageBoxW` with this text. -/
  | messageBox (text : String)
  /-- `DialogBoxIndirectParam` with `UpdateDlgProc`. -/
  | dialog
  /-- `DrawMenuBar`. -/
  | drawMenuBar
  /-- `CallWindowProcW(proc, hWnd, msg, wParam, lParam)` with the non-null procedure
  `proc`: the original window procedure is called with these arguments. -/
  | callOrig (proc : Nat) (hWnd msg wParam : Nat) (lParam : Int)
  /-- `CallWindowProcW(nullptr, hWnd, msg, wParam, lParam)`: no window procedure is
  called. -/
  | callNull (hWnd msg wParam : Nat) (lParam : Int)
deriving DecidableEq, Repr

/-- The effect is a call of the original window procedure. -/
def Effect.isCallOrig : Effect → Bool
  | .callOrig _ _ _ _ _ => true
  | _ => false

/-- What the host answers during one window message. -/
structure HostEnv where
  /-- `GetMenuIconSizeForHwnd(hWnd)`. -/
  iconSize : Int
  /-- Whether `CreateDIBSection` succeeds in `MakeCircleBitmap(color, size)`. -/
  dibOk : Nat → Int → Bool
  /-- Whether the `n`-th call of `AppendMenuW` made by one menu refresh succeeds. -/
  appendOk : Nat → Bool
  /-- What the original window procedure returns for a window, a message, `wParam`
  and `lParam`. -/
  origResult : Nat → Nat → Nat → Int → Int
  /-- What `CallWindowProcW` returns when it is given a null procedure. -/
  nullResult : Int

/-- `MakeCircleBitmap(color, size)`: the bitmap, `none` for null (when
`CreateDIBSection` fails). -/
def MakeCircleBitmap (env : HostEnv) (color : Nat) (size : Int) : Option Bitmap :=
  if env.dibOk color size then some { color := color, size := size } else none

/-- The globals of the module with the menu of the host window and the log. -/
structure Plugin (W : Type) where
  g : Globals W
  g_OrigWndProc : Option Nat
  g_hBmpUpdateAvail : Option Bitmap
  g_hBmpUpdateNone : Option Bitmap
  g_MenuIconSizePx : Int
  g_hDlgFont : Option Nat
  g_hDlgFontOwned : Bool
  /-- `GetMenu(hWnd)` of the host window. -/
  menu : Option (List MenuItem)
  log : List Effect

section PluginOps

variable {W : Type} [LinearOrder W] (U82W : Str → W)

/-- The state when the library is loaded, for a host window with this menu. -/
def Plugin.initial (menu : Option (List MenuItem)) : Plugin W :=
  { g := Globals.initial, g_OrigWndProc := none, g_hBmpUpdateAvail := none,
    g_hBmpUpdateNone := none, g_MenuIconSizePx := 0, g_hDlgFont := none,
    g_hDlgFontOwned := false, menu := menu, log := [] }

/-- `HasUpdateItem(hMenu)`. -/
def HasUpdateItem : List MenuItem → Bool
  | [] => false
  | it :: r => if it.wID = ID_MENU_UPDATE then true else HasUpdateItem r

/-- `EnsureMenuIcons(hWnd)`. -/
def EnsureMenuIcons (env : HostEnv) (s : Plugin W) : Plugin W :=
  let desired := if env.iconSize ≤ 0 then 16 else env.iconSize
  if s.g_MenuIconSizePx ≠ desired ∨ s.g_hBmpUpdateAvail = none ∨ s.g_hBmpUpdateNone = none then
    { s with
      g_hBmpUpdateAvail := MakeCircleBitmap env (RGB 76 175 80) desired
      g_hBmpUpdateNone := MakeCircleBitmap env (RGB 153 153 153) desired
      g_MenuIconSizePx := desired }
  else s

/-- `AppendMenuW(hMenu, MF_STRING | MF_ENABLED, id, text)` when it succeeds. -/
def AppendMenuW (hMenu : List MenuItem) (id : Nat) (text : String) : List MenuItem :=
  hMenu ++ [{ wID := id, text := text, hbmpItem := none }]

/-- `SetMenuItemInfoW(hMenu, id, FALSE, &mii)` with the mask
`MIIM_STRING | MIIM_BITMAP`: the first item with this identifier gets the label and
the bitmap. -/
def SetMenuItemInfoW : List MenuItem → Nat → String → Option Bitmap → List MenuItem
  | [], _, _, _ => []
  | it :: r, id, text, bmp =>
    if it.wID = id then { it with text := text, hbmpItem := bmp } :: r
    else it :: SetMenuItemInfoW r id text bmp

/-- `ApplyUpdateLabel(hWnd)`, with at most `fuel` nested calls (`none` when they do
not suffice); `n` counts the calls of `AppendMenuW` made so far. -/
def ApplyUpdateLabel (env : HostEnv) : Nat → Nat → Plugin W → Option (Plugin W)
  | 0, _, _ => none
  | fuel + 1, n, s =>
    match s.menu with
    | none => some s
    | some hMenu =>
      let s1 := EnsureMenuIcons env s
      if !HasUpdateItem hMenu then
        let hMenu1 := if env.appendOk n then AppendMenuW hMenu ID_MENU_UPDATE "更新" else hMenu
        ApplyUpdateLabel env fuel (n + 1) { s1 with menu := some hMenu1 }
      else
        let hBitmap :=
          if s1.g.g_MenuReady then
            if s1.g.g_UpdateAvailable then s1.g_hBmpUpdateAvail else s1.g_hBmpUpdateNone
          else none
        some { s1 with
          menu := some (SetMenuItemInfoW hMenu ID_MENU_UPDATE "更新" hBitmap)
          log := s1.log ++ [.drawMenuBar] }

/-- `EnsureUpdateMenuIfReady(hWnd)`. -/
def EnsureUpdateMenuIfReady (env : HostEnv) (fuel : Nat) (s : Plugin W) : Option (Plugin W) :=
  if !s.g.g_MenuReady then some s
  else
    match s.menu with
    | none => some s
    | some _ => ApplyUpdateLabel env fuel 0 s

/-- `ShowUpdatesDialog(hParent)`: the test `g_Updates.empty()` is a read of
`g_Updates`; the dialog itself is left to the host. -/
def ShowUpdatesDialog (s : Plugin W) : Plugin W :=
  if s.g.g_Updates.isEmpty then
    { s with log := s.log ++ [.readUpdates, .messageBox "現在、更新はありません。"] }
  else { s with log := s.log ++ [.readUpdates, .dialog] }

/-- `CallWindowProcW(g_OrigWndProc, hWnd, msg, wParam, lParam)` and its result: the
original window procedure is called when `g_OrigWndProc` holds it, and no procedure
is called while `g_OrigWndProc` is null. -/
def callOriginal (env : HostEnv) (hWnd msg wParam : Nat) (lParam : Int) (s : Plugin W) :
    Int × Plugin W :=
  match s.g_OrigWndProc with
  | some proc =>
    (env.origResult hWnd msg wParam lParam,
      { s with log := s.log ++ [.callOrig proc hWnd msg wParam lParam] })
  | none =>
    (env.nullResult, { s with log := s.log ++ [.callNull hWnd msg wParam lParam] })

/-- `HookedWndProc(hWnd, msg, wParam, lParam)`: the value returned and the state
after the call, `none` when the menu refresh does not return within `fuel` nested
calls. -/
def HookedWndProc (env : HostEnv) (fuel : Nat) (hWnd msg wParam : Nat) (lParam : Int)
    (s : Plugin W) : Option (Int × Plugin W) :=
  if msg = WM_INITMENU ∨ msg = WM_ENTERMENULOOP then
    match EnsureUpdateMenuIfReady env fuel s with
    | none => none
    | some s1 => some (callOriginal env hWnd msg wParam lParam s1)
  else if msg = WM_COMMAND then
    if LOWORD wParam = ID_MENU_UPDATE then some (0, ShowUpdatesDialog s)
    else some (callOriginal env hWnd msg wParam lParam s)
  else if msg = WM_DPICHANGED then
    match ApplyUpdateLabel env fuel 0 s with
    | none => none
    | some s1 => some (callOriginal env hWnd msg wParam lParam s1)
  else if msg = WM_APP_APPLY_MENU then
    match EnsureUpdateMenuIfReady env fuel s with
    | none => none
    | some s1 => some (0, s1)
  else some (callOriginal env hWnd msg wParam lParam s)

/-- The loop of `InjectorThread`, with `tries` iterations left: `found i` is what
`EnumWindows` finds in the iteration `i` (the window and the window procedure that
`SetWindowLongPtrW` returns for it). -/
def InjectorThreadLoop (found : Nat → Option (Nat × Option Nat)) :
    Nat → Nat → Plugin W → Plugin W
  | 0, _, s => s
  | tries + 1, i, s =>
    match found i with
    | some (hWnd, prev) =>
      let g1 := { s.g with g_MainWnd := some hWnd }
      let g2 := if g1.g_MenuReady then
          { g1 with posted := g1.posted ++ [(hWnd, WM_APP_APPLY_MENU)] }
        else g1
      { s with g := g2, g_OrigWndProc := prev }
    | none => InjectorThreadLoop found tries (i + 1) s

/-- `InjectorThread`. -/
def InjectorThread (found : Nat → Option (Nat × Option Nat)) (s : Plugin W) : Plugin W :=
  InjectorThreadLoop found 50 0 s

/-- `CleanupMenuIcons()`. -/
def CleanupMenuIcons (s : Plugin W) : Plugin W :=
  { s with g_hBmpUpdateAvail := none, g_hBmpUpdateNone := none, g_MenuIconSizePx := 0 }

/-- The case `DLL_PROCESS_DETACH` of `DllMain`; `reservedNull` is
`lpvReserved == nullptr`. -/
def ProcessDetach (reservedNull : Bool) (s : Plugin W) : Plugin W :=
  if reservedNull then
    let s1 :=
      if s.g.g_MainWnd.isSome ∧ s.g_OrigWndProc.isSome then
        { s with g := { s.g with g_MainWnd := none }, g_OrigWndProc := none }
      else s
    let s2 :=
      if s1.g_hDlgFont.isSome ∧ s1.g_hDlgFontOwned then
        { s1 with g_hDlgFont := none, g_hDlgFontOwned := false }
      else s1
    CleanupMenuIcons s2
  else s

/-- The operations of the module as steps on its state: the worker activity, the
locator, a message handled by the intercepting handler, the dialog procedure (which
writes the two font globals only), the teardown, and a change that the host makes to
its menu. -/
inductive PluginStep : Plugin W → Plugin W → Prop where
  | worker (e : Env) (s : Plugin W) (g1 : Globals W) :
      WorkerThread U82W e s.g = some g1 → PluginStep s { s with g := g1 }
  | locator (found : Nat → Option (Nat × Option Nat)) (s : Plugin W) :
      PluginStep s (InjectorThread found s)
  | message (env : HostEnv) (fuel hWnd msg wParam : Nat) (lParam : Int) (s : Plugin W)
      (r : Int) (s1 : Plugin W) :
      HookedWndProc env fuel hWnd msg wParam lParam s = some (r, s1) → PluginStep s s1
  | dialogProc (font : Option Nat) (owned : Bool) (s : Plugin W) :
      PluginStep s { s with g_hDlgFont := font, g_hDlgFontOwned := owned }
  | detach (reservedNull : Bool) (s : Plugin W) :
      PluginStep s (ProcessDetach reservedNull s)
  | host (menu : Option (List MenuItem)) (s : Plugin W) :
      PluginStep s { s with menu := menu }

/-- The states that the module reaches from its start. -/
def Reachable (s : Plugin W) : Prop :=
  ∃ menu, Relation.ReflTransGen (PluginStep U82W) (Plugin.initial menu) s

/-- The two bitmaps held in the globals, when they are not null, are the circle of
colour `RGB(76, 175, 80)` and the circle of colour `RGB(153, 153, 153)` of the size
`g_MenuIconSizePx`. -/
def IconsMade (s : Plugin W) : Prop :=
  (∀ b, s.g_hBmpUpdateAvail = some b →
      b = { color := RGB 76 175 80, size := s.g_MenuIconSizePx }) ∧
    ∀ b, s.g_hBmpUpdateNone = some b →
      b = { color := RGB 153 153 153, size := s.g_MenuIconSizePx }

end PluginOps

/-- The number of places in a sequence of flag values at which the value changes. -/
def flagChanges : List Bool → Nat
  | a :: b :: r => (if a = b then 0 else 1) + flagChanges (b :: r)
  | _ => 0

/-- The first item of the menu with this identifier. -/
def findItem : List MenuItem → Nat → Option MenuItem
  | [], _ => none
  | it :: r, id => if it.wID = id then some it else findItem r id

/-! ## Concrete hosts and states -/

/-- A host menu with the single item `File`. -/
def menuFile : List MenuItem := [{ wID := 1, text := "File", hbmpItem := none }]

/-- A host that recommends icons of 16 pixels, creates every bitmap, lets every
`AppendMenuW` succeed and whose original window procedure returns 7. -/
def hostAnswers : HostEnv :=
  { iconSize := 16, dibOk := fun _ _ => true, appendOk := fun _ => true,
    origResult := fun _ _ _ _ => 7, nullResult := 0 }

/-- The same host, with every `AppendMenuW` failing. -/
def hostAppendFails : HostEnv :=
  { iconSize := 16, dibOk := fun _ _ => true, appendOk := fun _ => false,
    origResult := fun _ _ _ _ => 7, nullResult := 0 }

/-- The same host, with the first `AppendMenuW` of a refresh failing and the second
one succeeding. -/
def hostSecondAppend : HostEnv :=
  { iconSize := 16, dibOk := fun _ _ => true, appendOk := fun n => decide (n = 1),
    origResult := fun _ _ _ _ => 7, nullResult := 0 }

/-- The host of `hostAnswers`, with `CreateDIBSection` failing. -/
def hostNoBitmaps : HostEnv :=
  { iconSize := 16, dibOk := fun _ _ => false, appendOk := fun _ => true,
    origResult := fun _ _ _ _ => 7, nullResult := 0 }

/-- Installed manifest `{"a":"1"}` and cached catalog `[{"id":"a","latest-version":"2"}]`. -/
def envOneUpdate : Env :=
  { downloadOk := true,
    installedJson := some "\x7b\"a\":\"1\"\x7d".toList,
    indexJson := some "[\x7b\"id\":\"a\",\"latest-version\":\"2\"\x7d]".toList }

/-- The globals after the worker has run on `envOneUpdate` from the initial state. -/
def globalsOneUpdate : Globals (List Char) :=
  { g_MenuReady := true, g_UpdateAvailable := true,
    g_Updates := [{ id := "a".toList, installed := "1".toList, latest := "2".toList }],
    g_MainWnd := none, posted := [] }

/-- The state after the worker has run on `envOneUpdate`, for a host window with the
menu `File`. -/
def pluginOneUpdate : Plugin (List Char) :=
  { (Plugin.initial (some menuFile) : Plugin (List Char)) with g := globalsOneUpdate }

/-- The state after the locator has found the window 1 with the menu `File` and has
stored its window procedure 4242 in `g_OrigWndProc`. -/
def pluginHooked : Plugin (List Char) :=
  InjectorThread (fun _ => some (1, some 4242)) (Plugin.initial (some menuFile))

/-! ## Wide strings: `Trim`, `StripQuotes`, `ToLower`, `ReadCatalogExePath` -/

/-- A `std::wstring` given by its UTF-16 code units (`wchar_t`), for the functions
that look inside a wide string. -/
abbrev WStr := List Nat

/-- The wide literal `L"..."` of a text whose characters are below U+10000. -/
def wide (s : String) : WStr := s.toList.map Char.toNat

/-- The loop `while (a < b && iswspace(s[a])) ++a;` of `Trim` with `b = s.size()`, on
the suffix that starts at index `a`; the result is the final `a`. -/
def trimFront (iswspace : Nat → Bool) : WStr → Nat → Nat
  | [], a => a
  | c :: cs, a => if iswspace c then trimFront iswspace cs (a + 1) else a

/-- The loop `while (b > a && iswspace(s[b - 1])) --b;` of `Trim`; the result is the
final `b`. -/
def trimBack (iswspace : Nat → Bool) (s : WStr) (a : Nat) : Nat → Nat
  | 0 => 0
  | b + 1 => if b + 1 > a ∧ iswspace (s.getD b 0) = true then trimBack iswspace s a b else b + 1

/-- `Trim(s)`; the library function `iswspace` is a parameter. -/
def Trim (iswspace : Nat → Bool) (s : WStr) : WStr :=
  let a := trimFront iswspace s 0
  let b := trimBack iswspace s a s.length
  (s.drop a).take (b - a)

/-- `StripQuotes(s)`. -/
def StripQuotes (s : WStr) : WStr :=
  if s.length ≥ 2 ∧ s.head? = some 34 ∧ s.getLast? = some 34 then
    (s.drop 1).take (s.length - 2)
  else s

/-- `ToLower(s)`; the library function `towlower` is a parameter. -/
def ToLower (towlower : Nat → Nat) (s : WStr) : WStr := s.map towlower

/-- `iswspace` on the code units below 128. -/
def iswspaceAscii (c : Nat) : Bool := c = 32 || (9 ≤ c && c ≤ 13)

/-- `towlower` on the code units below 128. -/
def towlowerAscii (c : Nat) : Nat := if 65 ≤ c ∧ c ≤ 90 then c + 32 else c

/-- `ReadCatalogExePath(outPath)`: the returned code and the value of `outPath` after
the call.  `settings` is the outcome of `ReadFileAll` on `settings.json` (the bytes
read, `none` when it returns `false`). -/
def ReadCatalogExePath (U82W : Str → WStr) (iswspace : Nat → Bool) (settings : Option Str)
    (outPath : WStr) : Int × WStr :=
  match settings with
  | none => (1, outPath)
  | some data =>
    let r := JsonFindString data "catalogDir".toList []
    if !r.1 then (2, outPath)
    else (0, Trim iswspace (U82W r.2))

/-! ## `LaunchExternalNoConsole` -/

/-- The constant `SW_HIDE`. -/
def SW_HIDE : Nat := 0

/-- The constant `SW_SHOWNORMAL`. -/
def SW_SHOWNORMAL : Nat := 1

/-- The constant `CREATE_NO_WINDOW`. -/
def CREATE_NO_WINDOW : Nat := 0x08000000

/-- The constant `MAX_PATH`. -/
def MAX_PATH : Nat := 260

/-- Model of `s.find_last_of(chars)`. -/
def findLastOf (s chars : WStr) : Option Nat :=
  ((List.range s.length).filter (fun i => chars.contains (s.getD i 0))).getLast?

/-- A call of the launcher to the operating system. -/
inductive Launch where
  /-- `ShellExecuteW(nullptr, verb, file, nullptr, dir, show)`; `dir = none` is
  `nullptr`. -/
  | shellExecute (verb file : WStr) (dir : Option WStr) (showCmd : Nat)
  /-- `CreateProcessW(app, cmdLine, nullptr, nullptr, FALSE, flags, nullptr, dir, &si,
  &pi)` with `si.wShowWindow = showWindow`; `none` is `nullptr`. -/
  | createProcess (app : WStr) (cmdLine : Option WStr) (flags : Nat) (dir : Option WStr)
      (showWindow : Nat)
  deriving DecidableEq, Repr

/-- The answers of the operating system to the launcher. -/
structure OsAnswers where
  /-- `GetFileAttributesW(path)`: whether the attributes are valid and have
  `FILE_ATTRIBUTE_DIRECTORY`. -/
  isDirectory : WStr → Bool
  /-- The value of the environment variable `COMSPEC`, `none` when it is not set. -/
  comspec : Option WStr
  /-- The result of `CreateProcessW` for an application name, a command line and a
  working directory. -/
  createProcessOk : WStr → Option WStr → Option WStr → Bool
  /-- The result of `ShellExecuteW`, as an `INT_PTR`, for a file and a working
  directory. -/
  shellExecuteResult : WStr → Option WStr → Int

/-- `LaunchExternalNoConsole(rawPath)`: the returned flag and the calls made to the
operating system, in order. -/
def LaunchExternalNoConsole (iswspace : Nat → Bool) (towlower : Nat → Nat) (os : OsAnswers)
    (rawPath : WStr) : Bool × List Launch :=
  let path := StripQuotes (Trim iswspace rawPath)
  if path = [] then (false, [])
  else if os.isDirectory path then
    (decide (os.shellExecuteResult path none > 32),
      [.shellExecute (wide "open") path none SW_SHOWNORMAL])
  else
    let lower := ToLower towlower path
    let ext : WStr :=
      match findLastOf lower (wide ".") with
      | some dot => lower.drop dot
      | none => []
    let workDir : WStr :=
      match findLastOf path (wide "/\\") with
      | some slash => path.take slash
      | none => []
    let dir : Option WStr := if workDir = [] then none else some workDir
    if ext = wide ".exe" then
      if os.createProcessOk path none dir then
        (true, [.createProcess path none CREATE_NO_WINDOW dir SW_SHOWNORMAL])
      else
        (decide (os.shellExecuteResult path dir > 32),
          [.createProcess path none CREATE_NO_WINDOW dir SW_SHOWNORMAL,
            .shellExecute (wide "open") path dir SW_SHOWNORMAL])
    else if ext = wide ".bat" ∨ ext = wide ".cmd" then
      let cmdExe : WStr :=
        match os.comspec with
        | some v => if 0 < v.length ∧ v.length < MAX_PATH then v
          else wide "C\\Windows\\System32\\cmd.exe"
        | none => wide "C\\Windows\\System32\\cmd.exe"
      let cmdLine : WStr := wide "/c \"" ++ path ++ wide "\""
      (os.createProcessOk cmdExe (some cmdLine) dir,
        [.createProcess cmdExe (some cmdLine) CREATE_NO_WINDOW dir SW_HIDE])
    else if ext = wide ".ps1" then
      let ps : WStr := wide "C\\Windows\\System32\\WindowsPowerShell\\v1.0\\powershell.exe"
      let cmdLine : WStr :=
        wide "-NoProfile -ExecutionPolicy Bypass -WindowStyle Hidden -File \"" ++ path ++
          wide "\""
      (os.createProcessOk ps (some cmdLine) dir,
        [.createProcess ps (some cmdLine) CREATE_NO_WINDOW dir SW_HIDE])
    else
      (decide (os.shellExecuteResult path dir > 32),
        [.shellExecute (wide "open") path dir SW_SHOWNORMAL])

/-- The operating system in which no path is a directory, `COMSPEC` is not set, and
the other answers are those given. -/
def osPlainFiles (createProcessOk : WStr → Option WStr → Option WStr → Bool)
    (shellExecuteResult : WStr → Option WStr → Int) : OsAnswers where
  isDirectory := fun _ => false
  comspec := none
  createProcessOk := createProcessOk
  shellExecuteResult := shellExecuteResult

/-! # Properties -/

/-! ## Facts about `StdMap` -/

section MapFacts

variable {W : Type} [LinearOrder W]

theorem StdMap.find_eq_some_of_mem {m : StdMap W} (hm : m.keys.Nodup) {k v : W}
    (h : (k, v) ∈ m) : m.find k = some v := by
  induction m with
  | nil => cases h
  | cons p r ih =>
    obtain ⟨k', v'⟩ := p
    have hnd : k' ∉ StdMap.keys r ∧ (StdMap.keys r).Nodup := by
      simpa [StdMap.keys] using hm
    rcases List.mem_cons.1 h with heq | hmem
    · cases heq
      simp [StdMap.find]
    · have hne : k ≠ k' := by
        rintro rfl
        exact hnd.1 (List.mem_map_of_mem Prod.fst hmem)
      simp [StdMap.find, hne, ih hnd.2 hmem]

theorem StdMap.mem_of_find_eq_some {m : StdMap W} {k v : W} (h : m.find k = some v) :
    (k, v) ∈ m := by
  induction m with
  | nil => simp [StdMap.find] at h
  | cons p r ih =>
    obtain ⟨k', v'⟩ := p
    by_cases hk : k = k'
    · subst hk
      simp [StdMap.find] at h
      simp [h]
    · simp [StdMap.find, hk] at h
      exact List.mem_cons_of_mem _ (ih h)

theorem compareVersions_foldl_mem (L : StdMap W) (I : StdMap W) (acc : List (UpdateEntry W))
    (e : UpdateEntry W) :
    e ∈ I.foldl
        (fun result kv =>
          match L.find kv.1 with
          | none => result
          | some latest =>
            if latest ≠ kv.2 then
              result ++ [{ id := kv.1, installed := kv.2, latest := latest }]
            else result)
        acc ↔
      e ∈ acc ∨ ((e.id, e.installed) ∈ I ∧ L.find e.id = some e.latest ∧
        e.installed ≠ e.latest) := by
  induction I generalizing acc with
  | nil => simp
  | cons p r ih =>
    obtain ⟨k, v⟩ := p
    rw [List.foldl_cons, ih]
    obtain ⟨ei, ev, el⟩ := e
    simp only [List.mem_cons, Prod.mk.injEq]
    cases hf : L.find k with
    | none =>
      simp only
      constructor
      · rintro (h | ⟨h1, h2, h3⟩)
        · exact Or.inl h
        · exact Or.inr ⟨Or.inr h1, h2, h3⟩
      · rintro (h | ⟨(⟨h0, _⟩ | h1), h2, h3⟩)
        · exact Or.inl h
        · rw [h0, hf] at h2
          cases h2
        · exact Or.inr ⟨h1, h2, h3⟩
    | some l =>
      by_cases hl : l = v
      · simp only [ne_eq, hl, not_true_eq_false, if_false]
        constructor
        · rintro (h | ⟨h1, h2, h3⟩)
          · exact Or.inl h
          · exact Or.inr ⟨Or.inr h1, h2, h3⟩
        · rintro (h | ⟨(⟨h0, h0'⟩ | h1), h2, h3⟩)
          · exact Or.inl h
          · rw [h0, hf, hl] at h2
            exact absurd (h0'.trans (Option.some.inj h2)) h3
          · exact Or.inr ⟨h1, h2, h3⟩
      · simp only [ne_eq, hl, not_false_eq_true, if_true, List.mem_append, List.mem_singleton,
          UpdateEntry.mk.injEq]
        constructor
        · rintro ((h | ⟨h0, h0', h0''⟩) | ⟨h1, h2, h3⟩)
          · exact Or.inl h
          · refine Or.inr ⟨Or.inl ⟨h0, h0'⟩, ?_, ?_⟩
            · rw [h0, hf, h0'']
            · rw [h0', h0'']
              exact fun h => hl h.symm
          · exact Or.inr ⟨Or.inr h1, h2, h3⟩
        · rintro (h | ⟨(⟨h0, h0'⟩ | h1), h2, h3⟩)
          · exact Or.inl (Or.inl h)
          · rw [h0, hf] at h2
            exact Or.inl (Or.inr ⟨h0, h0', (Option.some.inj h2).symm⟩)
          · exact Or.inr ⟨h1, h2, h3⟩

end MapFacts

/-! ## The comparison step (C1) -/

/-- C1: for an installed map `I` (each key once) and a catalog map `L`, the
comparison step of `ComputeUpdates` yields an entry `e` exactly when `e.id` is a key
of both maps, `e.installed = I[e.id]`, `e.latest = L[e.id]` and the two version
strings differ; no ordering of versions is involved and an id on one side only gives
no entry. -/
theorem compareVersions_entry_iff {W : Type} [LinearOrder W] (I L : StdMap W)
    (hI : I.keys.Nodup) (e : UpdateEntry W) :
    e ∈ compareVersions I L ↔
      I.find e.id = some e.installed ∧ L.find e.id = some e.latest ∧
        e.installed ≠ e.latest := by
  unfold compareVersions
  rw [compareVersions_foldl_mem]
  constructor
  · rintro (h | ⟨h1, h2, h3⟩)
    · cases h
    · exact ⟨StdMap.find_eq_some_of_mem hI h1, h2, h3⟩
  · rintro ⟨h1, h2, h3⟩
    exact Or.inr ⟨StdMap.mem_of_find_eq_some h1, h2, h3⟩

/-- Installed `2.0.0` against latest `1.9.0`: the entry is produced although the
latest version is the older one, and it is the only entry. -/
theorem compareVersions_entry_iff_witness :
    (StdMap.keys [("A".toList, "2.0.0".toList)]).Nodup ∧
      (({ id := "A".toList, installed := "2.0.0".toList, latest := "1.9.0".toList } :
            UpdateEntry (List Char)) ∈
          compareVersions [("A".toList, "2.0.0".toList)] [("A".toList, "1.9.0".toList)] ↔
        StdMap.find [("A".toList, "2.0.0".toList)] "A".toList = some "2.0.0".toList ∧
          StdMap.find [("A".toList, "1.9.0".toList)] "A".toList = some "1.9.0".toList ∧
          "2.0.0".toList ≠ "1.9.0".toList) ∧
      compareVersions [("A".toList, "2.0.0".toList)] [("A".toList, "1.9.0".toList)] =
        [{ id := "A".toList, installed := "2.0.0".toList, latest := "1.9.0".toList }] :=
  ⟨by decide,
    compareVersions_entry_iff [("A".toList, "2.0.0".toList)] [("A".toList, "1.9.0".toList)]
      (by decide) _,
    by decide⟩

/-! ## `ParseInstalledJson` on a manifest of two packages (C3) -/

/-- C3: on the installed manifest `{"a":"1","b":"2"}` the scanner resumes right after
the closing quote of each key, so the version `1` is read as a key whose value is the
next string `2`: the result has the three entries `1 -> 2`, `a -> 1`, `b -> 2`
instead of the two entries of the manifest. -/
theorem ParseInstalledJson_version_as_key :
    ParseInstalledJson asciiU82W installedTwo =
      some [("1".toList, "2".toList), ("a".toList, "1".toList), ("b".toList, "2".toList)] := by
  decide

/-! ## The filtered scan on four objects (C4) -/

set_option maxRecDepth 100000 in
/-- C4: with the wanted ids `A` and `C` the filtered scan of the document with the ids
`A`, `B`, `C`, `D` returns exactly `A -> 1` and `C -> 3`; three iterations of the
loop are enough, so the object of `D` is never scanned. -/
theorem ParseIndexLatestJsonFiltered_A_C :
    ParseIndexLatestJsonFiltered asciiU82W catalogABCD ["A".toList, "C".toList] =
        some [("A".toList, "1".toList), ("C".toList, "3".toList)] ∧
      ParseIndexLatestJsonFilteredLoop asciiU82W catalogABCD ["A".toList, "C".toList] 3 0 [] =
        some [("A".toList, "1".toList), ("C".toList, "3".toList)] := by
  decide

/-! ## `JsonFindString` on the two texts of the specification (C5) -/

set_option maxRecDepth 100000 in
/-- C5: `JsonFindString` with key `latest-version` returns `2.1` on
`{"id":"x","latest-version":"2.1"}`, and on a text whose value is written `"a\"b"` it
returns the three characters `a"b`; both calls succeed, whatever `out` held. -/
theorem JsonFindString_examples (out : Str) :
    JsonFindString textIdLatest "latest-version".toList out = (true, "2.1".toList) ∧
      JsonFindString textEscapedQuote "latest-version".toList out = (true, ['a', '"', 'b']) :=
  ⟨rfl, rfl⟩

/-! ## A version taken from the next object (C8) -/

set_option maxRecDepth 100000 in
/-- C8: on `[{"id":"A","latest-version":null},{"id":"B","latest-version":"2"}]` with the
wanted id `A`, the value of `id` opens at index 7 and the first closing brace after it
is at index 32; the key `latest-version`, searched from the colon at index 6, is at
index 11 and its colon at index 27, both before the brace, but the string extracted
after that colon opens at index 35, in the next object: the scan records `A -> id`. -/
theorem ParseIndexLatestJsonFiltered_crosses_brace :
    ParseIndexLatestJsonFiltered asciiU82W catalogNullVersion ["A".toList] =
        some [("A".toList, "id".toList)] ∧
      strFindChar catalogNullVersion '\x7d' 7 = some 32 ∧
      FindToken catalogNullVersion 6 lvToken = some 11 ∧
      strFindChar catalogNullVersion ':' 11 = some 27 ∧
      strFindChar catalogNullVersion '"' 28 = some 35 ∧
      ExtractJSONString catalogNullVersion 28 = some "id".toList := by
  decide

/-! ## Column widths (C9) -/

/-- C9: for a non-null list view, every client width and every margin, the three
column widths that `SetListViewColumnWidths` sets add up to
`clientCX - 2 * margin - 4`. -/
theorem SetListViewColumnWidths_sum (hList : Nat) (clientCX margin : Int) :
    ∃ w0 w1 w2 : Int,
      SetListViewColumnWidths (some hList) clientCX margin = some (w0, w1, w2) ∧
        w0 + w1 + w2 = clientCX - 2 * margin - 4 := by
  refine ⟨_, _, _, rfl, ?_⟩
  ring

/-! ## Missing local state (C10) -/

/-- C10: when the installed manifest cannot be loaded, or the cached catalog cannot be
loaded, `ComputeUpdates` returns with an empty update list and the flag
`g_UpdateAvailable` false, whatever the download did and whatever the globals held,
and `WorkerThread` then ends with `g_MenuReady` true (the list still empty and the
flag still false). -/
theorem ComputeUpdates_missing_state {W : Type} [LinearOrder W] (U82W : Str → W)
    (env : Env) (g : Globals W) (h : env.installedJson = none ∨ env.indexJson = none) :
    (∃ g1, ComputeUpdates U82W env g = some g1 ∧ g1.g_Updates = [] ∧
        g1.g_UpdateAvailable = false ∧ g1.g_MenuReady = g.g_MenuReady) ∧
      ∃ g2, WorkerThread U82W env g = some g2 ∧ g2.g_MenuReady = true ∧
        g2.g_Updates = [] ∧ g2.g_UpdateAvailable = false := by
  have hc : ComputeUpdates U82W env g =
      some { g with g_Updates := [], g_UpdateAvailable := false } := by
    unfold ComputeUpdates
    rcases h with h | h
    · rw [h]
    · rw [h]
      cases env.installedJson <;> rfl
  refine ⟨⟨_, hc, rfl, rfl, rfl⟩, ?_⟩
  unfold WorkerThread
  rw [hc]
  cases hw : g.g_MainWnd with
  | none =>
    simp only [hw]
    exact ⟨_, rfl, rfl, rfl, rfl⟩
  | some w =>
    simp only [hw]
    exact ⟨_, rfl, rfl, rfl, rfl⟩

/-- Installed manifest `{"a":"1","b":"2"}` present, cached catalog missing, download
failed, from the initial state. -/
theorem ComputeUpdates_missing_state_witness :
    ((some installedTwo : Option Str) = none ∨ (none : Option Str) = none) ∧
      ((∃ g1, ComputeUpdates asciiU82W
            { downloadOk := false, installedJson := some installedTwo, indexJson := none }
            Globals.initial = some g1 ∧ g1.g_Updates = [] ∧
          g1.g_UpdateAvailable = false ∧
          g1.g_MenuReady = (Globals.initial : Globals (List Char)).g_MenuReady) ∧
        ∃ g2, WorkerThread asciiU82W
            { downloadOk := false, installedJson := some installedTwo, indexJson := none }
            Globals.initial = some g2 ∧ g2.g_MenuReady = true ∧
          g2.g_Updates = [] ∧ g2.g_UpdateAvailable = false) :=
  ⟨Or.inr rfl,
    ComputeUpdates_missing_state asciiU82W
      { downloadOk := false, installedJson := some installedTwo, indexJson := none }
      Globals.initial (Or.inr rfl)⟩

/-! ## Facts about `std::string::find` -/

theorem findCharFrom_append (c : Char) (a b : Str) (i : Nat) (ha : c ∉ a) :
    findCharFrom c (a ++ c :: b) i = some (i + a.length) := by
  induction a generalizing i with
  | nil => simp [findCharFrom]
  | cons x xs ih =>
    have hx : x ≠ c := fun h => ha (by simp [h])
    have hxs : c ∉ xs := fun h => ha (List.mem_cons_of_mem _ h)
    rw [List.cons_append, findCharFrom, if_neg hx, ih (i + 1) hxs, List.length_cons]
    congr 1
    omega

theorem findCharFrom_none (c : Char) (s : Str) (i : Nat) (hs : c ∉ s) :
    findCharFrom c s i = none := by
  induction s generalizing i with
  | nil => rfl
  | cons x xs ih =>
    have hx : x ≠ c := fun h => hs (by simp [h])
    have hxs : c ∉ xs := fun h => hs (List.mem_cons_of_mem _ h)
    simp only [findCharFrom, hx, if_false, ih (i + 1) hxs]

/-- `s.find(c, pos)` when the text after `pos` is `a ++ c :: b` with no `c` in `a`. -/
theorem strFindChar_eq (s : Str) (c : Char) (pos : Nat) (a b : Str)
    (hs : s.drop pos = a ++ c :: b) (ha : c ∉ a) :
    strFindChar s c pos = some (pos + a.length) := by
  unfold strFindChar
  rw [hs, findCharFrom_append c a b pos ha]

/-- `s.find(c, pos)` when no `c` occurs from `pos` on. -/
theorem strFindChar_none (s : Str) (c : Char) (pos : Nat) (hs : c ∉ s.drop pos) :
    strFindChar s c pos = none := by
  unfold strFindChar
  exact findCharFrom_none c _ pos hs

theorem findStrFrom_first (tok pre rest : Str) (i : Nat)
    (hfirst : ∀ q, q < pre.length → ¬ tok <+: (pre ++ (tok ++ rest)).drop q) :
    findStrFrom tok (pre ++ (tok ++ rest)) i = some (i + pre.length) := by
  induction pre generalizing i with
  | nil =>
    cases h : tok ++ rest with
    | nil =>
      have ht : tok = [] := (List.append_eq_nil.1 h).1
      simp [findStrFrom, ht]
    | cons x xs =>
      have hp : tok.isPrefixOf (x :: xs) = true := by
        rw [List.isPrefixOf_iff_prefix, ← h]
        exact List.prefix_append _ _
      simp [findStrFrom, hp]
  | cons p ps ih =>
    have h0 : ¬ tok <+: p :: (ps ++ (tok ++ rest)) := by
      simpa using hfirst 0 (by simp)
    have hp : tok.isPrefixOf (p :: (ps ++ (tok ++ rest))) = false := by
      rw [← Bool.not_eq_true, List.isPrefixOf_iff_prefix]
      exact h0
    have hrec : ∀ q, q < ps.length → ¬ tok <+: (ps ++ (tok ++ rest)).drop q := by
      intro q hq
      simpa using hfirst (q + 1) (by simpa using hq)
    rw [List.cons_append, findStrFrom, hp, if_neg Bool.false_ne_true, ih (i + 1) hrec,
      List.length_cons]
    congr 1
    omega

theorem findStrFrom_none (tok s : Str) (i : Nat) (h : ¬ tok <:+: s) :
    findStrFrom tok s i = none := by
  induction s generalizing i with
  | nil =>
    have ht : tok ≠ [] := by
      rintro rfl
      exact h List.nil_infix
    simp [findStrFrom, ht]
  | cons x xs ih =>
    have hp : tok.isPrefixOf (x :: xs) = false := by
      rw [← Bool.not_eq_true, List.isPrefixOf_iff_prefix]
      exact fun hpre => h hpre.isInfix
    have hxs : ¬ tok <:+: xs := fun hin => h (hin.trans (List.suffix_cons x xs).isInfix)
    simp only [findStrFrom, hp, Bool.false_eq_true, if_false, ih (i + 1) hxs]

/-- `s.find(tok, 0)` when `s = pre ++ tok ++ rest` and `tok` starts at no earlier index. -/
theorem strFind_zero_first (tok pre rest : Str)
    (hfirst : ∀ q, q < pre.length → ¬ tok <+: (pre ++ (tok ++ rest)).drop q) :
    strFind (pre ++ (tok ++ rest)) tok 0 = some pre.length := by
  unfold strFind
  simp only [Nat.zero_le, if_true, List.drop_zero]
  rw [findStrFrom_first tok pre rest 0 hfirst, Nat.zero_add]

/-- `s.find(tok, 0)` when `tok` does not occur in `s`. -/
theorem strFind_zero_none (tok s : Str) (h : ¬ tok <:+: s) : strFind s tok 0 = none := by
  unfold strFind
  simp only [Nat.zero_le, if_true, List.drop_zero]
  exact findStrFrom_none tok s 0 h

/-! ## Facts about the loops of `JsonFindString` -/

theorem skipSpaces_append (ws rest : Str) (i : Nat) (hws : ∀ c ∈ ws, IsSpace c = true)
    (hrest : ∀ c r, rest = c :: r → IsSpace c = false) :
    skipSpaces (ws ++ rest) i = i + ws.length := by
  induction ws generalizing i with
  | nil =>
    cases rest with
    | nil => rfl
    | cons c r => simp [skipSpaces, hrest c r rfl]
  | cons x xs ih =>
    have hx : IsSpace x = true := hws x (by simp)
    have hxs : ∀ c ∈ xs, IsSpace c = true := fun c hc => hws c (List.mem_cons_of_mem _ hc)
    rw [List.cons_append, skipSpaces, if_pos hx, ih (i + 1) hxs, List.length_cons]
    omega

theorem readEscaped_plain (c : Char) (rest acc : Str) (h1 : c ≠ '\\') (h2 : c ≠ '"') :
    readEscaped (c :: rest) acc = readEscaped rest (acc ++ [c]) := by
  rw [readEscaped.eq_def]
  simp only [h1, h2, if_false]

theorem readEscaped_esc (c : Char) (rest acc : Str) :
    readEscaped ('\\' :: c :: rest) acc = readEscaped rest (acc ++ [c]) := by
  rw [readEscaped.eq_def]
  simp only [if_true]
  split_ifs with h1 h2 h3
  · rw [h1]
  · rw [h2]
  · rw [h3]
  · rfl

theorem readEscaped_closing (rest acc : Str) : readEscaped ('"' :: rest) acc = some acc := by
  rw [readEscaped.eq_def]
  simp

theorem readEscaped_written (ps : List Piece) (tl acc : Str) (hps : ∀ p ∈ ps, p.ok = true) :
    readEscaped (written ps ++ tl) acc = readEscaped tl (acc ++ decoded ps) := by
  induction ps generalizing acc with
  | nil => simp [written, decoded]
  | cons p ps ih =>
    have hrest : ∀ q ∈ ps, q.ok = true := fun q hq => hps q (List.mem_cons_of_mem _ hq)
    cases p with
    | plain c =>
      have hc : c ≠ '"' ∧ c ≠ '\\' := by
        simpa [Piece.ok] using hps (.plain c) (by simp)
      rw [written, decoded, List.cons_append, readEscaped_plain c _ _ hc.2 hc.1, ih _ hrest,
        List.append_assoc, List.singleton_append]
    | esc c =>
      rw [written, decoded, List.cons_append, List.cons_append, readEscaped_esc, ih _ hrest,
        List.append_assoc, List.singleton_append]

/-! ## `JsonFindString` on a text cut at the first occurrence of the key -/

/-- The index reached by `JsonFindString` after the key, the colon and the white space,
and what it does from there. -/
theorem JsonFindString_at_value (key out pre mid ws rest : Str)
    (hfirst : ∀ q, q < pre.length →
      ¬ quoted key <+: (pre ++ (quoted key ++ (mid ++ ':' :: (ws ++ rest)))).drop q)
    (hmid : ':' ∉ mid) (hws : ∀ c ∈ ws, IsSpace c = true)
    (hrest : ∀ c r, rest = c :: r → IsSpace c = false) :
    JsonFindString (pre ++ (quoted key ++ (mid ++ ':' :: (ws ++ rest)))) key out =
      if rest = [] ∨ rest.head? ≠ some '"' then (false, out)
      else
        match readEscaped rest.tail [] with
        | some acc => (true, acc)
        | none => (false, out) := by
  have hfind := strFind_zero_first (quoted key) pre (mid ++ ':' :: (ws ++ rest)) hfirst
  have hd1 : (pre ++ (quoted key ++ (mid ++ ':' :: (ws ++ rest)))).drop
      (pre.length + (quoted key).length) = mid ++ ':' :: (ws ++ rest) := by
    rw [← List.append_assoc, ← List.length_append]
    exact List.drop_left _ _
  have hcolon := strFindChar_eq _ ':' _ mid (ws ++ rest) hd1 hmid
  have hd2 : (pre ++ (quoted key ++ (mid ++ ':' :: (ws ++ rest)))).drop
      (pre.length + (quoted key).length + mid.length + 1) = ws ++ rest := by
    have : pre ++ (quoted key ++ (mid ++ ':' :: (ws ++ rest))) =
        (pre ++ quoted key ++ mid ++ [':']) ++ (ws ++ rest) := by simp
    rw [this]
    exact List.drop_left' (by simp only [List.length_append, List.length_cons, List.length_nil])
  have hd3 : (pre ++ (quoted key ++ (mid ++ ':' :: (ws ++ rest)))).drop
      (pre.length + (quoted key).length + mid.length + 1 + ws.length) = rest := by
    have : pre ++ (quoted key ++ (mid ++ ':' :: (ws ++ rest))) =
        (pre ++ quoted key ++ mid ++ [':'] ++ ws) ++ rest := by simp
    rw [this]
    exact List.drop_left' (by simp only [List.length_append, List.length_cons, List.length_nil])
  have hskip := skipSpaces_append ws rest
    (pre.length + (quoted key).length + mid.length + 1) hws hrest
  have hlen : (pre ++ (quoted key ++ (mid ++ ':' :: (ws ++ rest)))).length =
      pre.length + (quoted key).length + mid.length + 1 + ws.length + rest.length := by
    simp only [List.length_append, List.length_cons]
    omega
  have hget : (pre ++ (quoted key ++ (mid ++ ':' :: (ws ++ rest))))[
      pre.length + (quoted key).length + mid.length + 1 + ws.length]? = rest.head? := by
    rw [← List.head?_drop, hd3]
  have hd4 : (pre ++ (quoted key ++ (mid ++ ':' :: (ws ++ rest)))).drop
      (pre.length + (quoted key).length + mid.length + 1 + ws.length + 1) = rest.tail := by
    rw [← List.drop_drop, hd3, List.drop_one]
  unfold JsonFindString
  simp only
  rw [show (['"'] ++ key ++ ['"'] : Str) = quoted key from rfl, hfind]
  simp only
  rw [hcolon]
  simp only
  rw [hd2, hskip, hget, hd4, hlen]
  have hiff : (pre.length + (quoted key).length + mid.length + 1 + ws.length ≥
      pre.length + (quoted key).length + mid.length + 1 + ws.length + rest.length) ↔
      rest = [] := by
    rw [← List.length_eq_zero]
    omega
  simp only [hiff]

/-! ## `JsonFindString` on well-formed fields (C6) -/

/-- C6: on the text `"k" ws1 : ws2 "t" trailing`, with `ws1` and `ws2` white space and
`t` written with plain bytes and backslash pairs, `JsonFindString` with key `k`
succeeds and returns `t` with every pair `\c` replaced by the byte `c`. -/
theorem JsonFindString_decodes (key ws1 ws2 : Str) (ps : List Piece) (trailing out : Str)
    (h1 : ∀ c ∈ ws1, IsSpace c = true) (h2 : ∀ c ∈ ws2, IsSpace c = true)
    (hps : ∀ p ∈ ps, p.ok = true) :
    JsonFindString
        (quoted key ++ ws1 ++ [':'] ++ ws2 ++ ['"'] ++ written ps ++ ['"'] ++ trailing)
        key out = (true, decoded ps) := by
  have hjson : quoted key ++ ws1 ++ [':'] ++ ws2 ++ ['"'] ++ written ps ++ ['"'] ++ trailing =
      [] ++ (quoted key ++ (ws1 ++ ':' :: (ws2 ++ '"' :: (written ps ++ '"' :: trailing)))) := by
    simp
  have hmid : ':' ∉ ws1 := fun h => by
    have := h1 ':' h
    simp [IsSpace] at this
  rw [hjson, JsonFindString_at_value key out [] ws1 ws2 _ (fun q hq => by simp at hq) hmid h2
    (fun c r hcr => by
      cases hcr
      decide)]
  rw [if_neg (by simp)]
  rw [List.tail_cons, readEscaped_written ps _ _ hps, readEscaped_closing, List.nil_append]

/-- The text `"k" : "a\"b\n\\\/c"}` (a space before the colon, a line feed after it). -/
theorem JsonFindString_decodes_witness :
    (∀ c ∈ [' '], IsSpace c = true) ∧ (∀ c ∈ ['\n'], IsSpace c = true) ∧
      (∀ p ∈ [Piece.plain 'a', .esc '"', .plain 'b', .esc 'n', .esc '\\', .esc '/', .plain 'c'],
        p.ok = true) ∧
      JsonFindString
          (quoted ['k'] ++ [' '] ++ [':'] ++ ['\n'] ++ ['"'] ++
            written [Piece.plain 'a', .esc '"', .plain 'b', .esc 'n', .esc '\\', .esc '/',
              .plain 'c'] ++ ['"'] ++ ['\x7d'])
          ['k'] [] =
        (true, decoded [Piece.plain 'a', .esc '"', .plain 'b', .esc 'n', .esc '\\', .esc '/',
              .plain 'c']) ∧
      decoded [Piece.plain 'a', .esc '"', .plain 'b', .esc 'n', .esc '\\', .esc '/', .plain 'c'] =
        ['a', '"', 'b', 'n', '\\', '/', 'c'] :=
  ⟨by decide, by decide, by decide,
    JsonFindString_decodes ['k'] [' '] ['\n'] _ ['\x7d'] [] (by decide) (by decide) (by decide),
    rfl⟩

/-! ## `JsonFindString` on absent or malformed keys (C7) -/

/-- C7: when the quoted key does not occur in the text, or no colon follows its first
occurrence, or what follows that colon and the white space behind it does not start
with a double quote, or the string that starts there is never closed,
`JsonFindString` returns `false` and leaves `out` as it was. -/
theorem JsonFindString_not_found (json key out : Str) (h : KeyAbsentOrMalformed json key) :
    JsonFindString json key out = (false, out) := by
  rcases h with habs | ⟨pre, after, hjson, hfirst, hcase⟩
  · unfold JsonFindString
    simp only
    rw [show (['"'] ++ key ++ ['"'] : Str) = quoted key from rfl,
      strFind_zero_none (quoted key) json habs]
  · rw [List.append_assoc] at hjson
    subst hjson
    rcases hcase with hnocolon | ⟨mid, ws, rest, hafter, hmid, hws, hrest⟩
    · have hfind := strFind_zero_first (quoted key) pre after hfirst
      have hd : (pre ++ (quoted key ++ after)).drop (pre.length + (quoted key).length) =
          after := by
        rw [← List.append_assoc, ← List.length_append]
        exact List.drop_left _ _
      have hc := strFindChar_none (pre ++ (quoted key ++ after)) ':'
        (pre.length + (quoted key).length) (by rw [hd]; exact hnocolon)
      unfold JsonFindString
      simp only
      rw [show (['"'] ++ key ++ ['"'] : Str) = quoted key from rfl, hfind]
      simp only
      rw [hc]
    · have hafter2 : after = mid ++ ':' :: (ws ++ rest) := by
        rw [hafter]
        simp
      subst hafter2
      rcases hrest with hno | ⟨body, hbody, ps, tl, hps, hok, htl⟩
      · have hsp : ∀ c r, rest = c :: r → IsSpace c = false := by
          intro c r hcr
          rcases hno with hnil | ⟨c', r', hcr', _, hc'⟩
          · rw [hnil] at hcr
            cases hcr
          · rw [hcr'] at hcr
            cases hcr
            exact hc'
        rw [JsonFindString_at_value key out pre mid ws rest hfirst hmid hws hsp]
        apply if_pos
        rcases hno with hnil | ⟨c', r', hcr', hq, _⟩
        · exact Or.inl hnil
        · right
          rw [hcr']
          simpa using hq
      · subst hbody
        rw [JsonFindString_at_value key out pre mid ws _ hfirst hmid hws
          (fun c r hcr => by
            cases hcr
            decide)]
        rw [if_neg (by simp), List.tail_cons, hps, readEscaped_written ps tl [] hok]
        rcases htl with htl | htl
        · rw [htl]
          rfl
        · rw [htl]
          rfl

/-- The text `{"a" : 12}` with key `a`: the value is a number. -/
theorem JsonFindString_not_found_witness :
    KeyAbsentOrMalformed textNumberValue ['a'] ∧
      JsonFindString textNumberValue ['a'] ['o', 'l', 'd'] = (false, ['o', 'l', 'd']) :=
  have h : KeyAbsentOrMalformed textNumberValue ['a'] :=
    Or.inr ⟨['\x7b'], " : 12\x7d".toList, rfl,
      fun q hq => by
        have hq0 : q = 0 := by
          simpa using hq
        subst hq0
        decide,
      Or.inr ⟨[' '], [' '], "12\x7d".toList, rfl, by decide, by decide,
        Or.inl (Or.inr ⟨'1', "2\x7d".toList, rfl, by decide, by decide⟩)⟩⟩
  ⟨h, JsonFindString_not_found textNumberValue ['a'] ['o', 'l', 'd'] h⟩

/-! ## Searching a quoted token in a text made of quoted strings -/

theorem quoted_eq_cons (t : Str) : quoted t = '"' :: (t ++ ['"']) := rfl

theorem quoted_length (t : Str) : (quoted t).length = t.length + 2 := by
  simp [quoted]

theorem isPrefixOf_quoted_cons (t Z : Str) (c : Char) (hc : c ≠ '"') :
    (quoted t).isPrefixOf (c :: Z) = false := by
  rw [← Bool.not_eq_true, List.isPrefixOf_iff_prefix, quoted_eq_cons, List.cons_prefix_cons]
  exact fun h => hc h.1.symm

theorem findStrFrom_skip_chars (t A Z : Str) (i : Nat) (hA : '"' ∉ A) :
    findStrFrom (quoted t) (A ++ Z) i = findStrFrom (quoted t) Z (i + A.length) := by
  induction A generalizing i with
  | nil => rfl
  | cons c A ih =>
    have hc : c ≠ '"' := fun h => hA (by simp [h])
    have hA2 : '"' ∉ A := fun h => hA (List.mem_cons_of_mem _ h)
    rw [List.cons_append, findStrFrom, isPrefixOf_quoted_cons t _ c hc,
      if_neg Bool.false_ne_true, ih (i + 1) hA2, List.length_cons]
    congr 1
    omega

theorem findStrFrom_skip_char (t Z : Str) (c : Char) (i : Nat) (hc : c ≠ '"') :
    findStrFrom (quoted t) (c :: Z) i = findStrFrom (quoted t) Z (i + 1) := by
  rw [findStrFrom, isPrefixOf_quoted_cons t _ c hc, if_neg Bool.false_ne_true]

/-- Two quote-free contents that are both closed by a quote at the start of one text
are equal. -/
theorem closing_quote_unique (t s Z : Str) (ht : '"' ∉ t) (hs : '"' ∉ s)
    (h : t ++ ['"'] <+: s ++ '"' :: Z) : s = t := by
  induction t generalizing s with
  | nil =>
    cases s with
    | nil => rfl
    | cons c s =>
      rw [List.nil_append, List.cons_append, List.cons_prefix_cons] at h
      exact absurd h.1 (fun hq => hs (List.mem_cons.2 (Or.inl hq)))
  | cons a t ih =>
    cases s with
    | nil =>
      rw [List.nil_append, List.cons_append, List.cons_prefix_cons] at h
      exact absurd h.1 (fun hq => ht (List.mem_cons.2 (Or.inl hq.symm)))
    | cons c s =>
      rw [List.cons_append, List.cons_append, List.cons_prefix_cons] at h
      rw [h.1, ih s (fun hq => ht (List.mem_cons_of_mem _ hq))
        (fun hq => hs (List.mem_cons_of_mem _ hq)) h.2]

theorem findStrFrom_skip_quoted (t s Z : Str) (i : Nat) (ht : '"' ∉ t) (hs : '"' ∉ s)
    (hne : s ≠ t) (hZ : ¬ t ++ ['"'] <+: Z) :
    findStrFrom (quoted t) (quoted s ++ Z) i =
      findStrFrom (quoted t) Z (i + (quoted s).length) := by
  have hopen : (quoted t).isPrefixOf ('"' :: (s ++ '"' :: Z)) = false := by
    rw [← Bool.not_eq_true, List.isPrefixOf_iff_prefix, quoted_eq_cons, List.cons_prefix_cons]
    exact fun h => hne (closing_quote_unique t s Z ht hs h.2)
  have hclose : (quoted t).isPrefixOf ('"' :: Z) = false := by
    rw [← Bool.not_eq_true, List.isPrefixOf_iff_prefix, quoted_eq_cons, List.cons_prefix_cons]
    exact fun h => hZ h.2
  have hshape : quoted s ++ Z = '"' :: (s ++ '"' :: Z) := by
    simp [quoted]
  rw [hshape, findStrFrom, hopen, if_neg Bool.false_ne_true, findStrFrom_skip_chars t s _ _ hs,
    findStrFrom, hclose, if_neg Bool.false_ne_true, quoted_length]
  congr 1
  omega

theorem findStrFrom_here (tok Y : Str) (i : Nat) (htok : tok ≠ []) :
    findStrFrom tok (tok ++ Y) i = some i := by
  cases h : tok ++ Y with
  | nil => exact absurd (List.append_eq_nil.1 h).1 htok
  | cons x xs =>
    have hp : tok.isPrefixOf (x :: xs) = true := by
      rw [List.isPrefixOf_iff_prefix, ← h]
      exact List.prefix_append _ _
    rw [findStrFrom, hp, if_pos rfl]

/-- A text that starts with one of the separators `,`, `:`, right brace. -/
theorem key_not_prefix_of_sep (t Z : Str) (ht : t = idKey ∨ t = lvKey) (d : Char)
    (hd : d = ',' ∨ d = ':' ∨ d = '\x7d') : ¬ t ++ ['"'] <+: d :: Z := by
  intro h
  rcases ht with rfl | rfl
  · have h1 : 'i' = d := by
      simpa [idKey] using h.head
    subst h1
    revert hd
    decide
  · have h1 : 'l' = d := by
      have h2 : ('l' :: ("atest-version".toList ++ ['"'])) <+: d :: Z := h
      rw [List.cons_prefix_cons] at h2
      exact h2.1
    subst h1
    revert hd
    decide

theorem not_mem_of_clean (s : Str) (hs : clean s = true) :
    '"' ∉ s ∧ '\x7d' ∉ s := by
  unfold clean at hs
  rw [List.all_eq_true] at hs
  constructor
  · intro h
    have := hs _ h
    revert this
    decide
  · intro h
    have := hs _ h
    revert this
    decide

theorem findStrFrom_skip_field (t : Str) (ht : t = idKey ∨ t = lvKey) (f : Field) (Z : Str)
    (i : Nat) (hk : '"' ∉ f.key) (hv : '"' ∉ f.value) (hkne : f.key ≠ t) (hvne : f.value ≠ t)
    (d : Char) (Z1 : Str) (hZ : Z = d :: Z1) (hd : d = ',' ∨ d = ':' ∨ d = '\x7d') :
    findStrFrom (quoted t) (f.text ++ Z) i = findStrFrom (quoted t) Z (i + f.text.length) := by
  have htq : '"' ∉ t := by
    rcases ht with rfl | rfl <;> decide
  have hshape : f.text ++ Z = quoted f.key ++ ':' :: (quoted f.value ++ Z) := by
    simp [Field.text]
  rw [hshape, findStrFrom_skip_quoted t f.key _ _ htq hk hkne
      (key_not_prefix_of_sep t _ ht ':' (Or.inr (Or.inl rfl))),
    findStrFrom_skip_char t _ ':' _ (by decide),
    findStrFrom_skip_quoted t f.value _ _ htq hv hvne
      (by rw [hZ]; exact key_not_prefix_of_sep t _ ht d hd)]
  congr 1
  simp [Field.text]
  omega

theorem findStrFrom_skip_trailingComma (t : Str) (ht : t = idKey ∨ t = lvKey) (fs : List Field)
    (Z : Str) (i : Nat)
    (hfs : ∀ f ∈ fs, '"' ∉ f.key ∧ '"' ∉ f.value ∧ f.key ≠ t ∧ f.value ≠ t) :
    findStrFrom (quoted t) (trailingComma fs ++ Z) i =
      findStrFrom (quoted t) Z (i + (trailingComma fs).length) := by
  induction fs generalizing i with
  | nil => rfl
  | cons f r ih =>
    obtain ⟨hk, hv, hkne, hvne⟩ := hfs f (by simp)
    have hr := fun g hg => hfs g (List.mem_cons_of_mem _ hg)
    have hshape : trailingComma (f :: r) ++ Z = f.text ++ ',' :: (trailingComma r ++ Z) := by
      simp [trailingComma]
    rw [hshape, findStrFrom_skip_field t ht f _ _ hk hv hkne hvne ',' _ rfl (Or.inl rfl),
      findStrFrom_skip_char t _ ',' _ (by decide), ih _ hr]
    congr 1
    simp [trailingComma]
    omega

theorem findStrFrom_skip_leadingComma (t : Str) (ht : t = idKey ∨ t = lvKey) (fs : List Field)
    (Z : Str) (i : Nat)
    (hfs : ∀ f ∈ fs, '"' ∉ f.key ∧ '"' ∉ f.value ∧ f.key ≠ t ∧ f.value ≠ t)
    (d : Char) (Z1 : Str) (hZ : Z = d :: Z1) (hd : d = ',' ∨ d = ':' ∨ d = '\x7d') :
    findStrFrom (quoted t) (leadingComma fs ++ Z) i =
      findStrFrom (quoted t) Z (i + (leadingComma fs).length) := by
  induction fs generalizing i with
  | nil => rfl
  | cons f r ih =>
    obtain ⟨hk, hv, hkne, hvne⟩ := hfs f (by simp)
    have hr := fun g hg => hfs g (List.mem_cons_of_mem _ hg)
    have hshape : leadingComma (f :: r) ++ Z = ',' :: (f.text ++ (leadingComma r ++ Z)) := by
      simp [leadingComma]
    have hnext : ∃ d2 Z2, leadingComma r ++ Z = d2 :: Z2 ∧
        (d2 = ',' ∨ d2 = ':' ∨ d2 = '\x7d') := by
      cases r with
      | nil => exact ⟨d, Z1, by simpa [leadingComma] using hZ, hd⟩
      | cons g r2 =>
        exact ⟨',', g.text ++ (leadingComma r2 ++ Z), by simp [leadingComma], Or.inl rfl⟩
    obtain ⟨d2, Z2, hZ2, hd2⟩ := hnext
    rw [hshape, findStrFrom_skip_char t _ ',' _ (by decide),
      findStrFrom_skip_field t ht f _ _ hk hv hkne hvne d2 Z2 hZ2 hd2, ih _ hr]
    congr 1
    simp [leadingComma]
    omega

theorem drop_add_of_drop_eq (s : Str) (pos : Nat) (P R : Str) (h : s.drop pos = P ++ R) :
    s.drop (pos + P.length) = R := by
  rw [← List.drop_drop, h, List.drop_left]

/-- `ExtractJSONString` when the text from `p` on is `A`, free of quotes, then the
quoted string `v`, free of quotes. -/
theorem ExtractJSONString_eq (s : Str) (p : Nat) (A v R : Str)
    (hs : s.drop p = A ++ (quoted v ++ R)) (hA : '"' ∉ A) (hv : '"' ∉ v) :
    ExtractJSONString s p = some v := by
  have h1 : strFindChar s '"' p = some (p + A.length) :=
    strFindChar_eq s '"' p A (v ++ '"' :: R) (by rw [hs]; simp [quoted]) hA
  have hd : s.drop (p + A.length + 1) = v ++ '"' :: R := by
    have := drop_add_of_drop_eq s p (A ++ ['"']) (v ++ '"' :: R) (by rw [hs]; simp [quoted])
    simpa [Nat.add_assoc] using this
  have h2 : strFindChar s '"' (p + A.length + 1) = some (p + A.length + 1 + v.length) :=
    strFindChar_eq s '"' _ v R hd hv
  unfold ExtractJSONString
  rw [h1]
  simp only
  rw [h2]
  simp only
  unfold substr
  rw [hd, Nat.add_sub_cancel_left, List.take_left]

/-! ## One iteration of the filtered scan on a well-placed object -/

theorem strFind_of_drop (s tok : Str) (pos : Nat) (R : Str) (hR : R ≠ [])
    (hdrop : s.drop pos = R) : strFind s tok pos = findStrFrom tok R pos := by
  have hpos : pos ≤ s.length := by
    by_contra hlt
    exact hR (by rw [← hdrop]; exact List.drop_eq_nil_of_le (by omega))
  unfold strFind
  rw [if_pos hpos, hdrop]

/-- The iteration that starts at `pos` when the text from `pos` on is `X`, the key
`id` with the value `id`, the text `Bt`, the key `latest-version` with the value
`latest`, the text `C` and the closing brace, the two keys being found where they
stand. -/
theorem ParseIndexLatestJsonFilteredStep_object {W : Type} [LinearOrder W] (U82W : Str → W)
    (json : Str) (wanted : List W) (pos : Nat) (m : StdMap W) (X id Bt latest C T : Str)
    (hdrop : json.drop pos = X ++ (idToken ++ ':' :: (quoted id ++ (Bt ++
      (lvToken ++ ':' :: (quoted latest ++ (C ++ '\x7d' :: T)))))))
    (hfindId : findStrFrom idToken (json.drop pos) pos = some (pos + X.length))
    (hfindLv : findStrFrom lvToken (':' :: (quoted id ++ (Bt ++
        (lvToken ++ ':' :: (quoted latest ++ (C ++ '\x7d' :: T)))))) (pos + X.length + 4) =
      some (pos + X.length + 4 + 1 + (quoted id).length + Bt.length))
    (hid : '"' ∉ id) (hlat : '"' ∉ latest)
    (hbrace : '\x7d' ∉ quoted id ++ (Bt ++ (lvToken ++ ':' :: (quoted latest ++ C)))) :
    ParseIndexLatestJsonFilteredStep U82W json wanted pos m =
      if isWanted wanted (U82W id) then
        if (m.set (U82W id) (U82W latest)).size ≥ wanted.length then
          .stop (m.set (U82W id) (U82W latest))
        else
          .cont (pos + X.length + 4 + 1 + (quoted id).length + Bt.length + 16 + 1 +
            (quoted latest).length + C.length + 1) (m.set (U82W id) (U82W latest))
      else
        .cont (pos + X.length + 4 + 1 + (quoted id).length + Bt.length + 16 + 1 +
          (quoted latest).length + C.length + 1) m := by
  -- the key `id`
  have hX : X ++ (idToken ++ ':' :: (quoted id ++ (Bt ++
      (lvToken ++ ':' :: (quoted latest ++ (C ++ '\x7d' :: T)))))) ≠ [] := by
    simp [idToken]
  have e1 : FindToken json pos idToken = some (pos + X.length) := by
    unfold FindToken
    rw [strFind_of_drop json idToken pos _ hX hdrop, ← hdrop, hfindId]
  -- its colon
  have d1 := drop_add_of_drop_eq json pos X _ hdrop
  have e2 : strFindChar json ':' (pos + X.length) = some (pos + X.length + 4) :=
    strFindChar_eq json ':' _ idToken _ d1 (by decide)
  have d2 : json.drop (pos + X.length + 4) = ':' :: (quoted id ++ (Bt ++
      (lvToken ++ ':' :: (quoted latest ++ (C ++ '\x7d' :: T))))) :=
    drop_add_of_drop_eq json _ idToken _ d1
  have d3 : json.drop (pos + X.length + 4 + 1) = quoted id ++ (Bt ++
      (lvToken ++ ':' :: (quoted latest ++ (C ++ '\x7d' :: T)))) :=
    drop_add_of_drop_eq json _ [':'] _ d2
  -- the value of `id`
  have e3 : ExtractJSONString json (pos + X.length + 4 + 1) = some id :=
    ExtractJSONString_eq json _ [] id _ d3 (by simp) hid
  have e4 : strFindChar json '"' (pos + X.length + 4 + 1) = some (pos + X.length + 4 + 1) :=
    strFindChar_eq json '"' _ [] (id ++ '"' :: (Bt ++
      (lvToken ++ ':' :: (quoted latest ++ (C ++ '\x7d' :: T))))) (by rw [d3]; simp [quoted])
      (by simp)
  -- the closing brace
  have e5 : strFindChar json '\x7d' (pos + X.length + 4 + 1) =
      some (pos + X.length + 4 + 1 + (quoted id).length + Bt.length + 16 + 1 +
        (quoted latest).length + C.length) := by
    rw [strFindChar_eq json '\x7d' _
      (quoted id ++ (Bt ++ (lvToken ++ ':' :: (quoted latest ++ C)))) T (by rw [d3]; simp) hbrace]
    congr 1
    simp [lvToken]
    omega
  -- the key `latest-version`
  have e6 : FindToken json (pos + X.length + 4) lvToken =
      some (pos + X.length + 4 + 1 + (quoted id).length + Bt.length) := by
    unfold FindToken
    rw [strFind_of_drop json lvToken _ _ (by simp) d2, hfindLv]
  have d4 : json.drop (pos + X.length + 4 + 1 + (quoted id).length + Bt.length) =
      lvToken ++ ':' :: (quoted latest ++ (C ++ '\x7d' :: T)) := by
    have := drop_add_of_drop_eq json _ (quoted id ++ Bt) _
      (by rw [d3, List.append_assoc])
    simpa [Nat.add_assoc] using this
  have e7 : strFindChar json ':' (pos + X.length + 4 + 1 + (quoted id).length + Bt.length) =
      some (pos + X.length + 4 + 1 + (quoted id).length + Bt.length + 16) :=
    strFindChar_eq json ':' _ lvToken _ d4 (by decide)
  have d5 : json.drop (pos + X.length + 4 + 1 + (quoted id).length + Bt.length + 16 + 1) =
      quoted latest ++ (C ++ '\x7d' :: T) := by
    have := drop_add_of_drop_eq json _ (lvToken ++ [':']) (quoted latest ++ (C ++ '\x7d' :: T))
      (by rw [d4]; simp)
    simpa [Nat.add_assoc, lvToken] using this
  have e8 : ExtractJSONString json
      (pos + X.length + 4 + 1 + (quoted id).length + Bt.length + 16 + 1) = some latest :=
    ExtractJSONString_eq json _ [] latest _ d5 (by simp) hlat
  unfold ParseIndexLatestJsonFilteredStep
  rw [e1]
  simp only
  rw [e2]
  simp only
  rw [e3]
  simp only
  rw [e4]
  simp only
  rw [e5]
  simp only
  rw [e6]
  simp only
  rw [e7]
  simp only
  rw [e8]
  simp only
  have c1 : ¬ (pos + X.length + 4 + 1 + (quoted id).length + Bt.length >
      pos + X.length + 4 + 1 + (quoted id).length + Bt.length + 16 + 1 +
        (quoted latest).length + C.length) := by omega
  have c2 : ¬ (pos + X.length + 4 + 1 + (quoted id).length + Bt.length + 16 >
      pos + X.length + 4 + 1 + (quoted id).length + Bt.length + 16 + 1 +
        (quoted latest).length + C.length) := by omega
  rw [if_neg c1, if_neg c2]
  cases hw : isWanted wanted (U82W id) <;> simp

/-! ## The filtered scan on a catalog document -/

theorem idToken_eq : idToken = quoted idKey := rfl

theorem lvToken_eq : lvToken = quoted lvKey := rfl

theorem Field.other_facts (f : Field) (h : f.other = true) :
    ('"' ∉ f.key ∧ '"' ∉ f.value) ∧ ('\x7d' ∉ f.key ∧ '\x7d' ∉ f.value) ∧
      f.key ≠ idKey ∧ f.key ≠ lvKey := by
  unfold Field.other at h
  simp only [Bool.and_eq_true, bne_iff_ne, ne_eq] at h
  obtain ⟨⟨⟨hk, hv⟩, h1⟩, h2⟩ := h
  exact ⟨⟨(not_mem_of_clean _ hk).1, (not_mem_of_clean _ hv).1⟩,
    ⟨(not_mem_of_clean _ hk).2, (not_mem_of_clean _ hv).2⟩, h1, h2⟩

theorem brace_not_mem_quoted (s : Str) (hs : '\x7d' ∉ s) : '\x7d' ∉ quoted s := by
  simp only [quoted, List.mem_append, List.mem_singleton, not_or]
  exact ⟨⟨by decide, hs⟩, by decide⟩

theorem brace_not_mem_leadingComma (fs : List Field)
    (hfs : ∀ f ∈ fs, '\x7d' ∉ f.key ∧ '\x7d' ∉ f.value) : '\x7d' ∉ leadingComma fs := by
  induction fs with
  | nil => simp [leadingComma]
  | cons f r ih =>
    obtain ⟨hk, hv⟩ := hfs f (by simp)
    have hr := ih (fun g hg => hfs g (List.mem_cons_of_mem _ hg))
    simp only [leadingComma, Field.text, List.mem_cons, List.mem_append, not_or]
    exact ⟨⟨by decide, brace_not_mem_quoted _ hk, by decide, brace_not_mem_quoted _ hv⟩, hr⟩

theorem CatalogObject.text_length (o : CatalogObject) :
    o.text.length = 1 + (trailingComma o.before).length + 4 + 1 + (quoted o.id).length +
      ((leadingComma o.between).length + 1) + 16 + 1 + (quoted o.latest).length +
      (leadingComma o.behind).length + 1 := by
  simp [CatalogObject.text, quoted, idKey, lvKey]
  omega

/-- The iteration that starts at `pos` when the text from `pos` on is a byte `d` other
than a quote followed by a well-formed object. -/
theorem ParseIndexLatestJsonFilteredStep_wellFormed {W : Type} [LinearOrder W]
    (U82W : Str → W) (json : Str) (wanted : List W) (pos : Nat) (m : StdMap W) (d : Char)
    (hd : d ≠ '"') (o : CatalogObject) (ho : o.wellFormed = true) (T : Str)
    (hdrop : json.drop pos = d :: (o.text ++ T)) :
    ParseIndexLatestJsonFilteredStep U82W json wanted pos m =
      if isWanted wanted (U82W o.id) then
        if (m.set (U82W o.id) (U82W o.latest)).size ≥ wanted.length then
          .stop (m.set (U82W o.id) (U82W o.latest))
        else .cont (pos + (1 + o.text.length)) (m.set (U82W o.id) (U82W o.latest))
      else .cont (pos + (1 + o.text.length)) m := by
  unfold CatalogObject.wellFormed at ho
  simp only [Bool.and_eq_true, List.all_eq_true, bne_iff_ne, ne_eq] at ho
  obtain ⟨⟨⟨⟨⟨⟨⟨hbef, hbet⟩, hbeh⟩, hcid⟩, hclat⟩, hbefv⟩, hbetv⟩, hidne⟩ := ho
  have hshape : d :: (o.text ++ T) =
      (d :: '\x7b' :: trailingComma o.before) ++ (idToken ++ ':' :: (quoted o.id ++
        ((leadingComma o.between ++ [',']) ++ (lvToken ++ ':' :: (quoted o.latest ++
          (leadingComma o.behind ++ '\x7d' :: T)))))) := by
    simp [CatalogObject.text, idToken_eq, lvToken_eq]
  rw [hshape] at hdrop
  have hfindId : findStrFrom idToken (json.drop pos) pos =
      some (pos + (d :: '\x7b' :: trailingComma o.before).length) := by
    rw [hdrop, idToken_eq, List.cons_append, List.cons_append,
      findStrFrom_skip_char idKey _ d _ hd, findStrFrom_skip_char idKey _ '\x7b' _ (by decide),
      findStrFrom_skip_trailingComma idKey (Or.inl rfl) o.before _ _
        (fun f hf => ⟨(Field.other_facts f (hbef f hf)).1.1, (Field.other_facts f (hbef f hf)).1.2,
          (Field.other_facts f (hbef f hf)).2.2.1, hbefv f hf⟩),
      findStrFrom_here _ _ _ (by simp [quoted])]
    congr 1
    simp only [List.length_cons]
    omega
  have hfindLv : findStrFrom lvToken (':' :: (quoted o.id ++
        ((leadingComma o.between ++ [',']) ++ (lvToken ++ ':' :: (quoted o.latest ++
          (leadingComma o.behind ++ '\x7d' :: T)))))) 
        (pos + (d :: '\x7b' :: trailingComma o.before).length + 4) =
      some (pos + (d :: '\x7b' :: trailingComma o.before).length + 4 + 1 +
        (quoted o.id).length + (leadingComma o.between ++ [',']).length) := by
    have hZ : (leadingComma o.between ++ [',']) ++ (lvToken ++ ':' :: (quoted o.latest ++
          (leadingComma o.behind ++ '\x7d' :: T))) =
        leadingComma o.between ++ ',' :: (quoted lvKey ++ ':' :: (quoted o.latest ++
          (leadingComma o.behind ++ '\x7d' :: T))) := by
      simp [lvToken_eq]
    have hZ2 : ∃ d2 Z2, leadingComma o.between ++ ',' :: (quoted lvKey ++ ':' ::
          (quoted o.latest ++ (leadingComma o.behind ++ '\x7d' :: T))) = d2 :: Z2 ∧
        (d2 = ',' ∨ d2 = ':' ∨ d2 = '\x7d') := by
      cases o.between with
      | nil => exact ⟨',', _, rfl, Or.inl rfl⟩
      | cons g r =>
        exact ⟨',', g.text ++ (leadingComma r ++ ',' :: (quoted lvKey ++ ':' ::
          (quoted o.latest ++ (leadingComma o.behind ++ '\x7d' :: T)))),
          by simp [leadingComma], Or.inl rfl⟩
    obtain ⟨d2, Z2, hZ2e, hd2⟩ := hZ2
    rw [hZ, lvToken_eq, findStrFrom_skip_char lvKey _ ':' _ (by decide),
      findStrFrom_skip_quoted lvKey o.id _ _ (by decide) (not_mem_of_clean _ hcid).1 hidne
        (by rw [hZ2e]; exact key_not_prefix_of_sep lvKey _ (Or.inr rfl) d2 hd2),
      findStrFrom_skip_leadingComma lvKey (Or.inr rfl) o.between _ _
        (fun f hf => ⟨(Field.other_facts f (hbet f hf)).1.1, (Field.other_facts f (hbet f hf)).1.2,
          (Field.other_facts f (hbet f hf)).2.2.2, hbetv f hf⟩) ',' _ rfl (Or.inl rfl),
      findStrFrom_skip_char lvKey _ ',' _ (by decide), findStrFrom_here _ _ _ (by simp [quoted])]
    congr 1
    simp only [List.length_append, List.length_cons, List.length_nil]
    omega
  have hbrace : '\x7d' ∉ quoted o.id ++ ((leadingComma o.between ++ [',']) ++
      (lvToken ++ ':' :: (quoted o.latest ++ leadingComma o.behind))) := by
    have b1 := brace_not_mem_quoted _ (not_mem_of_clean _ hcid).2
    have b2 := brace_not_mem_leadingComma o.between
      (fun f hf => (Field.other_facts f (hbet f hf)).2.1)
    have b3 := brace_not_mem_quoted _ (not_mem_of_clean _ hclat).2
    have b4 := brace_not_mem_leadingComma o.behind
      (fun f hf => (Field.other_facts f (hbeh f hf)).2.1)
    have b5 : '\x7d' ∉ lvToken := by decide
    simp only [List.mem_append, List.mem_cons, List.mem_singleton, not_or]
    exact ⟨b1, ⟨b2, by decide, by simp⟩, b5, by decide, b3, b4⟩
  rw [ParseIndexLatestJsonFilteredStep_object U82W json wanted pos m _ o.id _ o.latest _ T hdrop
    hfindId hfindLv (not_mem_of_clean _ hcid).1 (not_mem_of_clean _ hclat).1 hbrace]
  have hpos : pos + (d :: '\x7b' :: trailingComma o.before).length + 4 + 1 +
      (quoted o.id).length + (leadingComma o.between ++ [',']).length + 16 + 1 +
      (quoted o.latest).length + (leadingComma o.behind).length + 1 =
      pos + (1 + o.text.length) := by
    rw [CatalogObject.text_length]
    simp only [List.length_append, List.length_cons, List.length_nil]
    omega
  rw [hpos]

theorem scanObjects_nil_wanted {W : Type} [LinearOrder W] (U82W : Str → W) (m : StdMap W)
    (objs : List CatalogObject) : scanObjects U82W [] m objs = m := by
  induction objs with
  | nil => rfl
  | cons o os ih => simp [scanObjects, isWanted, ih]

/-! ## The map built by the scan -/

section MapBuild

variable {W : Type} [LinearOrder W]

theorem StdMap.find_set (m : StdMap W) (k v k2 : W) :
    (m.set k v).find k2 = if k2 = k then some v else m.find k2 := by
  induction m with
  | nil => simp [StdMap.set, StdMap.find]
  | cons p r ih =>
    obtain ⟨k1, v1⟩ := p
    by_cases h1 : k = k1
    · subst h1
      by_cases h2 : k2 = k <;> simp [StdMap.set, StdMap.find, h2]
    · by_cases h3 : k < k1
      · by_cases h2 : k2 = k <;> simp [StdMap.set, StdMap.find, h1, h2, h3]
      · by_cases h2 : k2 = k
        · subst h2
          simp [StdMap.set, StdMap.find, h1, h3, ih]
        · simp [StdMap.set, StdMap.find, h1, h2, h3, ih]

theorem StdMap.mem_keys_set (m : StdMap W) (k v k2 : W) :
    k2 ∈ (m.set k v).keys ↔ k2 = k ∨ k2 ∈ m.keys := by
  induction m with
  | nil => simp [StdMap.set, StdMap.keys]
  | cons p r ih =>
    obtain ⟨k1, v1⟩ := p
    simp only [StdMap.keys] at ih
    by_cases h1 : k = k1
    · subst h1
      simp [StdMap.set, StdMap.keys]
    · by_cases h3 : k < k1
      · simp [StdMap.set, StdMap.keys, h1, h3]
      · simp only [StdMap.set, StdMap.keys, h1, h3, if_false, List.map_cons, List.mem_cons, ih]
        tauto

theorem StdMap.sorted_set (m : StdMap W) (k v : W) (hm : m.keys.Sorted (· < ·)) :
    (m.set k v).keys.Sorted (· < ·) := by
  induction m with
  | nil => simp [StdMap.set, StdMap.keys]
  | cons p r ih =>
    obtain ⟨k1, v1⟩ := p
    have hm2 : (∀ b ∈ StdMap.keys r, k1 < b) ∧ (StdMap.keys r).Sorted (· < ·) := by
      simpa [StdMap.keys, List.sorted_cons] using hm
    by_cases h1 : k = k1
    · subst h1
      simpa [StdMap.set, StdMap.keys, List.sorted_cons] using hm
    · by_cases h3 : k < k1
      · have : (StdMap.set ((k1, v1) :: r) k v).keys = k :: k1 :: StdMap.keys r := by
          simp [StdMap.set, StdMap.keys, h1, h3]
        rw [this, List.sorted_cons, List.sorted_cons]
        refine ⟨?_, hm2⟩
        intro b hb
        rcases List.mem_cons.1 hb with rfl | hb
        · exact h3
        · exact lt_trans h3 (hm2.1 b hb)
      · have : (StdMap.set ((k1, v1) :: r) k v).keys = k1 :: (StdMap.set r k v).keys := by
          simp [StdMap.set, StdMap.keys, h1, h3]
        rw [this, List.sorted_cons]
        refine ⟨?_, ih hm2.2⟩
        intro b hb
        rcases (StdMap.mem_keys_set r k v b).1 hb with rfl | hb
        · exact lt_of_le_of_ne (not_lt.1 h3) (fun h => h1 h.symm)
        · exact hm2.1 b hb

theorem StdMap.find_eq_none_of_not_mem (m : StdMap W) (k : W) (h : k ∉ m.keys) :
    m.find k = none := by
  induction m with
  | nil => rfl
  | cons p r ih =>
    obtain ⟨k1, v1⟩ := p
    have h2 : k ≠ k1 ∧ k ∉ StdMap.keys r := by
      simpa [StdMap.keys] using h
    simp [StdMap.find, h2.1, ih h2.2]

theorem isWanted_iff (wanted : List W) (k : W) : isWanted wanted k = true ↔ k ∈ wanted := by
  induction wanted with
  | nil => simp [isWanted]
  | cons w ws ih =>
    by_cases h : w = k
    · simp [isWanted, h]
    · have h2 : ¬ k = w := fun e => h e.symm
      simp [isWanted, h, h2, ih]

/-- A map with as many entries as there are wanted ids, all its keys being wanted,
holds every wanted id. -/
theorem StdMap.wanted_subset_keys (m : StdMap W) (wanted : List W) (hs : m.keys.Sorted (· < ·))
    (hsub : ∀ k ∈ m.keys, k ∈ wanted) (hsize : m.size ≥ wanted.length) :
    ∀ k ∈ wanted, k ∈ m.keys := by
  have hnd : m.keys.Nodup := hs.nodup
  have hperm : m.keys.Perm wanted :=
    (List.subperm_of_subset hnd hsub).perm_of_length_le (by simpa [StdMap.keys, StdMap.size] using hsize)
  exact fun k hk => hperm.symm.subset hk

end MapBuild

/-- What `scanObjects` adds to a map whose keys are wanted and are not ids of the
objects, the ids of the objects being pairwise distinct as wide strings. -/
theorem scanObjects_find {W : Type} [LinearOrder W] (U82W : Str → W) (wanted : List W)
    (objs : List CatalogObject) (m : StdMap W) (hs : m.keys.Sorted (· < ·))
    (hsub : ∀ k ∈ m.keys, k ∈ wanted) (hfresh : ∀ o ∈ objs, U82W o.id ∉ m.keys)
    (hnd : (objs.map (fun o => U82W o.id)).Nodup) :
    (scanObjects U82W wanted m objs).keys.Sorted (· < ·) ∧
      ∀ k v, (scanObjects U82W wanted m objs).find k = some v ↔
        m.find k = some v ∨ (k ∈ wanted ∧ ∃ o ∈ objs, U82W o.id = k ∧ U82W o.latest = v) := by
  induction objs generalizing m with
  | nil =>
    refine ⟨hs, fun k v => ?_⟩
    simp [scanObjects]
  | cons o os ih =>
    have hnd2 : U82W o.id ∉ os.map (fun o => U82W o.id) ∧
        (os.map (fun o => U82W o.id)).Nodup := by
      simpa using hnd
    have hfo : U82W o.id ∉ StdMap.keys m := hfresh o (by simp)
    have hfos : ∀ o2 ∈ os, U82W o2.id ∉ StdMap.keys m :=
      fun o2 h2 => hfresh o2 (List.mem_cons_of_mem _ h2)
    have hnone : StdMap.find m (U82W o.id) = none := StdMap.find_eq_none_of_not_mem m _ hfo
    have hne : ∀ o2 ∈ os, U82W o2.id ≠ U82W o.id := by
      intro o2 h2 he
      exact hnd2.1 (he ▸ List.mem_map_of_mem (fun o => U82W o.id) h2)
    rw [scanObjects]
    by_cases hw : isWanted wanted (U82W o.id) = true
    · have hwm : U82W o.id ∈ wanted := (isWanted_iff wanted _).1 hw
      have hs2 := StdMap.sorted_set m (U82W o.id) (U82W o.latest) hs
      have hsub2 : ∀ k ∈ (StdMap.set m (U82W o.id) (U82W o.latest)).keys, k ∈ wanted := by
        intro k hk
        rcases (StdMap.mem_keys_set m _ _ k).1 hk with rfl | hk
        · exact hwm
        · exact hsub k hk
      have hfind : ∀ k v, (StdMap.set m (U82W o.id) (U82W o.latest)).find k = some v ↔
          (k = U82W o.id ∧ v = U82W o.latest) ∨ StdMap.find m k = some v := by
        intro k v
        rw [StdMap.find_set]
        by_cases hk : k = U82W o.id
        · subst hk
          simp [hnone, eq_comm]
        · simp [hk]
      rw [if_pos hw]
      by_cases hsz : (StdMap.set m (U82W o.id) (U82W o.latest)).size ≥ wanted.length
      · rw [if_pos hsz]
        refine ⟨hs2, fun k v => ?_⟩
        rw [hfind]
        constructor
        · rintro (⟨rfl, rfl⟩ | h)
          · exact Or.inr ⟨hwm, o, by simp, rfl, rfl⟩
          · exact Or.inl h
        · rintro (h | ⟨hkw, o2, ho2, rfl, rfl⟩)
          · exact Or.inr h
          · rcases List.mem_cons.1 ho2 with rfl | ho2
            · exact Or.inl ⟨rfl, rfl⟩
            · exfalso
              have hk := StdMap.wanted_subset_keys _ wanted hs2 hsub2 hsz _ hkw
              rcases (StdMap.mem_keys_set m _ _ _).1 hk with he | hk
              · exact hne o2 ho2 he
              · exact hfos o2 ho2 hk
      · rw [if_neg hsz]
        have hfresh2 : ∀ o2 ∈ os, U82W o2.id ∉ (StdMap.set m (U82W o.id) (U82W o.latest)).keys := by
          intro o2 h2 hk
          rcases (StdMap.mem_keys_set m _ _ _).1 hk with he | hk
          · exact hne o2 h2 he
          · exact hfos o2 h2 hk
        obtain ⟨hs3, hiff⟩ := ih _ hs2 hsub2 hfresh2 hnd2.2
        refine ⟨hs3, fun k v => ?_⟩
        rw [hiff, hfind]
        constructor
        · rintro ((⟨rfl, rfl⟩ | h) | ⟨hkw, o2, ho2, h1, h2⟩)
          · exact Or.inr ⟨hwm, o, by simp, rfl, rfl⟩
          · exact Or.inl h
          · exact Or.inr ⟨hkw, o2, List.mem_cons_of_mem _ ho2, h1, h2⟩
        · rintro (h | ⟨hkw, o2, ho2, h1, h2⟩)
          · exact Or.inl (Or.inr h)
          · rcases List.mem_cons.1 ho2 with rfl | ho2
            · exact Or.inl (Or.inl ⟨h1.symm, h2.symm⟩)
            · exact Or.inr ⟨hkw, o2, ho2, h1, h2⟩
    · rw [if_neg hw]
      have hnw : U82W o.id ∉ wanted := fun h => hw ((isWanted_iff wanted _).2 h)
      obtain ⟨hs3, hiff⟩ := ih m hs hsub hfos hnd2.2
      refine ⟨hs3, fun k v => ?_⟩
      rw [hiff]
      constructor
      · rintro (h | ⟨hkw, o2, ho2, h1, h2⟩)
        · exact Or.inl h
        · exact Or.inr ⟨hkw, o2, List.mem_cons_of_mem _ ho2, h1, h2⟩
      · rintro (h | ⟨hkw, o2, ho2, h1, h2⟩)
        · exact Or.inl h
        · rcases List.mem_cons.1 ho2 with rfl | ho2
          · exact absurd (h1 ▸ hkw) hnw
          · exact Or.inr ⟨hkw, o2, ho2, h1, h2⟩

/-! ## One iteration of the filtered scan on an object with white space -/

theorem blank_not_mem (w : Str) (h : blank w = true) (c : Char)
    (hc : c = '"' ∨ c = ':' ∨ c = '\x7d' ∨ c = 'i' ∨ c = 'l') : c ∉ w := by
  unfold blank at h
  rw [List.all_eq_true] at h
  intro hm
  have := h c hm
  rcases hc with rfl | rfl | rfl | rfl | rfl <;> revert this <;> decide

theorem quote_not_mem_blank (w : Str) (h : blank w = true) : '"' ∉ w :=
  blank_not_mem w h '"' (Or.inl rfl)

theorem colon_not_mem_blank (w : Str) (h : blank w = true) : ':' ∉ w :=
  blank_not_mem w h ':' (Or.inr (Or.inl rfl))

theorem brace_not_mem_blank (w : Str) (h : blank w = true) : '\x7d' ∉ w :=
  blank_not_mem w h '\x7d' (Or.inr (Or.inr (Or.inl rfl)))

/-- The iteration that starts at `pos` when the text from `pos` on is `X`, the key
`id`, its colon and its value `id` with the white space `w1` and `w2` around the
colon, the text `Bt`, the key `latest-version`, its colon and its value `latest` with
the white space `w3` and `w4` around the colon, the text `C` and the closing brace,
the two keys being found where they stand. -/
theorem ParseIndexLatestJsonFilteredStep_layout {W : Type} [LinearOrder W] (U82W : Str → W)
    (json : Str) (wanted : List W) (pos : Nat) (m : StdMap W)
    (X w1 w2 id Bt w3 w4 latest C T : Str)
    (hdrop : json.drop pos = X ++ (idToken ++ (w1 ++ ':' :: (w2 ++ (quoted id ++ (Bt ++ (lvToken ++ (w3 ++ ':' :: (w4 ++ (quoted latest ++ (C ++ '\x7d' :: T)))))))))))
    (hfindId : findStrFrom idToken (json.drop pos) pos = some (pos + X.length))
    (hfindLv : findStrFrom lvToken (':' :: (w2 ++ (quoted id ++ (Bt ++ (lvToken ++ (w3 ++ ':' :: (w4 ++ (quoted latest ++ (C ++ '\x7d' :: T))))))))) (pos + X.length + 4 + w1.length) = some (pos + X.length + 4 + w1.length + 1 + w2.length + (quoted id).length + Bt.length))
    (hw1 : ':' ∉ w1) (hw2 : '"' ∉ w2) (hw3 : ':' ∉ w3) (hw4 : '"' ∉ w4)
    (hid : '"' ∉ id) (hlat : '"' ∉ latest)
    (hbrace : '\x7d' ∉ quoted id ++ (Bt ++ (lvToken ++ (w3 ++ ':' :: (w4 ++ (quoted latest ++ C)))))) :
    ParseIndexLatestJsonFilteredStep U82W json wanted pos m =
      if isWanted wanted (U82W id) then
        if (m.set (U82W id) (U82W latest)).size ≥ wanted.length then
          .stop (m.set (U82W id) (U82W latest))
        else .cont (pos + X.length + 4 + w1.length + 1 + w2.length + (quoted id).length + Bt.length + 16 + w3.length + 1 + w4.length + (quoted latest).length + C.length + 1) (m.set (U82W id) (U82W latest))
      else .cont (pos + X.length + 4 + w1.length + 1 + w2.length + (quoted id).length + Bt.length + 16 + w3.length + 1 + w4.length + (quoted latest).length + C.length + 1) m := by
  have hX : X ++ (idToken ++ (w1 ++ ':' :: (w2 ++ (quoted id ++ (Bt ++ (lvToken ++ (w3 ++ ':' :: (w4 ++ (quoted latest ++ (C ++ '\x7d' :: T)))))))))) ≠ [] := by
    simp [idToken]
  have e1 : FindToken json pos idToken = some (pos + X.length) := by
    unfold FindToken
    rw [strFind_of_drop json idToken pos _ hX hdrop, ← hdrop, hfindId]
  have d1 : json.drop (pos + X.length) = (idToken ++ (w1 ++ ':' :: (w2 ++ (quoted id ++ (Bt ++ (lvToken ++ (w3 ++ ':' :: (w4 ++ (quoted latest ++ (C ++ '\x7d' :: T)))))))))) := drop_add_of_drop_eq json pos X _ hdrop
  have l1 : (idToken ++ w1).length = 4 + w1.length := by
    simp [idToken]
    omega
  have e2 : strFindChar json ':' (pos + X.length) = some (pos + X.length + 4 + w1.length) := by
    rw [strFindChar_eq json ':' (pos + X.length) (idToken ++ w1) (w2 ++ (quoted id ++ (Bt ++ (lvToken ++ (w3 ++ ':' :: (w4 ++ (quoted latest ++ (C ++ '\x7d' :: T)))))))) (by rw [d1]; simp)
      (fun h => by
        rcases List.mem_append.1 h with h | h
        · exact absurd h (by decide)
        · exact hw1 h), l1]
    congr 1
    omega
  have d2 : json.drop (pos + X.length + 4 + w1.length) = ':' :: (w2 ++ (quoted id ++ (Bt ++ (lvToken ++ (w3 ++ ':' :: (w4 ++ (quoted latest ++ (C ++ '\x7d' :: T)))))))) := by
    have h := drop_add_of_drop_eq json (pos + X.length) (idToken ++ w1) (':' :: (w2 ++ (quoted id ++ (Bt ++ (lvToken ++ (w3 ++ ':' :: (w4 ++ (quoted latest ++ (C ++ '\x7d' :: T)))))))))
      (by rw [d1]; simp)
    rw [l1, ← Nat.add_assoc] at h
    exact h
  have d3 : json.drop (pos + X.length + 4 + w1.length + 1) = (w2 ++ (quoted id ++ (Bt ++ (lvToken ++ (w3 ++ ':' :: (w4 ++ (quoted latest ++ (C ++ '\x7d' :: T)))))))) := drop_add_of_drop_eq json (pos + X.length + 4 + w1.length) [':'] _ d2
  have e3 : ExtractJSONString json (pos + X.length + 4 + w1.length + 1) = some id :=
    ExtractJSONString_eq json _ w2 id _ d3 hw2 hid
  have e4 : strFindChar json '"' (pos + X.length + 4 + w1.length + 1) = some (pos + X.length + 4 + w1.length + 1 + w2.length) :=
    strFindChar_eq json '"' _ w2 (id ++ '"' :: (Bt ++ (lvToken ++ (w3 ++ ':' :: (w4 ++ (quoted latest ++ (C ++ '\x7d' :: T))))))) (by rw [d3]; simp [quoted]) hw2
  have d4 : json.drop (pos + X.length + 4 + w1.length + 1 + w2.length) = (quoted id ++ (Bt ++ (lvToken ++ (w3 ++ ':' :: (w4 ++ (quoted latest ++ (C ++ '\x7d' :: T))))))) := drop_add_of_drop_eq json (pos + X.length + 4 + w1.length + 1) w2 _ d3
  have l5 : (quoted id ++ (Bt ++ (lvToken ++ (w3 ++ ':' :: (w4 ++ (quoted latest ++ C)))))).length =
      (quoted id).length + Bt.length + 16 + w3.length + 1 + w4.length +
        (quoted latest).length + C.length := by
    simp [lvToken]
    omega
  have e5 : strFindChar json '\x7d' (pos + X.length + 4 + w1.length + 1 + w2.length) = some (pos + X.length + 4 + w1.length + 1 + w2.length + (quoted id).length + Bt.length + 16 + w3.length + 1 + w4.length + (quoted latest).length + C.length) := by
    rw [strFindChar_eq json '\x7d' (pos + X.length + 4 + w1.length + 1 + w2.length) (quoted id ++ (Bt ++ (lvToken ++ (w3 ++ ':' :: (w4 ++ (quoted latest ++ C)))))) T (by rw [d4]; simp) hbrace, l5]
    congr 1
    omega
  have e6 : FindToken json (pos + X.length + 4 + w1.length) lvToken = some (pos + X.length + 4 + w1.length + 1 + w2.length + (quoted id).length + Bt.length) := by
    unfold FindToken
    rw [strFind_of_drop json lvToken _ _ (by simp) d2, hfindLv]
  have d5 : json.drop (pos + X.length + 4 + w1.length + 1 + w2.length + (quoted id).length + Bt.length) = (lvToken ++ (w3 ++ ':' :: (w4 ++ (quoted latest ++ (C ++ '\x7d' :: T))))) := by
    have h := drop_add_of_drop_eq json (pos + X.length + 4 + w1.length + 1 + w2.length) (quoted id ++ Bt) (lvToken ++ (w3 ++ ':' :: (w4 ++ (quoted latest ++ (C ++ '\x7d' :: T)))))
      (by rw [d4]; simp)
    rw [List.length_append, ← Nat.add_assoc] at h
    exact h
  have l6 : (lvToken ++ w3).length = 16 + w3.length := by
    simp [lvToken]
    omega
  have e7 : strFindChar json ':' (pos + X.length + 4 + w1.length + 1 + w2.length + (quoted id).length + Bt.length) = some (pos + X.length + 4 + w1.length + 1 + w2.length + (quoted id).length + Bt.length + 16 + w3.length) := by
    rw [strFindChar_eq json ':' (pos + X.length + 4 + w1.length + 1 + w2.length + (quoted id).length + Bt.length) (lvToken ++ w3) (w4 ++ (quoted latest ++ (C ++ '\x7d' :: T))) (by rw [d5]; simp)
      (fun h => by
        rcases List.mem_append.1 h with h | h
        · exact absurd h (by decide)
        · exact hw3 h), l6]
    congr 1
    omega
  have d6 : json.drop (pos + X.length + 4 + w1.length + 1 + w2.length + (quoted id).length + Bt.length + 16 + w3.length) = ':' :: (w4 ++ (quoted latest ++ (C ++ '\x7d' :: T))) := by
    have h := drop_add_of_drop_eq json (pos + X.length + 4 + w1.length + 1 + w2.length + (quoted id).length + Bt.length) (lvToken ++ w3) (':' :: (w4 ++ (quoted latest ++ (C ++ '\x7d' :: T))))
      (by rw [d5]; simp)
    rw [l6, ← Nat.add_assoc] at h
    exact h
  have d7 : json.drop (pos + X.length + 4 + w1.length + 1 + w2.length + (quoted id).length + Bt.length + 16 + w3.length + 1) = (w4 ++ (quoted latest ++ (C ++ '\x7d' :: T))) := drop_add_of_drop_eq json (pos + X.length + 4 + w1.length + 1 + w2.length + (quoted id).length + Bt.length + 16 + w3.length) [':'] _ d6
  have e8 : ExtractJSONString json (pos + X.length + 4 + w1.length + 1 + w2.length + (quoted id).length + Bt.length + 16 + w3.length + 1) = some latest :=
    ExtractJSONString_eq json _ w4 latest _ d7 hw4 hlat
  unfold ParseIndexLatestJsonFilteredStep
  rw [e1]
  simp only
  rw [e2]
  simp only
  rw [e3]
  simp only
  rw [e4]
  simp only
  rw [e5]
  simp only
  rw [e6]
  simp only
  rw [e7]
  simp only
  rw [e8]
  simp only
  have c1 : ¬ (pos + X.length + 4 + w1.length + 1 + w2.length + (quoted id).length + Bt.length > pos + X.length + 4 + w1.length + 1 + w2.length + (quoted id).length + Bt.length + 16 + w3.length + 1 + w4.length + (quoted latest).length + C.length) := by omega
  have c2 : ¬ (pos + X.length + 4 + w1.length + 1 + w2.length + (quoted id).length + Bt.length + 16 + w3.length > pos + X.length + 4 + w1.length + 1 + w2.length + (quoted id).length + Bt.length + 16 + w3.length + 1 + w4.length + (quoted latest).length + C.length) := by omega
  rw [if_neg c1, if_neg c2]
  cases hw : isWanted wanted (U82W id) <;> simp

/-! ## Searching a key in a text with white space -/

theorem key_not_prefix_of_head (t Z : Str) (ht : t = idKey ∨ t = lvKey) (c : Char)
    (hi : c ≠ 'i') (hl : c ≠ 'l') : ¬ t ++ ['"'] <+: c :: Z := by
  intro h
  rcases ht with rfl | rfl
  · have h2 : ('i' :: (['d'] ++ ['"'])) <+: c :: Z := h
    rw [List.cons_prefix_cons] at h2
    exact hi h2.1.symm
  · have h2 : ('l' :: ("atest-version".toList ++ ['"'])) <+: c :: Z := h
    rw [List.cons_prefix_cons] at h2
    exact hl h2.1.symm

/-- Behind the closing quote of a string there is white space and then a separator:
no key starts there. -/
theorem key_not_prefix_of_blank (t : Str) (ht : t = idKey ∨ t = lvKey) (w : Str)
    (hw : blank w = true) (d : Char) (hd : d = ',' ∨ d = ':' ∨ d = '\x7d') (Z : Str) :
    ¬ t ++ ['"'] <+: w ++ d :: Z := by
  cases w with
  | nil => exact key_not_prefix_of_sep t Z ht d hd
  | cons c w2 =>
    have hc : c ∈ c :: w2 := by simp
    exact key_not_prefix_of_head t _ ht c
      (fun h => blank_not_mem _ hw 'i' (Or.inr (Or.inr (Or.inr (Or.inl rfl)))) (h ▸ hc))
      (fun h => blank_not_mem _ hw 'l' (Or.inr (Or.inr (Or.inr (Or.inr rfl)))) (h ▸ hc))

theorem fieldSpace_blank_facts (sp : FieldSpace) (h : sp.allBlank = true) :
    blank sp.lead = true ∧ blank sp.afterKey = true ∧ blank sp.afterColon = true ∧
      blank sp.afterValue = true := by
  unfold FieldSpace.allBlank at h
  simp only [Bool.and_eq_true] at h
  exact ⟨h.1.1.1, h.1.1.2, h.1.2, h.2⟩

theorem fieldText_length (sp : FieldSpace) (k v : Str) :
    (fieldText sp k v).length = sp.lead.length + (k.length + 2) + sp.afterKey.length + 1 +
      sp.afterColon.length + (v.length + 2) + sp.afterValue.length := by
  simp [fieldText, quoted]
  omega

theorem findStrFrom_skip_fieldText (t : Str) (ht : t = idKey ∨ t = lvKey) (sp : FieldSpace)
    (k v Z : Str) (i : Nat) (hsp : sp.allBlank = true) (hk : '"' ∉ k) (hv : '"' ∉ v)
    (hkne : k ≠ t) (hvne : v ≠ t) (d : Char) (Z1 : Str) (hZ : Z = d :: Z1)
    (hd : d = ',' ∨ d = ':' ∨ d = '\x7d') :
    findStrFrom (quoted t) (fieldText sp k v ++ Z) i =
      findStrFrom (quoted t) Z (i + (fieldText sp k v).length) := by
  obtain ⟨b1, b2, b3, b4⟩ := fieldSpace_blank_facts sp hsp
  have htq : '"' ∉ t := by
    rcases ht with rfl | rfl <;> decide
  have hshape : fieldText sp k v ++ Z = sp.lead ++ (quoted k ++ (sp.afterKey ++
      ':' :: (sp.afterColon ++ (quoted v ++ (sp.afterValue ++ Z))))) := by
    simp [fieldText]
  rw [hshape, findStrFrom_skip_chars t sp.lead _ _ (quote_not_mem_blank _ b1),
    findStrFrom_skip_quoted t k _ _ htq hk hkne
      (key_not_prefix_of_blank t ht sp.afterKey b2 ':' (Or.inr (Or.inl rfl)) _),
    findStrFrom_skip_chars t sp.afterKey _ _ (quote_not_mem_blank _ b2),
    findStrFrom_skip_char t _ ':' _ (by decide),
    findStrFrom_skip_chars t sp.afterColon _ _ (quote_not_mem_blank _ b3),
    findStrFrom_skip_quoted t v _ _ htq hv hvne
      (by rw [hZ]; exact key_not_prefix_of_blank t ht sp.afterValue b4 d hd _),
    findStrFrom_skip_chars t sp.afterValue _ _ (quote_not_mem_blank _ b4), fieldText_length,
    quoted_length, quoted_length]
  congr 1
  omega

theorem findStrFrom_skip_spacedTrailingComma (t : Str) (ht : t = idKey ∨ t = lvKey)
    (fs : List SpacedField) (Z : Str) (i : Nat)
    (hfs : ∀ f ∈ fs, f.space.allBlank = true ∧ '"' ∉ f.field.key ∧ '"' ∉ f.field.value ∧
      f.field.key ≠ t ∧ f.field.value ≠ t) :
    findStrFrom (quoted t) (spacedTrailingComma fs ++ Z) i =
      findStrFrom (quoted t) Z (i + (spacedTrailingComma fs).length) := by
  induction fs generalizing i with
  | nil => rfl
  | cons f r ih =>
    obtain ⟨hb, hk, hv, hkne, hvne⟩ := hfs f (by simp)
    have hr := fun g hg => hfs g (List.mem_cons_of_mem _ hg)
    have hshape : spacedTrailingComma (f :: r) ++ Z =
        fieldText f.space f.field.key f.field.value ++ ',' :: (spacedTrailingComma r ++ Z) := by
      simp [spacedTrailingComma, SpacedField.text]
    rw [hshape, findStrFrom_skip_fieldText t ht f.space _ _ _ _ hb hk hv hkne hvne ',' _ rfl
        (Or.inl rfl),
      findStrFrom_skip_char t _ ',' _ (by decide), ih _ hr]
    congr 1
    simp [spacedTrailingComma, SpacedField.text]
    omega

theorem findStrFrom_skip_spacedLeadingComma (t : Str) (ht : t = idKey ∨ t = lvKey)
    (fs : List SpacedField) (Z : Str) (i : Nat)
    (hfs : ∀ f ∈ fs, f.space.allBlank = true ∧ '"' ∉ f.field.key ∧ '"' ∉ f.field.value ∧
      f.field.key ≠ t ∧ f.field.value ≠ t)
    (d : Char) (Z1 : Str) (hZ : Z = d :: Z1) (hd : d = ',' ∨ d = ':' ∨ d = '\x7d') :
    findStrFrom (quoted t) (spacedLeadingComma fs ++ Z) i =
      findStrFrom (quoted t) Z (i + (spacedLeadingComma fs).length) := by
  induction fs generalizing i with
  | nil => rfl
  | cons f r ih =>
    obtain ⟨hb, hk, hv, hkne, hvne⟩ := hfs f (by simp)
    have hr := fun g hg => hfs g (List.mem_cons_of_mem _ hg)
    have hshape : spacedLeadingComma (f :: r) ++ Z =
        ',' :: (fieldText f.space f.field.key f.field.value ++ (spacedLeadingComma r ++ Z)) := by
      simp [spacedLeadingComma, SpacedField.text]
    have hnext : ∃ d2 Z2, spacedLeadingComma r ++ Z = d2 :: Z2 ∧
        (d2 = ',' ∨ d2 = ':' ∨ d2 = '\x7d') := by
      cases r with
      | nil => exact ⟨d, Z1, by simpa [spacedLeadingComma] using hZ, hd⟩
      | cons g r2 =>
        exact ⟨',', g.text ++ (spacedLeadingComma r2 ++ Z), by simp [spacedLeadingComma],
          Or.inl rfl⟩
    obtain ⟨d2, Z2, hZ2, hd2⟩ := hnext
    rw [hshape, findStrFrom_skip_char t _ ',' _ (by decide),
      findStrFrom_skip_fieldText t ht f.space _ _ _ _ hb hk hv hkne hvne d2 Z2 hZ2 hd2, ih _ hr]
    congr 1
    simp [spacedLeadingComma, SpacedField.text]
    omega

theorem brace_not_mem_fieldText (sp : FieldSpace) (k v : Str) (hsp : sp.allBlank = true)
    (hk : '\x7d' ∉ k) (hv : '\x7d' ∉ v) : '\x7d' ∉ fieldText sp k v := by
  obtain ⟨b1, b2, b3, b4⟩ := fieldSpace_blank_facts sp hsp
  simp only [fieldText, List.mem_append, List.mem_cons, not_or]
  exact ⟨brace_not_mem_blank _ b1, brace_not_mem_quoted _ hk, brace_not_mem_blank _ b2,
    by decide, brace_not_mem_blank _ b3, brace_not_mem_quoted _ hv, brace_not_mem_blank _ b4⟩

theorem brace_not_mem_spacedLeadingComma (fs : List SpacedField)
    (hfs : ∀ f ∈ fs, f.space.allBlank = true ∧ '\x7d' ∉ f.field.key ∧ '\x7d' ∉ f.field.value) :
    '\x7d' ∉ spacedLeadingComma fs := by
  induction fs with
  | nil => simp [spacedLeadingComma]
  | cons f r ih =>
    obtain ⟨hb, hk, hv⟩ := hfs f (by simp)
    have hr := ih (fun g hg => hfs g (List.mem_cons_of_mem _ hg))
    simp only [spacedLeadingComma, SpacedField.text, List.mem_cons, List.mem_append, not_or]
    exact ⟨by decide, brace_not_mem_fieldText _ _ _ hb hk hv, hr⟩

theorem quoted_not_within (t s : Str) (hs : '"' ∉ s) : ¬ quoted t <:+: s := by
  intro h
  apply hs
  apply h.subset
  simp [quoted]

/-! ## The filtered scan on a catalog document with white space -/

theorem spacedObject_text_length (o : SpacedObject) :
    o.text.length = o.lead.length + 1 + (spacedTrailingComma o.before).length +
      (fieldText o.idSpace idKey o.id).length + (spacedLeadingComma o.between).length + 1 +
      (fieldText o.lvSpace lvKey o.latest).length + (spacedLeadingComma o.behind).length + 1 := by
  simp [SpacedObject.text]
  omega

/-- The iteration that starts at `pos` when the text from `pos` on is a text `G` without
quote, a byte `d` other than a quote, and a well-formed object with its white
space. -/
theorem ParseIndexLatestJsonFilteredStep_spaced {W : Type} [LinearOrder W]
    (U82W : Str → W) (json : Str) (wanted : List W) (pos : Nat) (m : StdMap W) (G : Str)
    (hG : '"' ∉ G) (d : Char) (hd : d ≠ '"') (o : SpacedObject) (ho : o.wellFormed = true)
    (T : Str) (hdrop : json.drop pos = G ++ d :: (o.text ++ T)) :
    ParseIndexLatestJsonFilteredStep U82W json wanted pos m =
      if isWanted wanted (U82W o.id) then
        if (m.set (U82W o.id) (U82W o.latest)).size ≥ wanted.length then
          .stop (m.set (U82W o.id) (U82W o.latest))
        else .cont (pos + (G.length + 1 + o.text.length)) (m.set (U82W o.id) (U82W o.latest))
      else .cont (pos + (G.length + 1 + o.text.length)) m := by
  unfold SpacedObject.wellFormed at ho
  simp only [Bool.and_eq_true, List.all_eq_true] at ho
  obtain ⟨⟨⟨⟨⟨⟨⟨hobj, hlead⟩, _⟩, hidsp⟩, hlvsp⟩, hbefsp⟩, hbetsp⟩, hbehsp⟩ := ho
  unfold CatalogObject.wellFormed at hobj
  simp only [Bool.and_eq_true, List.all_eq_true, bne_iff_ne, ne_eq, SpacedObject.object] at hobj
  obtain ⟨⟨⟨⟨⟨⟨⟨hbef, hbet⟩, hbeh⟩, hcid⟩, hclat⟩, hbefv⟩, hbetv⟩, hidne⟩ := hobj
  have hbef2 : ∀ f ∈ o.before, f.field.other = true ∧ f.field.value ≠ idKey :=
    fun f hf => ⟨hbef _ (List.mem_map_of_mem _ hf), hbefv _ (List.mem_map_of_mem _ hf)⟩
  have hbet2 : ∀ f ∈ o.between, f.field.other = true ∧ f.field.value ≠ lvKey :=
    fun f hf => ⟨hbet _ (List.mem_map_of_mem _ hf), hbetv _ (List.mem_map_of_mem _ hf)⟩
  have hbeh2 : ∀ f ∈ o.behind, f.field.other = true :=
    fun f hf => hbeh _ (List.mem_map_of_mem _ hf)
  obtain ⟨i1, i2, i3, i4⟩ := fieldSpace_blank_facts o.idSpace hidsp
  obtain ⟨v1, v2, v3, v4⟩ := fieldSpace_blank_facts o.lvSpace hlvsp
  have hshape : G ++ d :: (o.text ++ T) =
      (G ++ d :: (o.lead ++ '\x7b' :: (spacedTrailingComma o.before ++ o.idSpace.lead))) ++
        (idToken ++ (o.idSpace.afterKey ++ ':' :: (o.idSpace.afterColon ++ (quoted o.id ++
          ((o.idSpace.afterValue ++ (spacedLeadingComma o.between ++ ',' :: o.lvSpace.lead)) ++
            (lvToken ++ (o.lvSpace.afterKey ++ ':' :: (o.lvSpace.afterColon ++
              (quoted o.latest ++ ((o.lvSpace.afterValue ++ spacedLeadingComma o.behind) ++
                '\x7d' :: T)))))))))) := by
    simp [SpacedObject.text, fieldText, idToken_eq, lvToken_eq]
  rw [hshape] at hdrop
  have hfindId : findStrFrom idToken (json.drop pos) pos =
      some (pos + (G ++ d :: (o.lead ++ '\x7b' ::
        (spacedTrailingComma o.before ++ o.idSpace.lead))).length) := by
    have hs2 : ∀ R : Str,
        (G ++ d :: (o.lead ++ '\x7b' :: (spacedTrailingComma o.before ++ o.idSpace.lead))) ++
          (idToken ++ R) =
        G ++ (d :: (o.lead ++ ('\x7b' :: (spacedTrailingComma o.before ++
          (o.idSpace.lead ++ (quoted idKey ++ R)))))) := by
      intro R
      simp [idToken_eq]
    rw [hdrop, hs2, idToken_eq, findStrFrom_skip_chars idKey G _ _ hG,
      findStrFrom_skip_char idKey _ d _ hd,
      findStrFrom_skip_chars idKey o.lead _ _ (quote_not_mem_blank _ hlead),
      findStrFrom_skip_char idKey _ '\x7b' _ (by decide),
      findStrFrom_skip_spacedTrailingComma idKey (Or.inl rfl) o.before _ _
        (fun f hf => ⟨hbefsp f hf, (Field.other_facts _ (hbef2 f hf).1).1.1,
          (Field.other_facts _ (hbef2 f hf).1).1.2, (Field.other_facts _ (hbef2 f hf).1).2.2.1,
          (hbef2 f hf).2⟩),
      findStrFrom_skip_chars idKey o.idSpace.lead _ _ (quote_not_mem_blank _ i1),
      findStrFrom_here _ _ _ (by simp [quoted])]
    congr 1
    simp only [List.length_append, List.length_cons]
    omega
  have hfindLv : findStrFrom lvToken (':' :: (o.idSpace.afterColon ++ (quoted o.id ++
        ((o.idSpace.afterValue ++ (spacedLeadingComma o.between ++ ',' :: o.lvSpace.lead)) ++
          (lvToken ++ (o.lvSpace.afterKey ++ ':' :: (o.lvSpace.afterColon ++
            (quoted o.latest ++ ((o.lvSpace.afterValue ++ spacedLeadingComma o.behind) ++
              '\x7d' :: T)))))))))
        (pos + (G ++ d :: (o.lead ++ '\x7b' ::
          (spacedTrailingComma o.before ++ o.idSpace.lead))).length + 4 +
          o.idSpace.afterKey.length) =
      some (pos + (G ++ d :: (o.lead ++ '\x7b' ::
          (spacedTrailingComma o.before ++ o.idSpace.lead))).length + 4 +
          o.idSpace.afterKey.length + 1 + o.idSpace.afterColon.length + (quoted o.id).length +
          (o.idSpace.afterValue ++
            (spacedLeadingComma o.between ++ ',' :: o.lvSpace.lead)).length) := by
    have hs2 : ∀ R : Str,
        (o.idSpace.afterValue ++ (spacedLeadingComma o.between ++ ',' :: o.lvSpace.lead)) ++
          (lvToken ++ R) =
        o.idSpace.afterValue ++ (spacedLeadingComma o.between ++ (',' :: (o.lvSpace.lead ++
          (quoted lvKey ++ R)))) := by
      intro R
      simp [lvToken_eq]
    have hnext : ∀ R : Str, ∃ Z2, spacedLeadingComma o.between ++ (',' :: R) = ',' :: Z2 := by
      intro R
      cases o.between with
      | nil => exact ⟨R, rfl⟩
      | cons g r => exact ⟨g.text ++ (spacedLeadingComma r ++ ',' :: R), by simp [spacedLeadingComma]⟩
    obtain ⟨Z2, hZ2⟩ := hnext (o.lvSpace.lead ++ (quoted lvKey ++ (o.lvSpace.afterKey ++ ':' ::
      (o.lvSpace.afterColon ++ (quoted o.latest ++
        ((o.lvSpace.afterValue ++ spacedLeadingComma o.behind) ++ '\x7d' :: T))))))
    rw [hs2, lvToken_eq, findStrFrom_skip_char lvKey _ ':' _ (by decide),
      findStrFrom_skip_chars lvKey o.idSpace.afterColon _ _ (quote_not_mem_blank _ i3),
      findStrFrom_skip_quoted lvKey o.id _ _ (by decide) (not_mem_of_clean _ hcid).1 hidne
        (by rw [hZ2]; exact key_not_prefix_of_blank lvKey (Or.inr rfl) _ i4 ',' (Or.inl rfl) _),
      findStrFrom_skip_chars lvKey o.idSpace.afterValue _ _ (quote_not_mem_blank _ i4),
      findStrFrom_skip_spacedLeadingComma lvKey (Or.inr rfl) o.between _ _
        (fun f hf => ⟨hbetsp f hf, (Field.other_facts _ (hbet2 f hf).1).1.1,
          (Field.other_facts _ (hbet2 f hf).1).1.2, (Field.other_facts _ (hbet2 f hf).1).2.2.2,
          (hbet2 f hf).2⟩) ',' _ rfl (Or.inl rfl),
      findStrFrom_skip_char lvKey _ ',' _ (by decide),
      findStrFrom_skip_chars lvKey o.lvSpace.lead _ _ (quote_not_mem_blank _ v1),
      findStrFrom_here _ _ _ (by simp [quoted])]
    congr 1
    simp only [List.length_append, List.length_cons]
    omega
  have hbrace : '\x7d' ∉ quoted o.id ++
      ((o.idSpace.afterValue ++ (spacedLeadingComma o.between ++ ',' :: o.lvSpace.lead)) ++
        (lvToken ++ (o.lvSpace.afterKey ++ ':' :: (o.lvSpace.afterColon ++
          (quoted o.latest ++ (o.lvSpace.afterValue ++ spacedLeadingComma o.behind)))))) := by
    have b1 := brace_not_mem_quoted _ (not_mem_of_clean _ hcid).2
    have b2 := brace_not_mem_spacedLeadingComma o.between
      (fun f hf => ⟨hbetsp f hf, (Field.other_facts _ (hbet2 f hf).1).2.1⟩)
    have b3 := brace_not_mem_quoted _ (not_mem_of_clean _ hclat).2
    have b4 := brace_not_mem_spacedLeadingComma o.behind
      (fun f hf => ⟨hbehsp f hf, (Field.other_facts _ (hbeh2 f hf)).2.1⟩)
    have b5 : '\x7d' ∉ lvToken := by decide
    simp only [List.mem_append, List.mem_cons, not_or]
    exact ⟨b1, ⟨brace_not_mem_blank _ i4, b2, by decide, brace_not_mem_blank _ v1⟩, b5,
      brace_not_mem_blank _ v2, by decide, brace_not_mem_blank _ v3, b3,
      brace_not_mem_blank _ v4, b4⟩
  rw [ParseIndexLatestJsonFilteredStep_layout U82W json wanted pos m _ _ _ o.id _ _ _ o.latest _ T
    hdrop hfindId hfindLv (colon_not_mem_blank _ i2) (quote_not_mem_blank _ i3)
    (colon_not_mem_blank _ v2) (quote_not_mem_blank _ v3) (not_mem_of_clean _ hcid).1
    (not_mem_of_clean _ hclat).1 hbrace]
  have hpos : pos + (G ++ d :: (o.lead ++ '\x7b' ::
        (spacedTrailingComma o.before ++ o.idSpace.lead))).length + 4 +
      o.idSpace.afterKey.length + 1 + o.idSpace.afterColon.length + (quoted o.id).length +
      (o.idSpace.afterValue ++ (spacedLeadingComma o.between ++ ',' :: o.lvSpace.lead)).length +
      16 + o.lvSpace.afterKey.length + 1 + o.lvSpace.afterColon.length +
      (quoted o.latest).length + (o.lvSpace.afterValue ++ spacedLeadingComma o.behind).length +
      1 = pos + (G.length + 1 + o.text.length) := by
    rw [spacedObject_text_length, fieldText_length, fieldText_length]
    simp only [List.length_append, List.length_cons, quoted_length, idKey, lvKey,
      String.toList, List.length_nil]
    omega
  rw [hpos]

theorem spacedObjectsText_length (post : Str) (d : Char) (objs : List SpacedObject) :
    objs.length < (spacedObjectsText post d objs).length := by
  induction objs generalizing d with
  | nil => simp [spacedObjectsText]
  | cons o os ih =>
    have := ih ','
    simp only [spacedObjectsText, List.length_cons, List.length_append]
    omega

/-- An iteration that starts in a text without quote leaves the loop. -/
theorem ParseIndexLatestJsonFilteredStep_no_quote {W : Type} [LinearOrder W] (U82W : Str → W)
    (json : Str) (wanted : List W) (pos : Nat) (m : StdMap W) (R : Str) (hR : R ≠ [])
    (hdrop : json.drop pos = R) (hq : '"' ∉ R) :
    ParseIndexLatestJsonFilteredStep U82W json wanted pos m = .stop m := by
  have e1 : FindToken json pos idToken = none := by
    unfold FindToken
    rw [strFind_of_drop json idToken pos R hR hdrop, idToken_eq]
    exact findStrFrom_none _ R pos (quoted_not_within idKey R hq)
  unfold ParseIndexLatestJsonFilteredStep
  rw [e1]

/-- The loop, started where the text is white space and then a sequence of well-formed
objects up to the closing bracket, handles the objects one after the other. -/
theorem ParseIndexLatestJsonFilteredLoop_spaced {W : Type} [LinearOrder W] (U82W : Str → W)
    (json : Str) (wanted : List W) (post : Str) (hpost : blank post = true)
    (objs : List SpacedObject) (hwf : ∀ o ∈ objs, o.wellFormed = true) (G : Str)
    (hG : '"' ∉ G) (d : Char) (hd : d ≠ '"') (pos : Nat) (m : StdMap W) (fuel : Nat)
    (hdrop : json.drop pos = G ++ spacedObjectsText post d objs) (hfuel : objs.length < fuel) :
    ParseIndexLatestJsonFilteredLoop U82W json wanted fuel pos m =
      some (scanObjects U82W wanted m (objs.map SpacedObject.object)) := by
  induction objs generalizing G d pos m fuel with
  | nil =>
    cases fuel with
    | zero => omega
    | succ f =>
      have hstep := ParseIndexLatestJsonFilteredStep_no_quote U82W json wanted pos m
        (G ++ ']' :: post) (by simp) hdrop (by
          simp only [List.mem_append, List.mem_cons, not_or]
          exact ⟨hG, by decide, quote_not_mem_blank _ hpost⟩)
      rw [ParseIndexLatestJsonFilteredLoop, hstep]
      rfl
  | cons o os ih =>
    cases fuel with
    | zero => omega
    | succ f =>
      have ho := hwf o (by simp)
      have hos := fun o2 h2 => hwf o2 (List.mem_cons_of_mem _ h2)
      have hstep := ParseIndexLatestJsonFilteredStep_spaced U82W json wanted pos m G hG d hd o ho
        (o.trail ++ spacedObjectsText post ',' os) hdrop
      have hnext : json.drop (pos + (G.length + 1 + o.text.length)) =
          o.trail ++ spacedObjectsText post ',' os := by
        have h := drop_add_of_drop_eq json pos (G ++ d :: o.text)
          (o.trail ++ spacedObjectsText post ',' os) (by rw [hdrop]; simp [spacedObjectsText])
        have hl : (G ++ d :: o.text).length = G.length + 1 + o.text.length := by
          simp
          omega
        rw [hl] at h
        exact h
      have htrail : '"' ∉ o.trail := by
        unfold SpacedObject.wellFormed at ho
        simp only [Bool.and_eq_true] at ho
        exact quote_not_mem_blank _ ho.1.1.1.1.1.2
      have hf : os.length < f := by
        simp only [List.length_cons] at hfuel
        omega
      rw [ParseIndexLatestJsonFilteredLoop, hstep, List.map_cons, scanObjects]
      have hid : o.object.id = o.id := rfl
      have hlat : o.object.latest = o.latest := rfl
      rw [hid, hlat]
      by_cases hw : isWanted wanted (U82W o.id) = true
      · rw [if_pos hw, if_pos hw]
        by_cases hs : (StdMap.set m (U82W o.id) (U82W o.latest)).size ≥ wanted.length
        · rw [if_pos hs, if_pos hs]
        · rw [if_neg hs, if_neg hs]
          exact ih hos o.trail htrail ',' (by decide) _ _ f hnext hf
      · rw [if_neg hw, if_neg hw]
        exact ih hos o.trail htrail ',' (by decide) _ _ f hnext hf

/-- On a catalog document of well-formed objects, with white space between the tokens,
the filtered scan returns what the objects give when they are handled one after the
other. -/
theorem ParseIndexLatestJsonFiltered_eq_scanSpaced {W : Type} [LinearOrder W]
    (U82W : Str → W) (wanted : List W) (c : SpacedCatalog) (hwf : c.wellFormed = true) :
    ParseIndexLatestJsonFiltered U82W c.text wanted =
      some (scanObjects U82W wanted [] (c.objs.map SpacedObject.object)) := by
  unfold SpacedCatalog.wellFormed at hwf
  simp only [Bool.and_eq_true, List.all_eq_true] at hwf
  obtain ⟨⟨⟨hpre, hinner⟩, hpost⟩, hobjs⟩ := hwf
  unfold ParseIndexLatestJsonFiltered
  cases wanted with
  | nil => simp [scanObjects_nil_wanted]
  | cons w ws =>
    simp only [List.isEmpty_cons, Bool.false_eq_true, if_false]
    cases hc : c.objs with
    | nil =>
      have htext : c.text = c.pre ++ '[' :: (c.inner ++ ']' :: c.post) := by
        simp only [SpacedCatalog.text, hc]
      have hstep := ParseIndexLatestJsonFilteredStep_no_quote U82W c.text (w :: ws) 0 []
        (c.pre ++ '[' :: (c.inner ++ ']' :: c.post)) (by simp) (by rw [List.drop_zero, htext])
        (by
          simp only [List.mem_append, List.mem_cons, not_or]
          exact ⟨quote_not_mem_blank _ hpre, by decide, quote_not_mem_blank _ hinner, by decide,
            quote_not_mem_blank _ hpost⟩)
      rw [ParseIndexLatestJsonFilteredLoop, hstep]
      rfl
    | cons o os =>
      have htext : c.text = c.pre ++ spacedObjectsText c.post '[' (o :: os) := by
        simp only [SpacedCatalog.text, hc]
      exact ParseIndexLatestJsonFilteredLoop_spaced U82W _ _ c.post hpost (o :: os)
        (fun o2 h2 => hobjs o2 (hc ▸ h2)) c.pre (quote_not_mem_blank _ hpre) '[' (by decide) 0 []
        _ (by rw [List.drop_zero, htext]) (by
          have := spacedObjectsText_length c.post '[' (o :: os)
          rw [htext, List.length_append]
          omega)

/-! ## The filtered scan on catalog documents (C2) -/

set_option maxRecDepth 100000 in
/-- C2, as stated, fails on three documents of flat objects with clean strings.
With `latest-version` written before `id` the wanted id `A` gets no entry; with an
earlier value that is the text `id` the id is taken from the wrong field, so `A` gets
no entry and `C`, which is the id of no object, gets one; with a value that is the
text `latest-version` between the two keys, be it the id itself, the version is taken
from the wrong field. -/
theorem ParseIndexLatestJsonFiltered_order_matters :
    ParseIndexLatestJsonFiltered asciiU82W catalogVersionFirst ["A".toList] = some [] ∧
      ParseIndexLatestJsonFiltered asciiU82W catalogIdAsValue ["A".toList, "C".toList] =
        some [("C".toList, "1".toList)] ∧
      ParseIndexLatestJsonFiltered asciiU82W catalogVersionAsValue ["A".toList] =
        some [("A".toList, "c".toList)] ∧
      ParseIndexLatestJsonFiltered asciiU82W catalogVersionAsId ["latest-version".toList] =
        some [("latest-version".toList, "b".toList)] := by
  decide

/-- C2, amended: on a catalog document that is an array of flat objects, written with
any white space between its tokens, each object with the field `id` before the field
`latest-version` and possibly other string fields (all string contents clean, no
value before `id` being the text `id`, no value between the two fields and no id
being the text `latest-version`), with ids pairwise distinct as wide strings, and for
every list of wanted ids, `ParseIndexLatestJsonFiltered` returns a map, and this map
binds `k` to `v` exactly when `k` is wanted and is the id of an object whose latest
version is `v`. -/
theorem ParseIndexLatestJsonFiltered_catalog {W : Type} [LinearOrder W] (U82W : Str → W)
    (wanted : List W) (c : SpacedCatalog) (hwf : c.wellFormed = true)
    (hnd : (c.objs.map (fun o => U82W o.id)).Nodup) :
    ∃ m, ParseIndexLatestJsonFiltered U82W c.text wanted = some m ∧
      m.keys.Sorted (· < ·) ∧
      ∀ k v, m.find k = some v ↔
        k ∈ wanted ∧ ∃ o ∈ c.objs, U82W o.id = k ∧ U82W o.latest = v := by
  refine ⟨_, ParseIndexLatestJsonFiltered_eq_scanSpaced U82W wanted c hwf, ?_⟩
  obtain ⟨hs, hiff⟩ := scanObjects_find U82W wanted (c.objs.map SpacedObject.object) []
    (by simp [StdMap.keys]) (by simp [StdMap.keys]) (by simp [StdMap.keys])
    (by
      rw [List.map_map]
      exact hnd)
  refine ⟨hs, fun k v => ?_⟩
  rw [hiff]
  constructor
  · rintro (h | ⟨hk, o, ho, h1, h2⟩)
    · cases h
    · obtain ⟨o2, ho2, rfl⟩ := List.mem_map.1 ho
      exact ⟨hk, o2, ho2, h1, h2⟩
  · rintro ⟨hk, o2, ho2, h1, h2⟩
    exact Or.inr ⟨hk, o2.object, List.mem_map_of_mem _ ho2, h1, h2⟩

set_option maxRecDepth 100000 in
/-- A pretty-printed document of two objects with other fields around the two keys,
the second object wanted. -/
theorem ParseIndexLatestJsonFiltered_catalog_witness :
    catalogPretty.wellFormed = true ∧
      (catalogPretty.objs.map (fun o => asciiU82W o.id)).Nodup ∧
      (∃ m, ParseIndexLatestJsonFiltered asciiU82W catalogPretty.text ["B".toList] = some m ∧
          m.keys.Sorted (· < ·) ∧
          ∀ k v, m.find k = some v ↔
            k ∈ ["B".toList] ∧
              ∃ o ∈ catalogPretty.objs, asciiU82W o.id = k ∧ asciiU82W o.latest = v) ∧
      catalogPretty.text =
        ("[\n  \x7b\n    \"name\": \"x\",\n    \"id\": \"A\",\n    \"latest-version\": \"1\"\n  \x7d," ++
          "\n  \x7b \"id\" : \"B\" , \"n\":\"id\", \"latest-version\"\t:\n\"2\" \x7d\n]\n").toList ∧
      ParseIndexLatestJsonFiltered asciiU82W catalogPretty.text ["B".toList] =
        some [("B".toList, "2".toList)] :=
  ⟨by decide, by decide,
    ParseIndexLatestJsonFiltered_catalog asciiU82W ["B".toList] catalogPretty (by decide)
      (by decide),
    by decide, by decide⟩

/-! ## What `std::string::find` returns -/

theorem findCharFrom_eq_some_iff (c : Char) (l : Str) (i q : Nat) :
    findCharFrom c l i = some q ↔
      ∃ k, q = i + k ∧ l[k]? = some c ∧ ∀ j, j < k → l[j]? ≠ some c := by
  induction l generalizing i with
  | nil => simp [findCharFrom]
  | cons x xs ih =>
    by_cases hx : x = c
    · subst hx
      rw [findCharFrom, if_pos rfl]
      constructor
      · intro h
        exact ⟨0, by simpa using (Option.some.inj h).symm, by simp, by simp⟩
      · rintro ⟨k, hq, hk, hfirst⟩
        cases k with
        | zero => simp [hq]
        | succ k => exact absurd (by simp) (hfirst 0 (by omega))
    · rw [findCharFrom, if_neg hx, ih]
      constructor
      · rintro ⟨k, hq, hk, hfirst⟩
        refine ⟨k + 1, by omega, by simpa using hk, ?_⟩
        intro j hj
        cases j with
        | zero => simpa using hx
        | succ j => simpa using hfirst j (by omega)
      · rintro ⟨k, hq, hk, hfirst⟩
        cases k with
        | zero => exact absurd (by simpa using hk) hx
        | succ k =>
          refine ⟨k, by omega, by simpa using hk, ?_⟩
          intro j hj
          simpa using hfirst (j + 1) (by omega)

theorem findCharFrom_eq_none_iff (c : Char) (l : Str) (i : Nat) :
    findCharFrom c l i = none ↔ c ∉ l := by
  induction l generalizing i with
  | nil => simp [findCharFrom]
  | cons x xs ih =>
    by_cases hx : x = c
    · simp [findCharFrom, hx]
    · have hx2 : ¬ c = x := fun h => hx h.symm
      simp [findCharFrom, hx, hx2, ih]

/-- `s.find(c, a)` is the first index at or after `a` that holds `c`. -/
theorem strFindChar_eq_some_iff (s : Str) (c : Char) (a q : Nat) :
    strFindChar s c a = some q ↔
      a ≤ q ∧ s[q]? = some c ∧ ∀ j, a ≤ j → j < q → s[j]? ≠ some c := by
  unfold strFindChar
  rw [findCharFrom_eq_some_iff]
  constructor
  · rintro ⟨k, hq, hk, hfirst⟩
    subst hq
    refine ⟨by omega, by simpa [List.getElem?_drop] using hk, ?_⟩
    intro j h1 h2
    have := hfirst (j - a) (by omega)
    rw [List.getElem?_drop] at this
    rwa [show a + (j - a) = j by omega] at this
  · rintro ⟨h1, h2, hfirst⟩
    refine ⟨q - a, by omega, ?_, ?_⟩
    · rw [List.getElem?_drop, show a + (q - a) = q by omega]
      exact h2
    · intro j hj
      rw [List.getElem?_drop]
      exact hfirst (a + j) (by omega) (by omega)

/-- `s.find(c, a)` is `npos` when no index at or after `a` holds `c`. -/
theorem strFindChar_eq_none_iff (s : Str) (c : Char) (a : Nat) :
    strFindChar s c a = none ↔ ∀ j, a ≤ j → s[j]? ≠ some c := by
  unfold strFindChar
  rw [findCharFrom_eq_none_iff, List.mem_iff_getElem?]
  constructor
  · intro h j hj hc
    apply h
    refine ⟨j - a, ?_⟩
    rw [List.getElem?_drop, show a + (j - a) = j by omega]
    exact hc
  · rintro h ⟨k, hk⟩
    rw [List.getElem?_drop] at hk
    exact h (a + k) (by omega) hk

theorem findStrFrom_eq_some_iff (tok l : Str) (i q : Nat) :
    findStrFrom tok l i = some q ↔
      ∃ k, q = i + k ∧ k ≤ l.length ∧ tok <+: l.drop k ∧ ∀ j, j < k → ¬ tok <+: l.drop j := by
  induction l generalizing i with
  | nil =>
    by_cases ht : tok = []
    · subst ht
      rw [findStrFrom, if_pos rfl]
      constructor
      · intro h
        exact ⟨0, by simpa using (Option.some.inj h).symm, by simp, by simp, by simp⟩
      · rintro ⟨k, hq, hk, _, _⟩
        have hk0 : k = 0 := by simpa using hk
        subst hk0
        simp [hq]
    · simp [findStrFrom, ht]
  | cons x xs ih =>
    by_cases hp : tok.isPrefixOf (x :: xs) = true
    · rw [findStrFrom, if_pos hp]
      rw [List.isPrefixOf_iff_prefix] at hp
      constructor
      · intro h
        exact ⟨0, by simpa using (Option.some.inj h).symm, by simp, by simpa using hp, by simp⟩
      · rintro ⟨k, hq, _, _, hfirst⟩
        cases k with
        | zero => simp [hq]
        | succ k => exact absurd (by simpa using hp) (hfirst 0 (by omega))
    · rw [findStrFrom, if_neg hp, ih]
      rw [List.isPrefixOf_iff_prefix] at hp
      constructor
      · rintro ⟨k, hq, hk, hpre, hfirst⟩
        refine ⟨k + 1, by omega, by simpa using hk, by simpa using hpre, ?_⟩
        intro j hj
        cases j with
        | zero => simpa using hp
        | succ j => simpa using hfirst j (by omega)
      · rintro ⟨k, hq, hk, hpre, hfirst⟩
        cases k with
        | zero => exact absurd (by simpa using hpre) hp
        | succ k =>
          refine ⟨k, by omega, by simpa using hk, by simpa using hpre, ?_⟩
          intro j hj
          simpa using hfirst (j + 1) (by omega)

theorem findStrFrom_eq_none_iff (tok l : Str) (i : Nat) :
    findStrFrom tok l i = none ↔ ∀ k, k ≤ l.length → ¬ tok <+: l.drop k := by
  induction l generalizing i with
  | nil =>
    by_cases ht : tok = []
    · subst ht
      simp [findStrFrom]
    · simp [findStrFrom, ht]
  | cons x xs ih =>
    by_cases hp : tok.isPrefixOf (x :: xs) = true
    · rw [findStrFrom, if_pos hp]
      rw [List.isPrefixOf_iff_prefix] at hp
      constructor
      · intro h
        cases h
      · intro h
        exact absurd (by simpa using hp) (h 0 (by simp))
    · rw [findStrFrom, if_neg hp, ih]
      rw [List.isPrefixOf_iff_prefix] at hp
      constructor
      · intro h k hk
        cases k with
        | zero => simpa using hp
        | succ k => simpa using h k (by simpa using hk)
      · intro h k hk
        simpa using h (k + 1) (by simpa using hk)

/-- `s.find(tok, a)` is the first index at or after `a` at which `tok` starts. -/
theorem strFind_eq_some_iff (s tok : Str) (a q : Nat) :
    strFind s tok a = some q ↔
      a ≤ q ∧ q ≤ s.length ∧ tok <+: s.drop q ∧
        ∀ j, a ≤ j → j < q → ¬ tok <+: s.drop j := by
  unfold strFind
  by_cases ha : a ≤ s.length
  · rw [if_pos ha, findStrFrom_eq_some_iff]
    constructor
    · rintro ⟨k, hq, hk, hpre, hfirst⟩
      subst hq
      rw [List.length_drop] at hk
      refine ⟨by omega, by omega, by simpa [List.drop_drop] using hpre, ?_⟩
      intro j h1 h2
      have := hfirst (j - a) (by omega)
      rwa [List.drop_drop, show a + (j - a) = j by omega] at this
    · rintro ⟨h1, h2, hpre, hfirst⟩
      refine ⟨q - a, by omega, by rw [List.length_drop]; omega, ?_, ?_⟩
      · rw [List.drop_drop, show a + (q - a) = q by omega]
        exact hpre
      · intro j hj
        rw [List.drop_drop]
        exact hfirst (a + j) (by omega) (by omega)
  · rw [if_neg ha]
    constructor
    · intro h
      cases h
    · rintro ⟨h1, h2, _, _⟩
      omega

/-- `s.find(tok, a)` is `npos` when `tok` starts at no index at or after `a`. -/
theorem strFind_eq_none_iff (s tok : Str) (a : Nat) :
    strFind s tok a = none ↔ ∀ j, a ≤ j → j ≤ s.length → ¬ tok <+: s.drop j := by
  unfold strFind
  by_cases ha : a ≤ s.length
  · rw [if_pos ha, findStrFrom_eq_none_iff]
    constructor
    · intro h j h1 h2
      have := h (j - a) (by rw [List.length_drop]; omega)
      rwa [List.drop_drop, show a + (j - a) = j by omega] at this
    · intro h k hk
      rw [List.length_drop] at hk
      rw [List.drop_drop]
      exact h (a + k) (by omega) (by omega)
  · rw [if_neg ha]
    simp only [true_iff]
    intro j h1 h2
    omega

theorem strFindChar_bounds (s : Str) (c : Char) (a q : Nat) (h : strFindChar s c a = some q) :
    a ≤ q ∧ q < s.length := by
  obtain ⟨h1, h2, _⟩ := (strFindChar_eq_some_iff s c a q).1 h
  refine ⟨h1, ?_⟩
  by_contra hlt
  rw [List.getElem?_eq_none (by omega)] at h2
  cases h2

theorem strFindChar_mono (s : Str) (c : Char) (a b qa qb : Nat) (hab : a ≤ b)
    (ha : strFindChar s c a = some qa) (hb : strFindChar s c b = some qb) : qa ≤ qb := by
  obtain ⟨_, _, hfirst⟩ := (strFindChar_eq_some_iff s c a qa).1 ha
  obtain ⟨h1, h2, _⟩ := (strFindChar_eq_some_iff s c b qb).1 hb
  by_contra hlt
  exact hfirst qb (by omega) (by omega) h2

theorem strFindChar_none_mono (s : Str) (c : Char) (a b : Nat) (hab : a ≤ b)
    (ha : strFindChar s c a = none) : strFindChar s c b = none := by
  rw [strFindChar_eq_none_iff] at ha ⊢
  exact fun j hj => ha j (by omega)

theorem strFind_bounds (s tok : Str) (a q : Nat) (h : strFind s tok a = some q) :
    a ≤ q ∧ q + tok.length ≤ s.length := by
  obtain ⟨h1, h2, h3, _⟩ := (strFind_eq_some_iff s tok a q).1 h
  refine ⟨h1, ?_⟩
  have := h3.length_le
  rw [List.length_drop] at this
  omega

theorem strFind_mono (s tok : Str) (a b qa qb : Nat) (hab : a ≤ b)
    (ha : strFind s tok a = some qa) (hb : strFind s tok b = some qb) : qa ≤ qb := by
  obtain ⟨_, _, _, hfirst⟩ := (strFind_eq_some_iff s tok a qa).1 ha
  obtain ⟨h1, _, h3, _⟩ := (strFind_eq_some_iff s tok b qb).1 hb
  by_contra hlt
  exact hfirst qb (by omega) (by omega) h3

theorem strFind_none_mono (s tok : Str) (a b : Nat) (hab : a ≤ b)
    (ha : strFind s tok a = none) : strFind s tok b = none := by
  rw [strFind_eq_none_iff] at ha ⊢
  exact fun j hj hj2 => ha j (by omega) hj2

/-- A search that succeeds in `d` gives the same index in `d ++ s`. -/
theorem strFindChar_append (d s : Str) (c : Char) (a q : Nat)
    (h : strFindChar d c a = some q) : strFindChar (d ++ s) c a = some q := by
  have hb := (strFindChar_bounds d c a q h).2
  rw [strFindChar_eq_some_iff] at h ⊢
  obtain ⟨h1, h2, hfirst⟩ := h
  refine ⟨h1, ?_, ?_⟩
  · rw [List.getElem?_append_left hb]
    exact h2
  · intro j hj1 hj2
    rw [List.getElem?_append_left (by omega)]
    exact hfirst j hj1 hj2

theorem prefix_drop_append (d s tok : Str) (j : Nat) (hj : j + tok.length ≤ d.length)
    (h : tok <+: (d ++ s).drop j) : tok <+: d.drop j := by
  rw [List.drop_append_of_le_length (by omega)] at h
  exact List.prefix_of_prefix_length_le h (List.prefix_append _ _)
    (by rw [List.length_drop]; omega)

/-- A token search that succeeds in `d` gives the same index in `d ++ s`. -/
theorem strFind_append (d s tok : Str) (a q : Nat)
    (h : strFind d tok a = some q) : strFind (d ++ s) tok a = some q := by
  have hb := (strFind_bounds d tok a q h).2
  rw [strFind_eq_some_iff] at h ⊢
  obtain ⟨h1, h2, h3, hfirst⟩ := h
  refine ⟨h1, by rw [List.length_append]; omega, ?_, ?_⟩
  · rw [List.drop_append_of_le_length h2]
    exact h3.trans (List.prefix_append _ _)
  · intro j hj1 hj2 hpre
    exact hfirst j hj1 hj2 (prefix_drop_append d s tok j (by omega) hpre)

theorem substr_append (d s : Str) (p n : Nat) (h : p + n ≤ d.length) :
    substr (d ++ s) p n = substr d p n := by
  unfold substr
  rw [List.drop_append_of_le_length (by omega), List.take_append_of_le_length]
  rw [List.length_drop]
  omega

theorem ExtractJSONString_eq_some (s : Str) (p : Nat) (v : Str)
    (h : ExtractJSONString s p = some v) :
    ∃ q1 q2, strFindChar s '"' p = some q1 ∧ strFindChar s '"' (q1 + 1) = some q2 ∧
      v = substr s (q1 + 1) (q2 - (q1 + 1)) := by
  unfold ExtractJSONString at h
  cases h1 : strFindChar s '"' p with
  | none => simp [h1] at h
  | some q1 =>
    cases h2 : strFindChar s '"' (q1 + 1) with
    | none => simp [h1, h2] at h
    | some q2 =>
      simp only [h1, h2, Option.some.injEq] at h
      exact ⟨q1, q2, rfl, h2, h.symm⟩

theorem ExtractJSONString_append (d s : Str) (p : Nat) (v : Str)
    (h : ExtractJSONString d p = some v) : ExtractJSONString (d ++ s) p = some v := by
  obtain ⟨q1, q2, h1, h2, hv⟩ := ExtractJSONString_eq_some d p v h
  have b2 := strFindChar_bounds d '"' _ _ h2
  unfold ExtractJSONString
  rw [strFindChar_append d s '"' p q1 h1]
  simp only
  rw [strFindChar_append d s '"' _ q2 h2]
  simp only
  rw [substr_append d s _ _ (by omega), hv]

theorem ExtractJSONString_none_mono (s : Str) (a b : Nat) (hab : a ≤ b)
    (ha : ExtractJSONString s a = none) : ExtractJSONString s b = none := by
  cases hb : ExtractJSONString s b with
  | none => rfl
  | some v =>
    exfalso
    obtain ⟨q1, q2, h1, h2, _⟩ := ExtractJSONString_eq_some s b v hb
    cases g1 : strFindChar s '"' a with
    | none =>
      rw [strFindChar_none_mono s '"' a b hab g1] at h1
      cases h1
    | some p1 =>
      have hle := strFindChar_mono s '"' a b p1 q1 hab g1 h1
      cases g2 : strFindChar s '"' (p1 + 1) with
      | none =>
        rw [strFindChar_none_mono s '"' (p1 + 1) (q1 + 1) (by omega) g2] at h2
        cases h2
      | some p2 =>
        unfold ExtractJSONString at ha
        simp [g1, g2] at ha

/-- The three ways an iteration of the filtered scan can end: it leaves the loop with
the map untouched, it goes on further right with the map untouched, or it stores an
entry for a wanted id and stops or goes on behind the closing brace. -/
theorem ParseIndexLatestJsonFilteredStep_cases {W : Type} [LinearOrder W] (U82W : Str → W)
    (json : Str) (wanted : List W) (pos : Nat) (m : StdMap W) :
    ParseIndexLatestJsonFilteredStep U82W json wanted pos m = .stop m ∨
      (∃ pos2, pos < pos2 ∧ pos2 ≤ json.length ∧
        ParseIndexLatestJsonFilteredStep U82W json wanted pos m = .cont pos2 m) ∨
      ∃ idW latestW objClose, StoresEntry U82W json wanted pos idW latestW objClose ∧
        pos < objClose + 1 ∧ objClose + 1 ≤ json.length ∧
        ParseIndexLatestJsonFilteredStep U82W json wanted pos m =
          if (m.set idW latestW).size ≥ wanted.length then .stop (m.set idW latestW)
          else .cont (objClose + 1) (m.set idW latestW) := by
  unfold ParseIndexLatestJsonFilteredStep
  cases h1 : FindToken json pos idToken with
  | none => exact Or.inl rfl
  | some idField =>
    simp only
    have b1 := strFind_bounds json idToken pos idField h1
    have hlen : idToken.length = 4 := rfl
    cases h2 : strFindChar json ':' idField with
    | none => exact Or.inl rfl
    | some colon =>
      simp only
      have b2 := strFindChar_bounds json ':' idField colon h2
      cases h3 : ExtractJSONString json (colon + 1) with
      | none => exact Or.inr (Or.inl ⟨idField + 4, by omega, by omega, rfl⟩)
      | some idUtf8 =>
        simp only
        cases h4 : strFindChar json '"' (colon + 1) with
        | none => exact Or.inr (Or.inl ⟨idField + 4, by omega, by omega, rfl⟩)
        | some afterIdVal =>
          simp only
          have b4 := strFindChar_bounds json '"' _ _ h4
          cases h5 : strFindChar json '\x7d' afterIdVal with
          | none => exact Or.inr (Or.inl ⟨idField + 4, by omega, by omega, rfl⟩)
          | some objClose =>
            simp only
            have b5 := strFindChar_bounds json '\x7d' _ _ h5
            have hnext : pos < objClose + 1 ∧ objClose + 1 ≤ json.length := by omega
            by_cases hw : isWanted wanted (U82W idUtf8) = true
            · simp only [hw, Bool.not_true, Bool.false_eq_true, if_false]
              cases h6 : FindToken json colon lvToken with
              | none => exact Or.inr (Or.inl ⟨objClose + 1, hnext.1, hnext.2, rfl⟩)
              | some lvField =>
                simp only
                by_cases c1 : lvField > objClose
                · simp only [c1, if_true]
                  exact Or.inr (Or.inl ⟨objClose + 1, hnext.1, hnext.2, rfl⟩)
                · simp only [c1, if_false]
                  cases h7 : strFindChar json ':' lvField with
                  | none => exact Or.inr (Or.inl ⟨objClose + 1, hnext.1, hnext.2, rfl⟩)
                  | some lvColon =>
                    simp only
                    by_cases c2 : lvColon > objClose
                    · simp only [c2, if_true]
                      exact Or.inr (Or.inl ⟨objClose + 1, hnext.1, hnext.2, rfl⟩)
                    · simp only [c2, if_false]
                      cases h8 : ExtractJSONString json (lvColon + 1) with
                      | none => exact Or.inr (Or.inl ⟨objClose + 1, hnext.1, hnext.2, rfl⟩)
                      | some latestUtf8 =>
                        simp only
                        refine Or.inr (Or.inr ⟨U82W idUtf8, U82W latestUtf8, objClose,
                          ⟨idField, colon, idUtf8, afterIdVal, lvField, lvColon, latestUtf8,
                            h1, h2, h3, h4, h5, hw, h6, by omega, h7, by omega, h8, rfl, rfl⟩,
                          hnext.1, hnext.2, rfl⟩)
            · simp only [hw, Bool.not_false, if_true]
              exact Or.inr (Or.inl ⟨objClose + 1, hnext.1, hnext.2, rfl⟩)

/-- The loop of the filtered scan returns: the position grows in every iteration and
stays within the text, so `json.length + 1` iterations are enough. -/
theorem ParseIndexLatestJsonFilteredLoop_total {W : Type} [LinearOrder W] (U82W : Str → W)
    (json : Str) (wanted : List W) (fuel pos : Nat) (m : StdMap W) (hpos : pos ≤ json.length)
    (hfuel : json.length < fuel + pos) :
    ∃ r, ParseIndexLatestJsonFilteredLoop U82W json wanted fuel pos m = some r := by
  induction fuel generalizing pos m with
  | zero => omega
  | succ f ih =>
    rw [ParseIndexLatestJsonFilteredLoop]
    rcases ParseIndexLatestJsonFilteredStep_cases U82W json wanted pos m with
      h | ⟨pos2, h1, h2, h⟩ | ⟨idW, latestW, oc, _, h1, h2, h⟩
    · rw [h]
      exact ⟨m, rfl⟩
    · rw [h]
      exact ih pos2 m h2 (by omega)
    · rw [h]
      by_cases hs : (m.set idW latestW).size ≥ wanted.length
      · rw [if_pos hs]
        exact ⟨_, rfl⟩
      · rw [if_neg hs]
        exact ih (oc + 1) _ h2 (by omega)

/-- `ParseIndexLatestJsonFiltered` returns a map on every text and every wanted list. -/
theorem ParseIndexLatestJsonFiltered_total {W : Type} [LinearOrder W] (U82W : Str → W)
    (json : Str) (wanted : List W) :
    ∃ r, ParseIndexLatestJsonFiltered U82W json wanted = some r := by
  unfold ParseIndexLatestJsonFiltered
  by_cases hw : wanted.isEmpty = true
  · rw [if_pos hw]
    exact ⟨[], rfl⟩
  · rw [if_neg hw]
    exact ParseIndexLatestJsonFilteredLoop_total U82W json wanted _ 0 [] (by omega) (by omega)

/-- A property of the map that storing an entry for a wanted id keeps holds for the
result of the loop. -/
theorem ParseIndexLatestJsonFilteredLoop_invariant {W : Type} [LinearOrder W] (U82W : Str → W)
    (json : Str) (wanted : List W) (P : StdMap W → Prop)
    (hP : ∀ m idW latestW, isWanted wanted idW = true → P m → P (m.set idW latestW))
    (fuel pos : Nat) (m r : StdMap W)
    (h : ParseIndexLatestJsonFilteredLoop U82W json wanted fuel pos m = some r) (hm : P m) :
    P r := by
  induction fuel generalizing pos m with
  | zero => cases h
  | succ f ih =>
    rw [ParseIndexLatestJsonFilteredLoop] at h
    rcases ParseIndexLatestJsonFilteredStep_cases U82W json wanted pos m with
      hs | ⟨pos2, _, _, hs⟩ | ⟨idW, latestW, oc, hst, _, _, hs⟩
    · rw [hs] at h
      cases h
      exact hm
    · rw [hs] at h
      exact ih pos2 m h hm
    · obtain ⟨_, _, idUtf8, _, _, _, _, _, _, _, _, _, hw, _, _, _, _, _, hid, _⟩ := hst
      have hm2 : P (m.set idW latestW) := hP m idW latestW (by rw [hid]; exact hw) hm
      rw [hs] at h
      by_cases hsz : (m.set idW latestW).size ≥ wanted.length
      · rw [if_pos hsz] at h
        cases h
        exact hm2
      · rw [if_neg hsz] at h
        exact ih (oc + 1) _ h hm2

/-! ## The keys of the filtered scan are wanted ids (C20) -/

/-- C20: on every text and every wanted list `ParseIndexLatestJsonFiltered` returns a
map whose keys are all members of the wanted list; an empty wanted list gives the
empty map, and the map has at most as many entries as there are distinct wanted
ids. -/
theorem ParseIndexLatestJsonFiltered_keys_wanted {W : Type} [LinearOrder W] (U82W : Str → W)
    (json : Str) (wanted : List W) :
    ∃ m, ParseIndexLatestJsonFiltered U82W json wanted = some m ∧
      (∀ k ∈ m.keys, k ∈ wanted) ∧ (wanted = [] → m = []) ∧
      m.size ≤ wanted.dedup.length := by
  obtain ⟨r, hr⟩ := ParseIndexLatestJsonFiltered_total U82W json wanted
  have hinv : (∀ k ∈ r.keys, k ∈ wanted) ∧ r.keys.Sorted (· < ·) := by
    unfold ParseIndexLatestJsonFiltered at hr
    by_cases hw : wanted.isEmpty = true
    · rw [if_pos hw] at hr
      cases hr
      simp [StdMap.keys]
    · rw [if_neg hw] at hr
      refine ParseIndexLatestJsonFilteredLoop_invariant U82W json wanted
        (fun m => (∀ k ∈ m.keys, k ∈ wanted) ∧ m.keys.Sorted (· < ·)) ?_ _ 0 [] r hr
        (by simp [StdMap.keys])
      rintro m idW latestW hw2 ⟨h1, h2⟩
      refine ⟨?_, StdMap.sorted_set m idW latestW h2⟩
      intro k hk
      rcases (StdMap.mem_keys_set m idW latestW k).1 hk with rfl | hk
      · exact (isWanted_iff wanted _).1 hw2
      · exact h1 k hk
  refine ⟨r, hr, hinv.1, ?_, ?_⟩
  · intro hw
    subst hw
    cases r with
    | nil => rfl
    | cons p t => exact absurd (hinv.1 p.1 (by simp [StdMap.keys])) (by simp)
  · have hsub : r.keys ⊆ wanted.dedup := fun k hk => List.mem_dedup.2 (hinv.1 k hk)
    have := (List.subperm_of_subset hinv.2.nodup hsub).length_le
    simpa [StdMap.keys, StdMap.size] using this

/-! ## Text behind the object that resolves the last wanted id -/

/-- Once no iteration can store an entry, the loop returns the map it was given. -/
theorem ParseIndexLatestJsonFilteredLoop_noEntry {W : Type} [LinearOrder W] (U82W : Str → W)
    (json : Str) (wanted : List W) (p0 : Nat) (hdead : NoEntryFrom U82W json wanted p0)
    (fuel pos : Nat) (m r : StdMap W) (hpos : p0 ≤ pos)
    (h : ParseIndexLatestJsonFilteredLoop U82W json wanted fuel pos m = some r) : r = m := by
  induction fuel generalizing pos with
  | zero => cases h
  | succ f ih =>
    rw [ParseIndexLatestJsonFilteredLoop] at h
    rcases ParseIndexLatestJsonFilteredStep_cases U82W json wanted pos m with
      hs | ⟨pos2, hlt, _, hs⟩ | ⟨idW, latestW, oc, hst, _, _, _⟩
    · rw [hs] at h
      cases h
      rfl
    · rw [hs] at h
      exact ih pos2 (by omega) h
    · exact absurd hst (hdead pos idW latestW oc hpos)

/-- The colon, the value of the id, the key `latest-version` and its colon of an
iteration that starts at or after `i0` lie at or after those found from `i0`. -/
theorem StoresEntry_after {W : Type} [LinearOrder W] (U82W : Str → W) (json : Str)
    (wanted : List W) (i0 c0 p : Nat) (idW latestW : W) (oc : Nat) (hp : i0 ≤ p)
    (hc0 : strFindChar json ':' i0 = some c0)
    (h : StoresEntry U82W json wanted p idW latestW oc) :
    ExtractJSONString json (c0 + 1) ≠ none ∧
      (∀ a0, strFindChar json '"' (c0 + 1) = some a0 → strFindChar json '\x7d' a0 ≠ none) ∧
      FindToken json c0 lvToken ≠ none ∧
      (∀ l0, FindToken json c0 lvToken = some l0 → strFindChar json ':' l0 ≠ none ∧
        ∀ lc0, strFindChar json ':' l0 = some lc0 →
          ExtractJSONString json (lc0 + 1) ≠ none) := by
  obtain ⟨idField, colon, idUtf8, afterIdVal, lvField, lvColon, latestUtf8,
    h1, h2, h3, h4, h5, _, h6, _, h7, _, h8, _, _⟩ := h
  have b1 := strFind_bounds json idToken p idField h1
  have hcolon : c0 ≤ colon := strFindChar_mono json ':' i0 idField c0 colon (by omega) hc0 h2
  refine ⟨?_, ?_, ?_, ?_⟩
  · intro hn
    rw [ExtractJSONString_none_mono json (c0 + 1) (colon + 1) (by omega) hn] at h3
    cases h3
  · intro a0 ha0 hn
    have := strFindChar_mono json '"' (c0 + 1) (colon + 1) a0 afterIdVal (by omega) ha0 h4
    rw [strFindChar_none_mono json '\x7d' a0 afterIdVal this hn] at h5
    cases h5
  · intro hn
    unfold FindToken at hn h6
    rw [strFind_none_mono json lvToken c0 colon hcolon hn] at h6
    cases h6
  · intro l0 hl0
    unfold FindToken at hl0 h6
    have hl : l0 ≤ lvField := strFind_mono json lvToken c0 colon l0 lvField hcolon hl0 h6
    refine ⟨?_, ?_⟩
    · intro hn
      rw [strFindChar_none_mono json ':' l0 lvField hl hn] at h7
      cases h7
    · intro lc0 hlc0 hn
      have := strFindChar_mono json ':' l0 lvField lc0 lvColon hl hlc0 h7
      rw [ExtractJSONString_none_mono json (lc0 + 1) (lvColon + 1) (by omega) hn] at h8
      cases h8

/-- An iteration on `d` either runs in the same way on `d ++ s`, or leaves the loop
with the map untouched, or goes on with the map untouched to a position from which
no entry is stored any more. -/
theorem ParseIndexLatestJsonFilteredStep_append {W : Type} [LinearOrder W] (U82W : Str → W)
    (d s : Str) (wanted : List W) (pos : Nat) (m : StdMap W) :
    ParseIndexLatestJsonFilteredStep U82W (d ++ s) wanted pos m =
        ParseIndexLatestJsonFilteredStep U82W d wanted pos m ∨
      ParseIndexLatestJsonFilteredStep U82W d wanted pos m = .stop m ∨
      ∃ pos2, pos ≤ pos2 ∧ NoEntryFrom U82W d wanted pos2 ∧
        ParseIndexLatestJsonFilteredStep U82W d wanted pos m = .cont pos2 m := by
  have hdead : ∀ i0 c0, pos ≤ i0 → strFindChar d ':' i0 = some c0 →
      (ExtractJSONString d (c0 + 1) = none ∨
        (∃ a0, strFindChar d '"' (c0 + 1) = some a0 ∧ strFindChar d '\x7d' a0 = none) ∨
        FindToken d c0 lvToken = none ∨
        ∃ l0, FindToken d c0 lvToken = some l0 ∧ (strFindChar d ':' l0 = none ∨
          ∃ lc0, strFindChar d ':' l0 = some lc0 ∧ ExtractJSONString d (lc0 + 1) = none)) →
      ∀ p2, i0 ≤ p2 → NoEntryFrom U82W d wanted p2 := by
    intro i0 c0 _ hc0 hcause p2 hp2 p idW latestW oc hp hst
    obtain ⟨g1, g2, g3, g4⟩ := StoresEntry_after U82W d wanted i0 c0 p idW latestW oc
      (by omega) hc0 hst
    rcases hcause with h | ⟨a0, ha0, h⟩ | h | ⟨l0, hl0, h | ⟨lc0, hlc0, h⟩⟩
    · exact g1 h
    · exact g2 a0 ha0 h
    · exact g3 h
    · exact (g4 l0 hl0).1 h
    · exact (g4 l0 hl0).2 lc0 hlc0 h
  unfold ParseIndexLatestJsonFilteredStep
  cases h1 : FindToken d pos idToken with
  | none => exact Or.inr (Or.inl rfl)
  | some idField =>
    simp only
    have b1 := strFind_bounds d idToken pos idField h1
    have e1 : FindToken (d ++ s) pos idToken = some idField := strFind_append d s _ _ _ h1
    rw [e1]
    simp only
    cases h2 : strFindChar d ':' idField with
    | none => exact Or.inr (Or.inl rfl)
    | some colon =>
      simp only
      have b2 := strFindChar_bounds d ':' idField colon h2
      rw [strFindChar_append d s ':' idField colon h2]
      simp only
      cases h3 : ExtractJSONString d (colon + 1) with
      | none =>
        exact Or.inr (Or.inr ⟨idField + 4, by omega,
          hdead idField colon b1.1 h2 (Or.inl h3) _ (by omega), rfl⟩)
      | some idUtf8 =>
        simp only
        rw [ExtractJSONString_append d s _ _ h3]
        simp only
        cases h4 : strFindChar d '"' (colon + 1) with
        | none =>
          obtain ⟨q1, _, hq1, _, _⟩ := ExtractJSONString_eq_some d _ _ h3
          rw [h4] at hq1
          cases hq1
        | some afterIdVal =>
          simp only
          have b4 := strFindChar_bounds d '"' _ _ h4
          rw [strFindChar_append d s '"' _ _ h4]
          simp only
          cases h5 : strFindChar d '\x7d' afterIdVal with
          | none =>
            exact Or.inr (Or.inr ⟨idField + 4, by omega,
              hdead idField colon b1.1 h2 (Or.inr (Or.inl ⟨afterIdVal, h4, h5⟩)) _ (by omega),
              rfl⟩)
          | some objClose =>
            simp only
            have b5 := strFindChar_bounds d '\x7d' _ _ h5
            rw [strFindChar_append d s '\x7d' _ _ h5]
            simp only
            by_cases hw : isWanted wanted (U82W idUtf8) = true
            · simp only [hw, Bool.not_true, Bool.false_eq_true, if_false]
              cases h6 : FindToken d colon lvToken with
              | none =>
                exact Or.inr (Or.inr ⟨objClose + 1, by omega,
                  hdead idField colon b1.1 h2 (Or.inr (Or.inr (Or.inl h6))) _ (by omega), rfl⟩)
              | some lvField =>
                simp only
                have e6 : FindToken (d ++ s) colon lvToken = some lvField :=
                  strFind_append d s _ _ _ h6
                rw [e6]
                simp only
                by_cases c1 : lvField > objClose
                · simp only [c1, if_true]
                  exact Or.inl trivial
                · simp only [c1, if_false]
                  cases h7 : strFindChar d ':' lvField with
                  | none =>
                    exact Or.inr (Or.inr ⟨objClose + 1, by omega,
                      hdead idField colon b1.1 h2
                        (Or.inr (Or.inr (Or.inr ⟨lvField, h6, Or.inl h7⟩))) _ (by omega), rfl⟩)
                  | some lvColon =>
                    simp only
                    rw [strFindChar_append d s ':' _ _ h7]
                    simp only
                    by_cases c2 : lvColon > objClose
                    · simp only [c2, if_true]
                      exact Or.inl trivial
                    · simp only [c2, if_false]
                      cases h8 : ExtractJSONString d (lvColon + 1) with
                      | none =>
                        exact Or.inr (Or.inr ⟨objClose + 1, by omega,
                          hdead idField colon b1.1 h2
                            (Or.inr (Or.inr (Or.inr ⟨lvField, h6, Or.inr ⟨lvColon, h7, h8⟩⟩)))
                            _ (by omega), rfl⟩)
                      | some latestUtf8 =>
                        simp only
                        rw [ExtractJSONString_append d s _ _ h8]
                        exact Or.inl rfl
            · simp only [hw, Bool.not_false, if_true]
              exact Or.inl trivial

theorem ParseIndexLatestJsonFilteredLoop_append {W : Type} [LinearOrder W] (U82W : Str → W)
    (d s : Str) (wanted : List W) (fuel pos : Nat) (m r : StdMap W)
    (h : ParseIndexLatestJsonFilteredLoop U82W d wanted fuel pos m = some r)
    (hm : m.size < wanted.length) (hr : wanted.length ≤ r.size) (fuel2 : Nat)
    (hfuel : fuel ≤ fuel2) :
    ParseIndexLatestJsonFilteredLoop U82W (d ++ s) wanted fuel2 pos m = some r := by
  induction fuel generalizing pos m fuel2 with
  | zero => cases h
  | succ f ih =>
    cases fuel2 with
    | zero => omega
    | succ f2 =>
      rw [ParseIndexLatestJsonFilteredLoop] at h ⊢
      rcases ParseIndexLatestJsonFilteredStep_append U82W d s wanted pos m with
        hsame | hstop | ⟨pos2, hle, hdead, hcont⟩
      · rw [hsame]
        rcases ParseIndexLatestJsonFilteredStep_cases U82W d wanted pos m with
          hs | ⟨pos2, _, _, hs⟩ | ⟨idW, latestW, oc, _, _, _, hs⟩
        · rw [hs] at h ⊢
          exact h
        · rw [hs] at h ⊢
          exact ih pos2 m h hm f2 (by omega)
        · rw [hs] at h ⊢
          by_cases hsz : (m.set idW latestW).size ≥ wanted.length
          · rw [if_pos hsz] at h ⊢
            exact h
          · rw [if_neg hsz] at h ⊢
            exact ih (oc + 1) _ h (by omega) f2 (by omega)
      · rw [hstop] at h
        cases h
        omega
      · rw [hcont] at h
        have := ParseIndexLatestJsonFilteredLoop_noEntry U82W d wanted pos2 hdead f pos2 m r
          (Nat.le_refl _) h
        subst this
        omega

/-! ## The scan stops at the last wanted id (C19) -/

/-- C19: when the filtered scan of the text `d` returns a map with as many entries as
the wanted list has ids, the scan of `d ++ s` returns the same map, whatever the text
`s` is. -/
theorem ParseIndexLatestJsonFiltered_append {W : Type} [LinearOrder W] (U82W : Str → W)
    (d s : Str) (wanted : List W) (r : StdMap W)
    (hr : ParseIndexLatestJsonFiltered U82W d wanted = some r)
    (hsize : r.size = wanted.length) :
    ParseIndexLatestJsonFiltered U82W (d ++ s) wanted =
      ParseIndexLatestJsonFiltered U82W d wanted := by
  rw [hr]
  unfold ParseIndexLatestJsonFiltered at hr ⊢
  by_cases hw : wanted.isEmpty = true
  · rw [if_pos hw] at hr ⊢
    exact hr
  · rw [if_neg hw] at hr ⊢
    have hpos : StdMap.size ([] : StdMap W) < wanted.length := by
      cases wanted with
      | nil => simp at hw
      | cons a t => simp [StdMap.size]
    exact ParseIndexLatestJsonFilteredLoop_append U82W d s wanted _ 0 [] r hr hpos
      (by omega) _ (by rw [List.length_append]; omega)

set_option maxRecDepth 100000 in
/-- The document with the ids `A`, `B`, `C`, `D`, the wanted ids `A` and `C`, and
another object for `A` put behind the document. -/
theorem ParseIndexLatestJsonFiltered_append_witness :
    ParseIndexLatestJsonFiltered asciiU82W catalogABCD ["A".toList, "C".toList] =
        some [("A".toList, "1".toList), ("C".toList, "3".toList)] ∧
      StdMap.size [("A".toList, "1".toList), ("C".toList, "3".toList)] =
        ["A".toList, "C".toList].length ∧
      ParseIndexLatestJsonFiltered asciiU82W (catalogABCD ++ textBehind)
          ["A".toList, "C".toList] =
        ParseIndexLatestJsonFiltered asciiU82W catalogABCD ["A".toList, "C".toList] :=
  ⟨by decide, by decide,
    ParseIndexLatestJsonFiltered_append asciiU82W catalogABCD textBehind
      ["A".toList, "C".toList] [("A".toList, "1".toList), ("C".toList, "3".toList)]
      (by decide) (by decide)⟩

/-! ## One iteration of the filtered scan, up to the closing brace -/

/-- The iteration that starts at `pos` when the text from `pos` on is `X`, the key
`id` with the value `id`, and a text `R` without closing brace followed by one: the
id is read and the rest of the iteration runs with the colon and the brace at the
places they stand. -/
theorem ParseIndexLatestJsonFilteredStep_head {W : Type} [LinearOrder W] (U82W : Str → W)
    (json : Str) (wanted : List W) (pos : Nat) (m : StdMap W) (X id R T : Str)
    (hdrop : json.drop pos = X ++ (idToken ++ ':' :: (quoted id ++ (R ++ '\x7d' :: T))))
    (hfindId : findStrFrom idToken (json.drop pos) pos = some (pos + X.length))
    (hid : '"' ∉ id) (hbrace : '\x7d' ∉ quoted id ++ R) :
    ParseIndexLatestJsonFilteredStep U82W json wanted pos m =
      if !isWanted wanted (U82W id) then
        .cont (pos + X.length + 4 + 1 + (quoted id).length + R.length + 1) m
      else
        match FindToken json (pos + X.length + 4) lvToken with
        | none => .cont (pos + X.length + 4 + 1 + (quoted id).length + R.length + 1) m
        | some lvField =>
          if lvField > pos + X.length + 4 + 1 + (quoted id).length + R.length then
            .cont (pos + X.length + 4 + 1 + (quoted id).length + R.length + 1) m
          else
            match strFindChar json ':' lvField with
            | none => .cont (pos + X.length + 4 + 1 + (quoted id).length + R.length + 1) m
            | some lvColon =>
              if lvColon > pos + X.length + 4 + 1 + (quoted id).length + R.length then
                .cont (pos + X.length + 4 + 1 + (quoted id).length + R.length + 1) m
              else
                match ExtractJSONString json (lvColon + 1) with
                | none =>
                  .cont (pos + X.length + 4 + 1 + (quoted id).length + R.length + 1) m
                | some latestUtf8 =>
                  if (m.set (U82W id) (U82W latestUtf8)).size ≥ wanted.length then
                    .stop (m.set (U82W id) (U82W latestUtf8))
                  else
                    .cont (pos + X.length + 4 + 1 + (quoted id).length + R.length + 1)
                      (m.set (U82W id) (U82W latestUtf8)) := by
  have hX : X ++ (idToken ++ ':' :: (quoted id ++ (R ++ '\x7d' :: T))) ≠ [] := by
    simp [idToken]
  have e1 : FindToken json pos idToken = some (pos + X.length) := by
    unfold FindToken
    rw [strFind_of_drop json idToken pos _ hX hdrop, ← hdrop, hfindId]
  have d1 := drop_add_of_drop_eq json pos X _ hdrop
  have e2 : strFindChar json ':' (pos + X.length) = some (pos + X.length + 4) :=
    strFindChar_eq json ':' _ idToken _ d1 (by decide)
  have d2 : json.drop (pos + X.length + 4) = ':' :: (quoted id ++ (R ++ '\x7d' :: T)) :=
    drop_add_of_drop_eq json _ idToken _ d1
  have d3 : json.drop (pos + X.length + 4 + 1) = quoted id ++ (R ++ '\x7d' :: T) :=
    drop_add_of_drop_eq json _ [':'] _ d2
  have e3 : ExtractJSONString json (pos + X.length + 4 + 1) = some id :=
    ExtractJSONString_eq json _ [] id _ d3 (by simp) hid
  have e4 : strFindChar json '"' (pos + X.length + 4 + 1) = some (pos + X.length + 4 + 1) :=
    strFindChar_eq json '"' _ [] (id ++ '"' :: (R ++ '\x7d' :: T))
      (by rw [d3]; simp [quoted]) (by simp)
  have e5 : strFindChar json '\x7d' (pos + X.length + 4 + 1) =
      some (pos + X.length + 4 + 1 + (quoted id).length + R.length) := by
    rw [strFindChar_eq json '\x7d' _ (quoted id ++ R) T (by rw [d3]; simp) hbrace]
    congr 1
    simp only [List.length_append]
    omega
  unfold ParseIndexLatestJsonFilteredStep
  rw [e1]
  simp only
  rw [e2]
  simp only
  rw [e3]
  simp only
  rw [e4]
  simp only
  rw [e5]

theorem colon_not_mem_of_clean (s : Str) (hs : clean s = true) : ':' ∉ s := by
  unfold clean at hs
  rw [List.all_eq_true] at hs
  intro h
  have := hs _ h
  revert this
  decide

/-- The iteration on an object `{"id":"x"}` without version: the scan goes on behind
the closing brace with the map untouched, whether the id is wanted or not. -/
theorem ParseIndexLatestJsonFilteredStep_lacking {W : Type} [LinearOrder W] (U82W : Str → W)
    (json : Str) (wanted : List W) (pos : Nat) (m : StdMap W) (d : Char) (hd : d ≠ '"')
    (id T : Str) (hid : clean id = true)
    (hdrop : json.drop pos =
      d :: ('\x7b' :: (quoted idKey ++ ':' :: (quoted id ++ ['\x7d'])) ++ T)) :
    ParseIndexLatestJsonFilteredStep U82W json wanted pos m =
      .cont (pos + (1 + ('\x7b' :: (quoted idKey ++ ':' :: (quoted id ++ ['\x7d']))).length)) m := by
  have hq := (not_mem_of_clean id hid).1
  have hb := (not_mem_of_clean id hid).2
  have hc := colon_not_mem_of_clean id hid
  have hshape : d :: ('\x7b' :: (quoted idKey ++ ':' :: (quoted id ++ ['\x7d'])) ++ T) =
      [d, '\x7b'] ++ (idToken ++ ':' :: (quoted id ++ ([] ++ '\x7d' :: T))) := by
    simp [idToken_eq]
  rw [hshape] at hdrop
  have hfindId : findStrFrom idToken (json.drop pos) pos = some (pos + [d, '\x7b'].length) := by
    rw [hdrop, idToken_eq]
    show findStrFrom (quoted idKey) (d :: '\x7b' :: (quoted idKey ++ _)) pos = _
    rw [findStrFrom_skip_char idKey _ d _ hd, findStrFrom_skip_char idKey _ '\x7b' _ (by decide),
      findStrFrom_here _ _ _ (by simp [quoted])]
    rfl
  rw [ParseIndexLatestJsonFilteredStep_head U82W json wanted pos m [d, '\x7b'] id [] T hdrop
    hfindId hq (by simpa using brace_not_mem_quoted id hb)]
  have hpos : pos + [d, '\x7b'].length + 4 + 1 + (quoted id).length + ([] : Str).length + 1 =
      pos + (1 + ('\x7b' :: (quoted idKey ++ ':' :: (quoted id ++ ['\x7d']))).length) := by
    simp [quoted, idKey]
    omega
  -- the text between the colon and the brace
  have d2 : json.drop (pos + [d, '\x7b'].length + 4) =
      ':' :: (quoted id ++ ([] ++ '\x7d' :: T)) := by
    have d1 := drop_add_of_drop_eq json pos [d, '\x7b'] _ hdrop
    exact drop_add_of_drop_eq json _ idToken _ d1
  have hget : ∀ j, pos + [d, '\x7b'].length + 4 < j →
      j ≤ pos + [d, '\x7b'].length + 4 + 1 + (quoted id).length + ([] : Str).length →
      json[j]? ≠ some ':' := by
    intro j h1 h2 hj
    have d3 : json.drop (pos + [d, '\x7b'].length + 4 + 1) = quoted id ++ ([] ++ '\x7d' :: T) :=
      drop_add_of_drop_eq json _ [':'] _ d2
    have hj2 : (json.drop (pos + [d, '\x7b'].length + 4 + 1))[
        j - (pos + [d, '\x7b'].length + 4 + 1)]? = some ':' := by
      rw [List.getElem?_drop, show pos + [d, '\x7b'].length + 4 + 1 +
        (j - (pos + [d, '\x7b'].length + 4 + 1)) = j by omega]
      exact hj
    rw [d3, List.nil_append, show quoted id ++ '\x7d' :: T = (quoted id ++ ['\x7d']) ++ T by simp,
      List.getElem?_append_left (by simp only [List.length_append, List.length_nil,
        List.length_singleton] at h2 ⊢; omega)] at hj2
    have hmem := List.getElem?_mem hj2
    simp only [quoted, List.mem_append, List.mem_singleton, List.mem_cons] at hmem
    rcases hmem with ((h | h) | h) | h
    · revert h
      decide
    · exact hc h
    · revert h
      decide
    · revert h
      decide
  rw [hpos]
  by_cases hw : isWanted wanted (U82W id) = true
  · simp only [hw, Bool.not_true, Bool.false_eq_true, if_false]
    cases h6 : FindToken json (pos + [d, '\x7b'].length + 4) lvToken with
    | none => rfl
    | some lvField =>
      simp only
      split_ifs with c1
      · rfl
      · cases h7 : strFindChar json ':' lvField with
        | none => rfl
        | some lvColon =>
          simp only
          split_ifs with c2
          · rfl
          · exfalso
            unfold FindToken at h6
            obtain ⟨g1, _, g3, _⟩ := (strFind_eq_some_iff json lvToken _ lvField).1 h6
            obtain ⟨k1, k2, _⟩ := (strFindChar_eq_some_iff json ':' lvField lvColon).1 h7
            have hne : lvField ≠ pos + [d, '\x7b'].length + 4 := by
              intro he
              rw [he, d2] at g3
              have := g3.head (by decide)
              revert this
              simp [lvToken]
            exact hget lvColon (by omega) (by omega) k2
  · simp only [hw, Bool.not_false, if_true]

/-- The iteration on an object `{"id":"x","latest-version":"v"}` with clean `x` and
`v`: a wanted id is bound to `v`, also when `x` is the text `latest-version`. -/
theorem ParseIndexLatestJsonFilteredStep_plain {W : Type} [LinearOrder W] (U82W : Str → W)
    (json : Str) (wanted : List W) (pos : Nat) (m : StdMap W) (d : Char) (hd : d ≠ '"')
    (id v T : Str) (hid : clean id = true) (hv : clean v = true)
    (hdrop : json.drop pos =
      d :: ('\x7b' :: (quoted idKey ++ ':' :: (quoted id ++
        (',' :: (quoted lvKey ++ ':' :: quoted v) ++ ['\x7d']))) ++ T)) :
    ParseIndexLatestJsonFilteredStep U82W json wanted pos m =
      if isWanted wanted (U82W id) then
        if (m.set (U82W id) (U82W v)).size ≥ wanted.length then
          .stop (m.set (U82W id) (U82W v))
        else
          .cont (pos + (1 + ('\x7b' :: (quoted idKey ++ ':' :: (quoted id ++
            (',' :: (quoted lvKey ++ ':' :: quoted v) ++ ['\x7d'])))).length))
            (m.set (U82W id) (U82W v))
      else
        .cont (pos + (1 + ('\x7b' :: (quoted idKey ++ ':' :: (quoted id ++
          (',' :: (quoted lvKey ++ ':' :: quoted v) ++ ['\x7d'])))).length)) m := by
  by_cases hne : id = lvKey
  · subst hne
    have hvq := (not_mem_of_clean v hv).1
    have hvb := (not_mem_of_clean v hv).2
    have hshape : d :: ('\x7b' :: (quoted idKey ++ ':' :: (quoted lvKey ++
          (',' :: (quoted lvKey ++ ':' :: quoted v) ++ ['\x7d']))) ++ T) =
        [d, '\x7b'] ++ (idToken ++ ':' :: (quoted lvKey ++
          ((',' :: (lvToken ++ ':' :: quoted v)) ++ '\x7d' :: T))) := by
      simp [idToken_eq, lvToken_eq]
    rw [hshape] at hdrop
    have hfindId : findStrFrom idToken (json.drop pos) pos =
        some (pos + [d, '\x7b'].length) := by
      rw [hdrop, idToken_eq]
      show findStrFrom (quoted idKey) (d :: '\x7b' :: (quoted idKey ++ _)) pos = _
      rw [findStrFrom_skip_char idKey _ d _ hd,
        findStrFrom_skip_char idKey _ '\x7b' _ (by decide),
        findStrFrom_here _ _ _ (by simp [quoted])]
      rfl
    have hbrace : '\x7d' ∉ quoted lvKey ++ (',' :: (lvToken ++ ':' :: quoted v)) := by
      have b3 := brace_not_mem_quoted v hvb
      have b1 : '\x7d' ∉ quoted lvKey := by decide
      have b2 : '\x7d' ∉ lvToken := by decide
      simp only [List.mem_append, List.mem_cons, not_or]
      exact ⟨b1, by decide, b2, by decide, b3⟩
    rw [ParseIndexLatestJsonFilteredStep_head U82W json wanted pos m [d, '\x7b'] lvKey
      (',' :: (lvToken ++ ':' :: quoted v)) T hdrop hfindId (by decide) hbrace]
    have d1 := drop_add_of_drop_eq json pos [d, '\x7b'] _ hdrop
    have d2 : json.drop (pos + [d, '\x7b'].length + 4) = ':' :: (quoted lvKey ++
        ((',' :: (lvToken ++ ':' :: quoted v)) ++ '\x7d' :: T)) :=
      drop_add_of_drop_eq json _ idToken _ d1
    have d3 : json.drop (pos + [d, '\x7b'].length + 4 + 1) = quoted lvKey ++
        ((',' :: (lvToken ++ ':' :: quoted v)) ++ '\x7d' :: T) :=
      drop_add_of_drop_eq json _ [':'] _ d2
    have e6 : FindToken json (pos + [d, '\x7b'].length + 4) lvToken =
        some (pos + [d, '\x7b'].length + 4 + 1) := by
      unfold FindToken
      rw [strFind_of_drop json lvToken _ _ (by simp) d2, lvToken_eq,
        findStrFrom_skip_char lvKey _ ':' _ (by decide),
        findStrFrom_here _ _ _ (by simp [quoted])]
    have e7 : strFindChar json ':' (pos + [d, '\x7b'].length + 4 + 1) =
        some (pos + [d, '\x7b'].length + 4 + 1 + (quoted lvKey ++ ',' :: lvToken).length) :=
      strFindChar_eq json ':' _ (quoted lvKey ++ ',' :: lvToken) (quoted v ++ '\x7d' :: T)
        (by rw [d3]; simp) (by decide)
    have d5 : json.drop (pos + [d, '\x7b'].length + 4 + 1 +
        (quoted lvKey ++ ',' :: lvToken).length + 1) = quoted v ++ '\x7d' :: T := by
      have := drop_add_of_drop_eq json (pos + [d, '\x7b'].length + 4 + 1)
        (quoted lvKey ++ ',' :: lvToken ++ [':']) (quoted v ++ '\x7d' :: T)
        (by rw [d3]; simp)
      have hl : pos + [d, '\x7b'].length + 4 + 1 + (quoted lvKey ++ ',' :: lvToken).length + 1 =
          pos + [d, '\x7b'].length + 4 + 1 + (quoted lvKey ++ ',' :: lvToken ++ [':']).length := by
        simp only [List.length_append, List.length_cons, List.length_nil]
        omega
      rw [hl]
      exact this
    have e8 : ExtractJSONString json (pos + [d, '\x7b'].length + 4 + 1 +
        (quoted lvKey ++ ',' :: lvToken).length + 1) = some v :=
      ExtractJSONString_eq json _ [] v _ d5 (by simp) hvq
    have hlen1 : (quoted lvKey ++ ',' :: lvToken).length = 33 := by decide
    have hlen2 : (quoted lvKey).length = 16 := by decide
    have hlen3 : (',' :: (lvToken ++ ':' :: quoted v)).length = 18 + (quoted v).length := by
      simp [lvToken]
      omega
    have hpos : pos + [d, '\x7b'].length + 4 + 1 + (quoted lvKey).length +
        (',' :: (lvToken ++ ':' :: quoted v)).length + 1 =
        pos + (1 + ('\x7b' :: (quoted idKey ++ ':' :: (quoted lvKey ++
          (',' :: (quoted lvKey ++ ':' :: quoted v) ++ ['\x7d'])))).length) := by
      rw [hlen2, hlen3]
      simp [quoted, idKey, lvKey]
      omega
    rw [e6]
    simp only
    rw [e7]
    simp only
    rw [e8]
    simp only
    rw [hpos]
    have c1 : ¬ (pos + [d, '\x7b'].length + 4 + 1 > pos + [d, '\x7b'].length + 4 + 1 +
        (quoted lvKey).length + (',' :: (lvToken ++ ':' :: quoted v)).length) := by omega
    have c2 : ¬ (pos + [d, '\x7b'].length + 4 + 1 + (quoted lvKey ++ ',' :: lvToken).length >
        pos + [d, '\x7b'].length + 4 + 1 + (quoted lvKey).length +
          (',' :: (lvToken ++ ':' :: quoted v)).length) := by
      rw [hlen1, hlen2, hlen3]
      omega
    rw [if_neg c1, if_neg c2]
    cases hw : isWanted wanted (U82W lvKey) <;> simp
  · have ho : CatalogObject.wellFormed
        { before := [], id := id, between := [], latest := v, behind := [] } = true := by
      simp [CatalogObject.wellFormed, hid, hv, hne]
    have htext : CatalogObject.text
        { before := [], id := id, between := [], latest := v, behind := [] } =
        '\x7b' :: (quoted idKey ++ ':' :: (quoted id ++
          (',' :: (quoted lvKey ++ ':' :: quoted v) ++ ['\x7d']))) := by
      simp [CatalogObject.text, trailingComma, leadingComma]
    have := ParseIndexLatestJsonFilteredStep_wellFormed U82W json wanted pos m d hd
      { before := [], id := id, between := [], latest := v, behind := [] } ho T
      (by rw [htext]; exact hdrop)
    rw [htext] at this
    exact this

theorem plainObjectsText_length (d : Char) (objs : List PlainObject) :
    objs.length < (plainObjectsText d objs).length := by
  induction objs generalizing d with
  | nil => simp [plainObjectsText]
  | cons o os ih =>
    have := ih ','
    simp only [plainObjectsText, List.length_cons, List.length_append]
    omega

/-- The loop, started where the text is a sequence of clean objects with or without
version up to the closing bracket, handles the objects that have a version one after
the other and passes over the others. -/
theorem ParseIndexLatestJsonFilteredLoop_plain {W : Type} [LinearOrder W] (U82W : Str → W)
    (json : Str) (wanted : List W) (objs : List PlainObject)
    (hcl : ∀ o ∈ objs, o.clean = true) (d : Char) (pos : Nat) (m : StdMap W) (fuel : Nat)
    (hd : d ≠ '"') (hdrop : json.drop pos = plainObjectsText d objs)
    (hfuel : objs.length < fuel) :
    ParseIndexLatestJsonFilteredLoop U82W json wanted fuel pos m =
      some (scanObjects U82W wanted m (objs.filterMap PlainObject.withVersion)) := by
  induction objs generalizing d pos m fuel with
  | nil =>
    cases fuel with
    | zero => omega
    | succ f =>
      have hstep : ParseIndexLatestJsonFilteredStep U82W json wanted pos m = .stop m := by
        have e1 : FindToken json pos idToken = none := by
          unfold FindToken
          rw [strFind_of_drop json idToken pos [']'] (by simp) hdrop]
          exact findStrFrom_none idToken [']'] pos (by decide)
        unfold ParseIndexLatestJsonFilteredStep
        rw [e1]
      rw [ParseIndexLatestJsonFilteredLoop, hstep]
      rfl
  | cons o os ih =>
    cases fuel with
    | zero => omega
    | succ f =>
      have ho := hcl o (by simp)
      have hos := fun o2 h2 => hcl o2 (List.mem_cons_of_mem _ h2)
      have hnext : json.drop (pos + (1 + o.text.length)) = plainObjectsText ',' os := by
        have := drop_add_of_drop_eq json pos (d :: o.text) (plainObjectsText ',' os) hdrop
        simpa [Nat.add_comm] using this
      have hf : os.length < f := by
        simp only [List.length_cons] at hfuel
        omega
      obtain ⟨id, latest⟩ := o
      cases latest with
      | none =>
        have hid : clean id = true := by
          simpa [PlainObject.clean] using ho
        have hstep := ParseIndexLatestJsonFilteredStep_lacking U82W json wanted pos m d hd id
          (plainObjectsText ',' os) hid hdrop
        rw [ParseIndexLatestJsonFilteredLoop, hstep]
        simp only [List.filterMap_cons, PlainObject.withVersion]
        exact ih hos ',' _ _ f (by decide) hnext hf
      | some v =>
        have hcl2 : clean id = true ∧ clean v = true := by
          simpa [PlainObject.clean] using ho
        have hstep := ParseIndexLatestJsonFilteredStep_plain U82W json wanted pos m d hd id v
          (plainObjectsText ',' os) hcl2.1 hcl2.2 hdrop
        rw [ParseIndexLatestJsonFilteredLoop, hstep]
        simp only [List.filterMap_cons, PlainObject.withVersion, scanObjects]
        by_cases hw : isWanted wanted (U82W id) = true
        · rw [if_pos hw, if_pos hw]
          by_cases hs : (StdMap.set m (U82W id) (U82W v)).size ≥ wanted.length
          · rw [if_pos hs, if_pos hs]
          · rw [if_neg hs, if_neg hs]
            exact ih hos ',' _ _ f (by decide) hnext hf
        · rw [if_neg hw, if_neg hw]
          exact ih hos ',' _ _ f (by decide) hnext hf

theorem withVersion_ids_sublist {W : Type} (U82W : Str → W) (objs : List PlainObject) :
    ((objs.filterMap PlainObject.withVersion).map (fun o => U82W o.id)).Sublist
      (objs.map (fun o => U82W o.id)) := by
  induction objs with
  | nil => simp
  | cons o os ih =>
    obtain ⟨id, latest⟩ := o
    cases latest with
    | none =>
      simp only [List.filterMap_cons, PlainObject.withVersion, List.map_cons]
      exact ih.cons _
    | some v =>
      simp only [List.filterMap_cons, PlainObject.withVersion, List.map_cons]
      exact ih.cons₂ _

theorem mem_withVersion (objs : List PlainObject) (c : CatalogObject) :
    c ∈ objs.filterMap PlainObject.withVersion ↔
      ∃ o ∈ objs, ∃ l, o.latest = some l ∧
        c = { before := [], id := o.id, between := [], latest := l, behind := [] } := by
  rw [List.mem_filterMap]
  constructor
  · rintro ⟨o, ho, hc⟩
    obtain ⟨id, latest⟩ := o
    cases latest with
    | none => simp [PlainObject.withVersion] at hc
    | some v =>
      simp only [PlainObject.withVersion, Option.some.injEq] at hc
      exact ⟨_, ho, v, rfl, hc.symm⟩
  · rintro ⟨o, ho, l, hl, hc⟩
    refine ⟨o, ho, ?_⟩
    obtain ⟨id, latest⟩ := o
    simp only at hl
    subst hl
    simp [PlainObject.withVersion, hc]

/-! ## Objects without version are passed over (C18) -/

/-- C18: on a document that is a sequence of objects `{"id":"x","latest-version":"v"}`
or `{"id":"x"}` with clean string contents and ids pairwise distinct as wide strings,
and for every list of wanted ids, `ParseIndexLatestJsonFiltered` returns a map, and
this map binds `k` to `v` exactly when `k` is wanted and is the id of an object that
has the version `v`, wherever the objects without version stand. -/
theorem ParseIndexLatestJsonFiltered_skips_lacking {W : Type} [LinearOrder W]
    (U82W : Str → W) (wanted : List W) (objs : List PlainObject)
    (hcl : ∀ o ∈ objs, o.clean = true) (hnd : (objs.map (fun o => U82W o.id)).Nodup) :
    ∃ m, ParseIndexLatestJsonFiltered U82W (plainCatalogText objs) wanted = some m ∧
      m.keys.Sorted (· < ·) ∧
      ∀ k v, m.find k = some v ↔
        k ∈ wanted ∧ ∃ o ∈ objs, U82W o.id = k ∧ ∃ l, o.latest = some l ∧ U82W l = v := by
  have hparse : ParseIndexLatestJsonFiltered U82W (plainCatalogText objs) wanted =
      some (scanObjects U82W wanted [] (objs.filterMap PlainObject.withVersion)) := by
    unfold ParseIndexLatestJsonFiltered
    cases wanted with
    | nil => simp [scanObjects_nil_wanted]
    | cons w ws =>
      simp only [List.isEmpty_cons, Bool.false_eq_true, if_false]
      cases objs with
      | nil =>
        have hstep : ParseIndexLatestJsonFilteredStep U82W (plainCatalogText []) (w :: ws) 0 [] =
            .stop [] := by
          have e1 : FindToken (plainCatalogText []) 0 idToken = none := by decide
          unfold ParseIndexLatestJsonFilteredStep
          rw [e1]
        rw [ParseIndexLatestJsonFilteredLoop, hstep]
        rfl
      | cons o os =>
        exact ParseIndexLatestJsonFilteredLoop_plain U82W _ _ (o :: os) hcl '[' 0 [] _
          (by decide) rfl (by
            have := plainObjectsText_length '[' (o :: os)
            simp only [plainCatalogText]
            omega)
  refine ⟨_, hparse, ?_⟩
  obtain ⟨hs, hiff⟩ := scanObjects_find U82W wanted (objs.filterMap PlainObject.withVersion) []
    (by simp [StdMap.keys]) (by simp [StdMap.keys]) (by simp [StdMap.keys])
    (hnd.sublist (withVersion_ids_sublist U82W objs))
  refine ⟨hs, fun k v => ?_⟩
  rw [hiff]
  simp only [StdMap.find, false_or, reduceCtorEq]
  constructor
  · rintro ⟨hk, c, hc, h1, h2⟩
    obtain ⟨o, ho, l, hl, rfl⟩ := (mem_withVersion objs c).1 hc
    exact ⟨hk, o, ho, h1, l, hl, h2⟩
  · rintro ⟨hk, o, ho, h1, l, hl, h2⟩
    exact ⟨hk, _, (mem_withVersion objs _).2 ⟨o, ho, l, hl, rfl⟩, h1, h2⟩

set_option maxRecDepth 100000 in
/-- An object without version first, then the id `latest-version`, then `B`; all
three ids are wanted. -/
theorem ParseIndexLatestJsonFiltered_skips_lacking_witness :
    (∀ o ∈ plainThreeObjects, o.clean = true) ∧
      (plainThreeObjects.map (fun o => asciiU82W o.id)).Nodup ∧
      (∃ m, ParseIndexLatestJsonFiltered asciiU82W (plainCatalogText plainThreeObjects)
            ["A".toList, "latest-version".toList, "B".toList] = some m ∧
          m.keys.Sorted (· < ·) ∧
          ∀ k v, m.find k = some v ↔
            k ∈ ["A".toList, "latest-version".toList, "B".toList] ∧
              ∃ o ∈ plainThreeObjects, asciiU82W o.id = k ∧
                ∃ l, o.latest = some l ∧ asciiU82W l = v) ∧
      plainCatalogText plainThreeObjects =
        ("[\x7b\"id\":\"A\"\x7d,\x7b\"id\":\"latest-version\",\"latest-version\":\"7\"\x7d," ++
          "\x7b\"id\":\"B\",\"latest-version\":\"2\"\x7d]").toList ∧
      ParseIndexLatestJsonFiltered asciiU82W (plainCatalogText plainThreeObjects)
          ["A".toList, "latest-version".toList, "B".toList] =
        some [("B".toList, "2".toList), ("latest-version".toList, "7".toList)] :=
  ⟨by decide, by decide,
    ParseIndexLatestJsonFiltered_skips_lacking asciiU82W
      ["A".toList, "latest-version".toList, "B".toList] plainThreeObjects (by decide)
      (by decide),
    by decide, by decide⟩

/-! ## The scanners and the worker return -/

theorem ParseInstalledJsonStep_cases {W : Type} [LinearOrder W] (U82W : Str → W)
    (json : Str) (pos : Nat) (m : StdMap W) :
    ParseInstalledJsonStep U82W json pos m = .stop m ∨
      ∃ pos2 m2, pos < pos2 ∧ pos2 ≤ json.length ∧
        ParseInstalledJsonStep U82W json pos m = .cont pos2 m2 := by
  unfold ParseInstalledJsonStep
  cases h1 : strFindChar json '"' pos with
  | none => exact Or.inl rfl
  | some qKey1 =>
    simp only
    have b1 := strFindChar_bounds json '"' pos qKey1 h1
    cases h2 : strFindChar json '"' (qKey1 + 1) with
    | none => exact Or.inl rfl
    | some qKey2 =>
      simp only
      have b2 := strFindChar_bounds json '"' _ qKey2 h2
      cases h3 : strFindChar json ':' qKey2 with
      | none => exact Or.inl rfl
      | some colon =>
        simp only
        cases h4 : ExtractJSONString json (colon + 1) with
        | none => exact Or.inr ⟨qKey2 + 1, m, by omega, by omega, rfl⟩
        | some val => exact Or.inr ⟨qKey2 + 1, _, by omega, by omega, rfl⟩

theorem ParseInstalledJsonLoop_total {W : Type} [LinearOrder W] (U82W : Str → W)
    (json : Str) (fuel pos : Nat) (m : StdMap W) (hpos : pos ≤ json.length)
    (hfuel : json.length < fuel + pos) :
    ∃ r, ParseInstalledJsonLoop U82W json fuel pos m = some r := by
  induction fuel generalizing pos m with
  | zero => omega
  | succ f ih =>
    rw [ParseInstalledJsonLoop]
    rcases ParseInstalledJsonStep_cases U82W json pos m with h | ⟨pos2, m2, h1, h2, h⟩
    · rw [h]
      exact ⟨m, rfl⟩
    · rw [h]
      exact ih pos2 m2 h2 (by omega)

/-- `ParseInstalledJson` returns a map on every text. -/
theorem ParseInstalledJson_total {W : Type} [LinearOrder W] (U82W : Str → W) (json : Str) :
    ∃ r, ParseInstalledJson U82W json = some r :=
  ParseInstalledJsonLoop_total U82W json _ 0 [] (by omega) (by omega)

/-- `ComputeUpdates` returns on every path, with `g_UpdateAvailable` telling whether
`g_Updates` is non-empty and the other globals untouched. -/
theorem ComputeUpdates_total {W : Type} [LinearOrder W] (U82W : Str → W) (e : Env)
    (g : Globals W) :
    ∃ g1, ComputeUpdates U82W e g = some g1 ∧
      g1.g_UpdateAvailable = !g1.g_Updates.isEmpty ∧ g1.g_MenuReady = g.g_MenuReady ∧
      g1.g_MainWnd = g.g_MainWnd ∧ g1.posted = g.posted := by
  unfold ComputeUpdates
  cases e.installedJson with
  | none => exact ⟨_, rfl, rfl, rfl, rfl, rfl⟩
  | some installedJson =>
    cases e.indexJson with
    | none => exact ⟨_, rfl, rfl, rfl, rfl, rfl⟩
    | some indexJson =>
      obtain ⟨installed, hi⟩ := ParseInstalledJson_total U82W installedJson
      obtain ⟨latestMap, hl⟩ :=
        ParseIndexLatestJsonFiltered_total U82W indexJson installed.keys
      simp only [hi, hl]
      exact ⟨_, rfl, rfl, rfl, rfl, rfl⟩

/-- `WorkerThread` returns on every path and leaves `g_MenuReady` true. -/
theorem WorkerThread_total {W : Type} [LinearOrder W] (U82W : Str → W) (e : Env)
    (g : Globals W) :
    ∃ g1, WorkerThread U82W e g = some g1 ∧ g1.g_MenuReady = true ∧
      g1.g_UpdateAvailable = !g1.g_Updates.isEmpty := by
  obtain ⟨g0, h0, hinv, _, _, _⟩ := ComputeUpdates_total U82W e g
  unfold WorkerThread
  rw [h0]
  simp only
  cases hw : g0.g_MainWnd with
  | none => exact ⟨_, rfl, rfl, hinv⟩
  | some w => exact ⟨_, rfl, rfl, hinv⟩

theorem WorkerThread_ready {W : Type} [LinearOrder W] (U82W : Str → W) (e : Env)
    (g g1 : Globals W) (h : WorkerThread U82W e g = some g1) :
    g1.g_MenuReady = true ∧ g1.g_UpdateAvailable = !g1.g_Updates.isEmpty := by
  obtain ⟨g2, h2, hr, hinv⟩ := WorkerThread_total U82W e g
  rw [h] at h2
  cases h2
  exact ⟨hr, hinv⟩

/-! ## The menu refresh -/

section Refresh

variable {W : Type}

theorem EnsureMenuIcons_frame (env : HostEnv) (s : Plugin W) :
    (EnsureMenuIcons env s).g = s.g ∧ (EnsureMenuIcons env s).menu = s.menu ∧
      (EnsureMenuIcons env s).log = s.log ∧
      (EnsureMenuIcons env s).g_OrigWndProc = s.g_OrigWndProc := by
  unfold EnsureMenuIcons
  simp only
  split_ifs <;> exact ⟨rfl, rfl, rfl, rfl⟩

/-- The menu refresh leaves the globals of the worker and the original window
procedure as they are, and adds no call of the original window procedure to the
log. -/
theorem ApplyUpdateLabel_frame (env : HostEnv) (fuel n : Nat) (s s1 : Plugin W)
    (h : ApplyUpdateLabel env fuel n s = some s1) :
    s1.g = s.g ∧ s1.g_OrigWndProc = s.g_OrigWndProc ∧
      ∃ mid, s1.log = s.log ++ mid ∧ ∀ e ∈ mid, e.isCallOrig = false := by
  induction fuel generalizing n s with
  | zero => cases h
  | succ f ih =>
    rw [ApplyUpdateLabel] at h
    obtain ⟨hg, hmenu, hlog, horig⟩ := EnsureMenuIcons_frame env s
    cases hm : s.menu with
    | none =>
      rw [hm] at h
      cases h
      exact ⟨rfl, rfl, [], by simp, by simp⟩
    | some M =>
      rw [hm] at h
      simp only at h
      by_cases hhas : HasUpdateItem M = true
      · simp only [hhas, Bool.not_true, Bool.false_eq_true, if_false, Option.some.injEq] at h
        subst h
        exact ⟨hg, horig, [.drawMenuBar], by simp [hlog], by simp [Effect.isCallOrig]⟩
      · simp only [hhas, Bool.not_false, if_true] at h
        obtain ⟨h1, h2, mid, h3, h4⟩ := ih _ _ h
        exact ⟨h1.trans hg, h2.trans horig, mid, by rw [h3]; simp [hlog], h4⟩

theorem HasUpdateItem_AppendMenuW (M : List MenuItem) (t : String) :
    HasUpdateItem (AppendMenuW M ID_MENU_UPDATE t) = true := by
  induction M with
  | nil => simp [AppendMenuW, HasUpdateItem]
  | cons it r ih =>
    unfold AppendMenuW at ih ⊢
    by_cases h : it.wID = ID_MENU_UPDATE
    · simp [HasUpdateItem, h]
    · simpa [HasUpdateItem, h] using ih

theorem findItem_SetMenuItemInfoW (M : List MenuItem) (t : String) (b : Option Bitmap)
    (h : HasUpdateItem M = true) :
    ∃ it, findItem (SetMenuItemInfoW M ID_MENU_UPDATE t b) ID_MENU_UPDATE = some it ∧
      it.text = t ∧ it.hbmpItem = b := by
  induction M with
  | nil => simp [HasUpdateItem] at h
  | cons it r ih =>
    by_cases hid : it.wID = ID_MENU_UPDATE
    · exact ⟨{ it with text := t, hbmpItem := b }, by simp [SetMenuItemInfoW, findItem, hid],
        rfl, rfl⟩
    · have hr : HasUpdateItem r = true := by
        simpa [HasUpdateItem, hid] using h
      obtain ⟨it2, h1, h2, h3⟩ := ih hr
      exact ⟨it2, by simp [SetMenuItemInfoW, findItem, hid, h1], h2, h3⟩

/-- Whenever the menu refresh returns for a window with a menu, the menu holds the
item, labelled, with the bitmap that the flags select among the two bitmaps held at
the return. -/
theorem ApplyUpdateLabel_item (env : HostEnv) (fuel n : Nat) (s s1 : Plugin W)
    (M : List MenuItem) (hM : s.menu = some M)
    (h : ApplyUpdateLabel env fuel n s = some s1) :
    ∃ M1 it, s1.menu = some M1 ∧ findItem M1 ID_MENU_UPDATE = some it ∧
      it.hbmpItem =
        if s.g.g_MenuReady then
          if s.g.g_UpdateAvailable then s1.g_hBmpUpdateAvail else s1.g_hBmpUpdateNone
        else none := by
  induction fuel generalizing n s M with
  | zero => cases h
  | succ f ih =>
    rw [ApplyUpdateLabel, hM] at h
    simp only at h
    obtain ⟨hg, hmenu, hlog, horig⟩ := EnsureMenuIcons_frame env s
    by_cases hhas : HasUpdateItem M = true
    · simp only [hhas, Bool.not_true, Bool.false_eq_true, if_false, Option.some.injEq] at h
      subst h
      obtain ⟨it, h1, _, h3⟩ := findItem_SetMenuItemInfoW M "更新"
        (if (EnsureMenuIcons env s).g.g_MenuReady then
          if (EnsureMenuIcons env s).g.g_UpdateAvailable then
            (EnsureMenuIcons env s).g_hBmpUpdateAvail
          else (EnsureMenuIcons env s).g_hBmpUpdateNone
        else none) hhas
      refine ⟨_, it, rfl, h1, ?_⟩
      rw [h3, hg]
    · simp only [hhas, Bool.not_false, if_true] at h
      obtain ⟨M1, it, h1, h2, h3⟩ := ih _ _ _ rfl h
      refine ⟨M1, it, h1, h2, ?_⟩
      rw [h3]
      simp only [hg]

/-- The menu refresh returns after at most one nested call when the menu holds the
item or the next call of `AppendMenuW` succeeds. -/
theorem ApplyUpdateLabel_returns (env : HostEnv) (n : Nat) (s : Plugin W) (M : List MenuItem)
    (hM : s.menu = some M) (h : HasUpdateItem M = true ∨ env.appendOk n = true) :
    ∃ s1, ApplyUpdateLabel env 2 n s = some s1 := by
  rw [ApplyUpdateLabel, hM]
  simp only
  by_cases hhas : HasUpdateItem M = true
  · simp only [hhas, Bool.not_true, Bool.false_eq_true, if_false]
    exact ⟨_, rfl⟩
  · have hok : env.appendOk n = true := h.resolve_left hhas
    simp only [hhas, Bool.not_false, if_true, hok]
    rw [ApplyUpdateLabel]
    simp only [HasUpdateItem_AppendMenuW, Bool.not_true, Bool.false_eq_true, if_false]
    exact ⟨_, rfl⟩

theorem ApplyUpdateLabel_no_menu (env : HostEnv) (fuel n : Nat) (s : Plugin W)
    (hM : s.menu = none) : ApplyUpdateLabel env (fuel + 1) n s = some s := by
  rw [ApplyUpdateLabel, hM]

/-- `EnsureUpdateMenuIfReady` returns under the same condition, with the same frame. -/
theorem EnsureUpdateMenuIfReady_returns (env : HostEnv) (s : Plugin W)
    (h : ∀ M, s.menu = some M → HasUpdateItem M = false → env.appendOk 0 = true) :
    ∃ s1, EnsureUpdateMenuIfReady env 2 s = some s1 := by
  unfold EnsureUpdateMenuIfReady
  split_ifs
  · exact ⟨s, rfl⟩
  · cases hm : s.menu with
    | none => exact ⟨s, rfl⟩
    | some M =>
      simp only
      apply ApplyUpdateLabel_returns env 0 s M hm
      by_cases hhas : HasUpdateItem M = true
      · exact Or.inl hhas
      · exact Or.inr (h M hm (by simpa using hhas))

theorem EnsureUpdateMenuIfReady_frame (env : HostEnv) (fuel : Nat) (s s1 : Plugin W)
    (h : EnsureUpdateMenuIfReady env fuel s = some s1) :
    s1.g = s.g ∧ s1.g_OrigWndProc = s.g_OrigWndProc ∧
      ∃ mid, s1.log = s.log ++ mid ∧ ∀ e ∈ mid, e.isCallOrig = false := by
  unfold EnsureUpdateMenuIfReady at h
  split_ifs at h
  · cases h
    exact ⟨rfl, rfl, [], by simp, by simp⟩
  · cases hm : s.menu with
    | none =>
      rw [hm] at h
      cases h
      exact ⟨rfl, rfl, [], by simp, by simp⟩
    | some M =>
      rw [hm] at h
      exact ApplyUpdateLabel_frame env fuel 0 s s1 h

theorem callOriginal_frame (env : HostEnv) (hWnd msg wParam : Nat) (lParam : Int)
    (s : Plugin W) :
    (callOriginal env hWnd msg wParam lParam s).2.g = s.g ∧
      (callOriginal env hWnd msg wParam lParam s).2.g_hBmpUpdateAvail = s.g_hBmpUpdateAvail ∧
      (callOriginal env hWnd msg wParam lParam s).2.g_hBmpUpdateNone = s.g_hBmpUpdateNone ∧
      (callOriginal env hWnd msg wParam lParam s).2.g_MenuIconSizePx = s.g_MenuIconSizePx := by
  unfold callOriginal
  cases s.g_OrigWndProc <;> exact ⟨rfl, rfl, rfl, rfl⟩

/-- The intercepting handler leaves the globals of the worker as they are. -/
theorem HookedWndProc_globals (env : HostEnv) (fuel hWnd msg wParam : Nat) (lParam : Int)
    (s s1 : Plugin W) (r : Int)
    (h : HookedWndProc env fuel hWnd msg wParam lParam s = some (r, s1)) : s1.g = s.g := by
  unfold HookedWndProc at h
  split_ifs at h
  · cases h2 : EnsureUpdateMenuIfReady env fuel s with
    | none => simp [h2] at h
    | some s2 =>
      simp only [h2, Option.some.injEq] at h
      have hs1 : s1 = (callOriginal env hWnd msg wParam lParam s2).2 := by rw [h]
      rw [hs1, (callOriginal_frame env hWnd msg wParam lParam s2).1]
      exact (EnsureUpdateMenuIfReady_frame env fuel s s2 h2).1
  · simp only [Option.some.injEq, Prod.mk.injEq] at h
    rw [← h.2]
    unfold ShowUpdatesDialog
    split_ifs <;> rfl
  · simp only [Option.some.injEq] at h
    have hs1 : s1 = (callOriginal env hWnd msg wParam lParam s).2 := by rw [h]
    rw [hs1, (callOriginal_frame env hWnd msg wParam lParam s).1]
  · cases h2 : ApplyUpdateLabel env fuel 0 s with
    | none => simp [h2] at h
    | some s2 =>
      simp only [h2, Option.some.injEq] at h
      have hs1 : s1 = (callOriginal env hWnd msg wParam lParam s2).2 := by rw [h]
      rw [hs1, (callOriginal_frame env hWnd msg wParam lParam s2).1]
      exact (ApplyUpdateLabel_frame env fuel 0 s s2 h2).1
  · cases h2 : EnsureUpdateMenuIfReady env fuel s with
    | none => simp [h2] at h
    | some s2 =>
      simp only [h2, Option.some.injEq, Prod.mk.injEq] at h
      rw [← h.2]
      exact (EnsureUpdateMenuIfReady_frame env fuel s s2 h2).1
  · simp only [Option.some.injEq] at h
    have hs1 : s1 = (callOriginal env hWnd msg wParam lParam s).2 := by rw [h]
    rw [hs1, (callOriginal_frame env hWnd msg wParam lParam s).1]

theorem InjectorThreadLoop_flags (found : Nat → Option (Nat × Option Nat)) (tries i : Nat)
    (s : Plugin W) :
    (InjectorThreadLoop found tries i s).g.g_MenuReady = s.g.g_MenuReady ∧
      (InjectorThreadLoop found tries i s).g.g_UpdateAvailable = s.g.g_UpdateAvailable ∧
      (InjectorThreadLoop found tries i s).g.g_Updates = s.g.g_Updates := by
  induction tries generalizing i with
  | zero => exact ⟨rfl, rfl, rfl⟩
  | succ t ih =>
    rw [InjectorThreadLoop]
    cases hf : found i with
    | none => exact ih (i + 1)
    | some p =>
      obtain ⟨hWnd, prev⟩ := p
      simp only
      split_ifs <;> exact ⟨rfl, rfl, rfl⟩

theorem ProcessDetach_flags (reservedNull : Bool) (s : Plugin W) :
    (ProcessDetach reservedNull s).g.g_MenuReady = s.g.g_MenuReady ∧
      (ProcessDetach reservedNull s).g.g_UpdateAvailable = s.g.g_UpdateAvailable ∧
      (ProcessDetach reservedNull s).g.g_Updates = s.g.g_Updates := by
  unfold ProcessDetach CleanupMenuIcons
  simp only
  split_ifs <;> exact ⟨rfl, rfl, rfl⟩

end Refresh

/-! ## Readiness changes once (C11) -/

theorem PluginStep_flags {W : Type} [LinearOrder W] (U82W : Str → W) (s s1 : Plugin W)
    (h : PluginStep U82W s s1) :
    (s.g.g_MenuReady = true → s1.g.g_MenuReady = true) ∧
      (s.g.g_UpdateAvailable = !s.g.g_Updates.isEmpty →
        s1.g.g_UpdateAvailable = !s1.g.g_Updates.isEmpty) := by
  cases h with
  | worker e _ g1 hw =>
    obtain ⟨h1, h2⟩ := WorkerThread_ready U82W e s.g g1 hw
    exact ⟨fun _ => h1, fun _ => h2⟩
  | locator found =>
    obtain ⟨h1, h2, h3⟩ := InjectorThreadLoop_flags found 50 0 s
    unfold InjectorThread
    rw [h1, h2, h3]
    exact ⟨id, id⟩
  | message env fuel hWnd msg wParam lParam _ r _ hm =>
    rw [HookedWndProc_globals env fuel hWnd msg wParam lParam s s1 r hm]
    exact ⟨id, id⟩
  | dialogProc font owned => exact ⟨id, id⟩
  | detach reservedNull =>
    obtain ⟨h1, h2, h3⟩ := ProcessDetach_flags reservedNull s
    rw [h1, h2, h3]
    exact ⟨id, id⟩
  | host menu => exact ⟨id, id⟩

theorem flagChanges_of_true {α : Type} (R : α → α → Prop) (f : α → Bool)
    (hR : ∀ a b, R a b → f a = true → f b = true) (run : List α) (hrun : List.Chain' R run)
    (hhead : ∀ a ∈ run.head?, f a = true) : flagChanges (run.map f) = 0 := by
  induction run with
  | nil => rfl
  | cons a rest ih =>
    cases rest with
    | nil => rfl
    | cons b rest2 =>
      rw [List.chain'_cons] at hrun
      have ha : f a = true := hhead a (by simp)
      have hb : f b = true := hR a b hrun.1 ha
      have := ih hrun.2 (fun c hc => by
        have hcb : c = b := by simpa using hc.symm
        rw [hcb]
        exact hb)
      simp only [List.map_cons] at this ⊢
      rw [flagChanges, ha, hb, if_pos rfl, Nat.zero_add]
      rw [hb] at this
      exact this

theorem flagChanges_le_one {α : Type} (R : α → α → Prop) (f : α → Bool)
    (hR : ∀ a b, R a b → f a = true → f b = true) (run : List α) (hrun : List.Chain' R run) :
    flagChanges (run.map f) ≤ 1 := by
  induction run with
  | nil => simp [flagChanges]
  | cons a rest ih =>
    cases rest with
    | nil => simp [flagChanges]
    | cons b rest2 =>
      rw [List.chain'_cons] at hrun
      by_cases ha : f a = true
      · rw [flagChanges_of_true R f hR (a :: b :: rest2) (List.chain'_cons.2 hrun)
          (fun c hc => by
            have hca : c = a := by simpa using hc.symm
            rw [hca]
            exact ha)]
        omega
      · by_cases hb : f b = true
        · have h0 := flagChanges_of_true R f hR (b :: rest2) hrun.2 (fun c hc => by
            have hcb : c = b := by simpa using hc.symm
            rw [hcb]
            exact hb)
          have hab : f a ≠ f b := fun he => ha (he.trans hb)
          simp only [List.map_cons] at h0 ⊢
          rw [flagChanges, if_neg hab, h0]
        · have hab : f a = f b := by
            cases hfa : f a
            · cases hfb : f b
              · rfl
              · exact absurd hfb hb
            · exact absurd hfa ha
          have := ih hrun.2
          simp only [List.map_cons] at this ⊢
          rw [flagChanges, if_pos hab, Nat.zero_add]
          exact this

/-- C11: `g_MenuReady` is false when the library is loaded; the worker activity
returns on every path of `ComputeUpdates` and leaves it true; no step of the module
(worker, locator, message handler with the menu refresh and the dialog, dialog
procedure, teardown, host) makes it false again; so in every run of the step relation
the flag changes its value at most once. -/
theorem g_MenuReady_changes_once {W : Type} [LinearOrder W] (U82W : Str → W) :
    (∀ menu, (Plugin.initial menu : Plugin W).g.g_MenuReady = false) ∧
      (∀ (e : Env) (g : Globals W),
        ∃ g1, WorkerThread U82W e g = some g1 ∧ g1.g_MenuReady = true) ∧
      (∀ s s1 : Plugin W, PluginStep U82W s s1 →
        s.g.g_MenuReady = true → s1.g.g_MenuReady = true) ∧
      ∀ run : List (Plugin W), List.Chain' (PluginStep U82W) run →
        flagChanges (run.map (fun s => s.g.g_MenuReady)) ≤ 1 := by
  refine ⟨fun _ => rfl, ?_, fun s s1 h => (PluginStep_flags U82W s s1 h).1, ?_⟩
  · intro e g
    obtain ⟨g1, h1, h2, _⟩ := WorkerThread_total U82W e g
    exact ⟨g1, h1, h2⟩
  · intro run hrun
    exact flagChanges_le_one (PluginStep U82W) (fun s => s.g.g_MenuReady)
      (fun a b h => (PluginStep_flags U82W a b h).1) run hrun

/-! ## The flag of the result in reachable states -/

theorem Reachable_available {W : Type} [LinearOrder W] (U82W : Str → W) (s : Plugin W)
    (h : Reachable U82W s) : s.g.g_UpdateAvailable = !s.g.g_Updates.isEmpty := by
  obtain ⟨menu, hrun⟩ := h
  induction hrun with
  | refl => rfl
  | tail _ hstep ih => exact (PluginStep_flags U82W _ _ hstep).2 ih

/-! ## The dialog before readiness (C13) -/

set_option maxRecDepth 100000 in
/-- C13: with `g_MenuReady` false, the message `WM_COMMAND` with the identifier
`0xE711` makes the intercepting handler call `ShowUpdatesDialog`, which reads
`g_Updates` and reports that there is no update.  The item is in the menu before
readiness as soon as a `WM_DPICHANGED` has been handled, because that message calls
`ApplyUpdateLabel` without the test of `g_MenuReady`. -/
theorem HookedWndProc_reads_before_ready :
    (HookedWndProc hostAnswers 2 1 WM_COMMAND ID_MENU_UPDATE 0
          (Plugin.initial (some menuFile) : Plugin (List Char))).map
        (fun p => (p.1, p.2.g.g_MenuReady, p.2.log)) =
      some (0, false, [.readUpdates, .messageBox "現在、更新はありません。"]) ∧
    ((HookedWndProc hostAnswers 2 1 WM_DPICHANGED 0 0
          (Plugin.initial (some menuFile) : Plugin (List Char))).bind
        (fun p => (HookedWndProc hostAnswers 2 1 WM_COMMAND ID_MENU_UPDATE 0 p.2).map
          (fun q => (p.2.g.g_MenuReady, p.2.menu.map HasUpdateItem, q.1, q.2.g.g_MenuReady,
            q.2.log.drop p.2.log.length)))) =
      some (false, some true, 0, false,
        [.readUpdates, .messageBox "現在、更新はありません。"]) := by
  decide

/-! ## What the intercepting handler forwards (C14) -/

theorem ApplyUpdateLabel_never_returns {W : Type} (env : HostEnv)
    (hfail : ∀ n, env.appendOk n = false) (fuel n : Nat) (s : Plugin W) (M : List MenuItem)
    (hM : s.menu = some M) (hno : HasUpdateItem M = false) :
    ApplyUpdateLabel env fuel n s = none := by
  induction fuel generalizing n s with
  | zero => rfl
  | succ f ih =>
    rw [ApplyUpdateLabel, hM]
    simp only [hno, Bool.not_false, if_true, hfail n, Bool.false_eq_true, if_false]
    exact ih _ _ rfl

section Returns

variable {W : Type}

/-- More fuel does not change what the menu refresh returns. -/
theorem ApplyUpdateLabel_mono (env : HostEnv) (fuel fuel2 n : Nat) (s s1 : Plugin W)
    (h : ApplyUpdateLabel env fuel n s = some s1) (hle : fuel ≤ fuel2) :
    ApplyUpdateLabel env fuel2 n s = some s1 := by
  induction fuel generalizing fuel2 n s with
  | zero => cases h
  | succ f ih =>
    obtain ⟨f2, rfl⟩ : ∃ f2, fuel2 = f2 + 1 := ⟨fuel2 - 1, by omega⟩
    rw [ApplyUpdateLabel] at h ⊢
    cases hm : s.menu with
    | none =>
      rw [hm] at h
      exact h
    | some M =>
      rw [hm] at h
      simp only at h ⊢
      by_cases hhas : HasUpdateItem M = true
      · simp only [hhas, Bool.not_true, Bool.false_eq_true, if_false] at h ⊢
        exact h
      · simp only [hhas, Bool.not_false, if_true] at h ⊢
        exact ih f2 _ _ h (by omega)

/-- The menu refresh returns when the call of `AppendMenuW` number `n + k` succeeds:
`k + 2` nested calls suffice. -/
theorem ApplyUpdateLabel_returns_after (env : HostEnv) (k n : Nat) (s : Plugin W)
    (hk : env.appendOk (n + k) = true) : ∃ s1, ApplyUpdateLabel env (k + 2) n s = some s1 := by
  induction k generalizing n s with
  | zero =>
    cases hm : s.menu with
    | none => exact ⟨s, ApplyUpdateLabel_no_menu env 1 n s hm⟩
    | some M => exact ApplyUpdateLabel_returns env n s M hm (Or.inr hk)
  | succ k ih =>
    cases hm : s.menu with
    | none => exact ⟨s, ApplyUpdateLabel_no_menu env (k + 2) n s hm⟩
    | some M =>
      by_cases hhas : HasUpdateItem M = true
      · obtain ⟨s1, h1⟩ := ApplyUpdateLabel_returns env n s M hm (Or.inl hhas)
        exact ⟨s1, ApplyUpdateLabel_mono env 2 (k + 1 + 2) n s s1 h1 (by omega)⟩
      · rw [ApplyUpdateLabel, hm]
        simp only [hhas, Bool.not_false, if_true]
        exact ih (n + 1) _ (by rw [← hk]; congr 1; omega)

/-- The menu refresh returns, for every fuel from some fuel on, when the window has no
menu, when the menu holds the item, or when some call of `AppendMenuW` succeeds. -/
theorem ApplyUpdateLabel_returns_some (env : HostEnv) (s : Plugin W)
    (h : ∀ M, s.menu = some M → HasUpdateItem M = false → ∃ n, env.appendOk n = true) :
    ∃ fuel s1, ∀ fuel2, fuel ≤ fuel2 → ApplyUpdateLabel env fuel2 0 s = some s1 := by
  have hex : ∃ fuel s1, ApplyUpdateLabel env fuel 0 s = some s1 := by
    cases hm : s.menu with
    | none => exact ⟨1, s, ApplyUpdateLabel_no_menu env 0 0 s hm⟩
    | some M =>
      by_cases hhas : HasUpdateItem M = true
      · obtain ⟨s1, h1⟩ := ApplyUpdateLabel_returns env 0 s M hm (Or.inl hhas)
        exact ⟨2, s1, h1⟩
      · obtain ⟨n, hn⟩ := h M hm (by simpa using hhas)
        obtain ⟨s1, h1⟩ := ApplyUpdateLabel_returns_after env n 0 s (by simpa using hn)
        exact ⟨n + 2, s1, h1⟩
  obtain ⟨fuel, s1, h1⟩ := hex
  exact ⟨fuel, s1, fun fuel2 hle => ApplyUpdateLabel_mono env fuel fuel2 0 s s1 h1 hle⟩

/-- `EnsureUpdateMenuIfReady` returns, for every fuel from some fuel on, when
`g_MenuReady` is false or the menu refresh returns. -/
theorem EnsureUpdateMenuIfReady_returns_some (env : HostEnv) (s : Plugin W)
    (h : ∀ M, s.menu = some M → HasUpdateItem M = false → s.g.g_MenuReady = true →
      ∃ n, env.appendOk n = true) :
    ∃ fuel s1, ∀ fuel2, fuel ≤ fuel2 → EnsureUpdateMenuIfReady env fuel2 s = some s1 := by
  unfold EnsureUpdateMenuIfReady
  by_cases hr : s.g.g_MenuReady = true
  · simp only [hr, Bool.not_true, Bool.false_eq_true, if_false]
    cases hm : s.menu with
    | none => exact ⟨0, s, fun _ _ => rfl⟩
    | some M =>
      simp only
      exact ApplyUpdateLabel_returns_some env s (fun M2 h2 hno => h M2 h2 hno hr)
  · simp only [hr, Bool.not_false, if_true]
    exact ⟨0, s, fun _ _ => rfl⟩

/-- The result and the log of `CallWindowProcW` on `g_OrigWndProc`, in a state `s`
that has the window procedure of `s0` and the log of `s0` followed by `mid`. -/
theorem callOriginal_eq (env : HostEnv) (hWnd msg wParam : Nat) (lParam : Int)
    (s0 s : Plugin W) (mid : List Effect) (hlog : s.log = s0.log ++ mid)
    (horig : s.g_OrigWndProc = s0.g_OrigWndProc) :
    match s0.g_OrigWndProc with
    | some proc =>
      (callOriginal env hWnd msg wParam lParam s).1 = env.origResult hWnd msg wParam lParam ∧
        (callOriginal env hWnd msg wParam lParam s).2.log =
          s0.log ++ mid ++ [.callOrig proc hWnd msg wParam lParam]
    | none =>
      (callOriginal env hWnd msg wParam lParam s).1 = env.nullResult ∧
        (callOriginal env hWnd msg wParam lParam s).2.log =
          s0.log ++ mid ++ [.callNull hWnd msg wParam lParam] := by
  cases hp : s0.g_OrigWndProc with
  | none =>
    have h : callOriginal env hWnd msg wParam lParam s =
        (env.nullResult, { s with log := s.log ++ [.callNull hWnd msg wParam lParam] }) := by
      unfold callOriginal
      rw [horig, hp]
    simp only
    rw [h]
    exact ⟨rfl, by simp [hlog]⟩
  | some proc =>
    have h : callOriginal env hWnd msg wParam lParam s =
        (env.origResult hWnd msg wParam lParam,
          { s with log := s.log ++ [.callOrig proc hWnd msg wParam lParam] }) := by
      unfold callOriginal
      rw [horig, hp]
    simp only
    rw [h]
    exact ⟨rfl, by simp [hlog]⟩

end Returns

set_option maxRecDepth 100000 in
/-- C14, as stated, fails in two ways.  When the menu lacks the item and every
`AppendMenuW` fails, on `WM_DPICHANGED` the menu refresh calls itself without end, so
the handler never returns and never calls the original window procedure.  And while
`g_OrigWndProc` is still null (the handler is installed before the pointer is stored)
a message that the handler does not treat, here `WM_PAINT`, ends in
`CallWindowProcW` with a null procedure: no original window procedure is called. -/
theorem HookedWndProc_not_forwarded :
    (¬ ∃ fuel r, HookedWndProc hostAppendFails fuel 1 WM_DPICHANGED 0 0
        (Plugin.initial (some menuFile) : Plugin (List Char)) = some r) ∧
      (Plugin.initial (some menuFile) : Plugin (List Char)).g_OrigWndProc = none ∧
      (HookedWndProc hostAnswers 0 1 WM_PAINT 0 0
          (Plugin.initial (some menuFile) : Plugin (List Char))).map
        (fun p => (p.1, p.2.log)) = some (0, [.callNull 1 WM_PAINT 0 0]) := by
  refine ⟨?_, rfl, by decide⟩
  rintro ⟨fuel, r, h⟩
  have hnone := ApplyUpdateLabel_never_returns hostAppendFails (fun _ => rfl) fuel 0
    (Plugin.initial (some menuFile) : Plugin (List Char)) menuFile rfl (by decide)
  have hmsg : ¬ (WM_DPICHANGED = WM_INITMENU ∨ WM_DPICHANGED = WM_ENTERMENULOOP) := by decide
  have hmsg2 : WM_DPICHANGED ≠ WM_COMMAND := by decide
  unfold HookedWndProc at h
  rw [if_neg hmsg, if_neg hmsg2, if_pos rfl, hnone] at h
  cases h

/-- C14, amended: the handler returns for every message, provided that, when the
message makes it run the menu refresh on a menu that lacks the item (`WM_DPICHANGED`,
or `WM_INITMENU`, `WM_ENTERMENULOOP`, `WM_APP + 100` with `g_MenuReady` true), some
call of `AppendMenuW` succeeds; the other messages need no proviso.  For a message
that is neither the command `0xE711` nor `WM_APP + 100`, when `g_OrigWndProc` holds
the original window procedure the handler calls it once, as its last action, with the
same window, message, `wParam` and `lParam`, and returns what it returns; when
`g_OrigWndProc` is null the last action is `CallWindowProcW` with a null procedure and
no window procedure is called.  For the command `0xE711` and for `WM_APP + 100` the
handler returns 0 and does not call the original window procedure. -/
theorem HookedWndProc_forwards {W : Type} (env : HostEnv) (hWnd msg wParam : Nat)
    (lParam : Int) (s : Plugin W)
    (happend : ∀ M, s.menu = some M → HasUpdateItem M = false →
      (msg = WM_DPICHANGED ∨ (s.g.g_MenuReady = true ∧
        (msg = WM_INITMENU ∨ msg = WM_ENTERMENULOOP ∨ msg = WM_APP_APPLY_MENU))) →
      ∃ n, env.appendOk n = true) :
    ∃ fuel r s1 mid,
      (∀ fuel2, fuel ≤ fuel2 →
        HookedWndProc env fuel2 hWnd msg wParam lParam s = some (r, s1)) ∧
      (∀ e ∈ mid, e.isCallOrig = false) ∧
      if (msg = WM_COMMAND ∧ LOWORD wParam = ID_MENU_UPDATE) ∨ msg = WM_APP_APPLY_MENU then
        r = 0 ∧ s1.log = s.log ++ mid
      else
        match s.g_OrigWndProc with
        | some proc =>
          r = env.origResult hWnd msg wParam lParam ∧
            s1.log = s.log ++ mid ++ [.callOrig proc hWnd msg wParam lParam]
        | none =>
          r = env.nullResult ∧ s1.log = s.log ++ mid ++ [.callNull hWnd msg wParam lParam] := by
  by_cases h1 : msg = WM_INITMENU ∨ msg = WM_ENTERMENULOOP
  · have hne : ¬ ((msg = WM_COMMAND ∧ LOWORD wParam = ID_MENU_UPDATE) ∨
        msg = WM_APP_APPLY_MENU) := by
      rintro (⟨h, _⟩ | h) <;> rcases h1 with h1 | h1 <;>
        (rw [h1] at h; revert h; decide)
    obtain ⟨fuel, s2, hs2⟩ := EnsureUpdateMenuIfReady_returns_some env s
      (fun M hM hno hr => happend M hM hno (Or.inr ⟨hr, by
        rcases h1 with h1 | h1
        · exact Or.inl h1
        · exact Or.inr (Or.inl h1)⟩))
    obtain ⟨_, horig, mid, hlog, hmid⟩ :=
      EnsureUpdateMenuIfReady_frame env fuel s s2 (hs2 fuel (le_refl _))
    refine ⟨fuel, (callOriginal env hWnd msg wParam lParam s2).1,
      (callOriginal env hWnd msg wParam lParam s2).2, mid, ?_, hmid, ?_⟩
    · intro fuel2 hle
      unfold HookedWndProc
      rw [if_pos h1, hs2 fuel2 hle]
    · rw [if_neg hne]
      exact callOriginal_eq env hWnd msg wParam lParam s s2 mid hlog horig
  · by_cases h2 : msg = WM_COMMAND
    · by_cases h3 : LOWORD wParam = ID_MENU_UPDATE
      · have hshow : ∃ mid, (ShowUpdatesDialog s).log = s.log ++ mid ∧
            ∀ e ∈ mid, e.isCallOrig = false := by
          unfold ShowUpdatesDialog
          by_cases he : s.g.g_Updates.isEmpty = true
          · rw [if_pos he]
            exact ⟨_, rfl, by simp [Effect.isCallOrig]⟩
          · rw [if_neg he]
            exact ⟨_, rfl, by simp [Effect.isCallOrig]⟩
        obtain ⟨mid, hlog, hmid⟩ := hshow
        refine ⟨0, 0, ShowUpdatesDialog s, mid, ?_, hmid, ?_⟩
        · intro fuel2 _
          unfold HookedWndProc
          rw [if_neg h1, if_pos h2, if_pos h3]
        · rw [if_pos (Or.inl ⟨h2, h3⟩)]
          exact ⟨rfl, hlog⟩
      · have hne : ¬ ((msg = WM_COMMAND ∧ LOWORD wParam = ID_MENU_UPDATE) ∨
            msg = WM_APP_APPLY_MENU) := by
          rintro (⟨_, h⟩ | h)
          · exact h3 h
          · rw [h2] at h
            revert h
            decide
        refine ⟨0, (callOriginal env hWnd msg wParam lParam s).1,
          (callOriginal env hWnd msg wParam lParam s).2, [], ?_, by simp, ?_⟩
        · intro fuel2 _
          unfold HookedWndProc
          rw [if_neg h1, if_pos h2, if_neg h3]
        · rw [if_neg hne]
          exact callOriginal_eq env hWnd msg wParam lParam s s [] (by simp) rfl
    · by_cases h4 : msg = WM_DPICHANGED
      · have hne : ¬ ((msg = WM_COMMAND ∧ LOWORD wParam = ID_MENU_UPDATE) ∨
            msg = WM_APP_APPLY_MENU) := by
          rintro (⟨h, _⟩ | h)
          · exact h2 h
          · rw [h4] at h
            revert h
            decide
        obtain ⟨fuel, s2, hs2⟩ := ApplyUpdateLabel_returns_some env s
          (fun M hM hno => happend M hM hno (Or.inl h4))
        obtain ⟨_, horig, mid, hlog, hmid⟩ :=
          ApplyUpdateLabel_frame env fuel 0 s s2 (hs2 fuel (le_refl _))
        refine ⟨fuel, (callOriginal env hWnd msg wParam lParam s2).1,
          (callOriginal env hWnd msg wParam lParam s2).2, mid, ?_, hmid, ?_⟩
        · intro fuel2 hle
          unfold HookedWndProc
          rw [if_neg h1, if_neg h2, if_pos h4, hs2 fuel2 hle]
        · rw [if_neg hne]
          exact callOriginal_eq env hWnd msg wParam lParam s s2 mid hlog horig
      · by_cases h5 : msg = WM_APP_APPLY_MENU
        · obtain ⟨fuel, s2, hs2⟩ := EnsureUpdateMenuIfReady_returns_some env s
            (fun M hM hno hr => happend M hM hno (Or.inr ⟨hr, Or.inr (Or.inr h5)⟩))
          obtain ⟨_, _, mid, hlog, hmid⟩ :=
            EnsureUpdateMenuIfReady_frame env fuel s s2 (hs2 fuel (le_refl _))
          refine ⟨fuel, 0, s2, mid, ?_, hmid, ?_⟩
          · intro fuel2 hle
            unfold HookedWndProc
            rw [if_neg h1, if_neg h2, if_neg h4, if_pos h5, hs2 fuel2 hle]
          · rw [if_pos (Or.inr h5)]
            exact ⟨rfl, hlog⟩
        · have hne : ¬ ((msg = WM_COMMAND ∧ LOWORD wParam = ID_MENU_UPDATE) ∨
              msg = WM_APP_APPLY_MENU) := by
            rintro (⟨h, _⟩ | h)
            · exact h2 h
            · exact h5 h
          refine ⟨0, (callOriginal env hWnd msg wParam lParam s).1,
            (callOriginal env hWnd msg wParam lParam s).2, [], ?_, by simp, ?_⟩
          · intro fuel2 _
            unfold HookedWndProc
            rw [if_neg h1, if_neg h2, if_neg h4, if_neg h5]
          · rw [if_neg hne]
            exact callOriginal_eq env hWnd msg wParam lParam s s [] (by simp) rfl

set_option maxRecDepth 100000 in
/-- The message `WM_DPICHANGED` for the hooked window, whose menu lacks the item, with
a host whose first `AppendMenuW` fails and whose second one succeeds: the handler
returns and calls the original window procedure 4242. -/
theorem HookedWndProc_forwards_witness :
    (∀ M, pluginHooked.menu = some M → HasUpdateItem M = false →
        (WM_DPICHANGED = WM_DPICHANGED ∨ (pluginHooked.g.g_MenuReady = true ∧
          (WM_DPICHANGED = WM_INITMENU ∨ WM_DPICHANGED = WM_ENTERMENULOOP ∨
            WM_DPICHANGED = WM_APP_APPLY_MENU))) →
        ∃ n, hostSecondAppend.appendOk n = true) ∧
      pluginHooked.g_OrigWndProc = some 4242 ∧
      ∃ fuel r s1 mid,
        (∀ fuel2, fuel ≤ fuel2 →
          HookedWndProc hostSecondAppend fuel2 1 WM_DPICHANGED 0 0 pluginHooked =
            some (r, s1)) ∧
        (∀ e ∈ mid, e.isCallOrig = false) ∧
        if (WM_DPICHANGED = WM_COMMAND ∧ LOWORD 0 = ID_MENU_UPDATE) ∨
            WM_DPICHANGED = WM_APP_APPLY_MENU then
          r = 0 ∧ s1.log = pluginHooked.log ++ mid
        else
          match pluginHooked.g_OrigWndProc with
          | some proc =>
            r = hostSecondAppend.origResult 1 WM_DPICHANGED 0 0 ∧
              s1.log = pluginHooked.log ++ mid ++ [.callOrig proc 1 WM_DPICHANGED 0 0]
          | none =>
            r = hostSecondAppend.nullResult ∧
              s1.log = pluginHooked.log ++ mid ++ [.callNull 1 WM_DPICHANGED 0 0] :=
  ⟨fun _ _ _ _ => ⟨1, rfl⟩, rfl,
    HookedWndProc_forwards hostSecondAppend 1 WM_DPICHANGED 0 0 pluginHooked
      (fun _ _ _ _ => ⟨1, rfl⟩)⟩

/-! ## The menu refresh applied twice (C17) -/

section Idempotent

variable {W : Type}

theorem EnsureMenuIcons_menu_log (env : HostEnv) (s : Plugin W) (menu : Option (List MenuItem))
    (log : List Effect) :
    EnsureMenuIcons env { s with menu := menu, log := log } =
      { EnsureMenuIcons env s with menu := menu, log := log } := by
  unfold EnsureMenuIcons
  simp only
  split_ifs <;> rfl

theorem EnsureMenuIcons_idem (env : HostEnv) (s : Plugin W) :
    EnsureMenuIcons env (EnsureMenuIcons env s) = EnsureMenuIcons env s := by
  by_cases h : s.g_MenuIconSizePx ≠ (if env.iconSize ≤ 0 then 16 else env.iconSize) ∨
      s.g_hBmpUpdateAvail = none ∨ s.g_hBmpUpdateNone = none
  · have h1 : EnsureMenuIcons env s =
        { s with
          g_hBmpUpdateAvail := MakeCircleBitmap env (RGB 76 175 80)
            (if env.iconSize ≤ 0 then 16 else env.iconSize)
          g_hBmpUpdateNone := MakeCircleBitmap env (RGB 153 153 153)
            (if env.iconSize ≤ 0 then 16 else env.iconSize)
          g_MenuIconSizePx := if env.iconSize ≤ 0 then 16 else env.iconSize } := by
      unfold EnsureMenuIcons
      simp only
      rw [if_pos h]
    rw [h1]
    unfold EnsureMenuIcons
    simp only
    split_ifs <;> rfl
  · have h1 : EnsureMenuIcons env s = s := by
      unfold EnsureMenuIcons
      simp only
      rw [if_neg h]
    rw [h1, h1]

theorem SetMenuItemInfoW_ids (M : List MenuItem) (id : Nat) (t : String) (b : Option Bitmap) :
    (SetMenuItemInfoW M id t b).map (fun it => it.wID) = M.map (fun it => it.wID) := by
  induction M with
  | nil => rfl
  | cons it r ih =>
    by_cases h : it.wID = id
    · simp [SetMenuItemInfoW, h]
    · simp [SetMenuItemInfoW, h, ih]

theorem SetMenuItemInfoW_others (M : List MenuItem) (id : Nat) (t : String) (b : Option Bitmap) :
    (SetMenuItemInfoW M id t b).filter (fun it => it.wID ≠ id) =
      M.filter (fun it => it.wID ≠ id) := by
  induction M with
  | nil => rfl
  | cons it r ih =>
    by_cases h : it.wID = id
    · simp [SetMenuItemInfoW, h]
    · simp only [SetMenuItemInfoW, h, if_false, List.filter_cons, ih]

theorem SetMenuItemInfoW_count (M : List MenuItem) (id : Nat) (t : String) (b : Option Bitmap) :
    ((SetMenuItemInfoW M id t b).filter (fun it => it.wID = id)).length =
      (M.filter (fun it => it.wID = id)).length := by
  induction M with
  | nil => rfl
  | cons it r ih =>
    by_cases h : it.wID = id
    · simp [SetMenuItemInfoW, h]
    · simp [SetMenuItemInfoW, h, ih]

theorem SetMenuItemInfoW_idem (M : List MenuItem) (id : Nat) (t : String) (b : Option Bitmap) :
    SetMenuItemInfoW (SetMenuItemInfoW M id t b) id t b = SetMenuItemInfoW M id t b := by
  induction M with
  | nil => rfl
  | cons it r ih =>
    by_cases h : it.wID = id
    · simp [SetMenuItemInfoW, h]
    · simp [SetMenuItemInfoW, h, ih]

theorem HasUpdateItem_iff (M : List MenuItem) :
    HasUpdateItem M = true ↔ ID_MENU_UPDATE ∈ M.map (fun it => it.wID) := by
  induction M with
  | nil => simp [HasUpdateItem]
  | cons it r ih =>
    by_cases h : it.wID = ID_MENU_UPDATE
    · simp [HasUpdateItem, h]
    · have h2 : ¬ ID_MENU_UPDATE = it.wID := fun e => h e.symm
      simp [HasUpdateItem, h, h2, ih]

theorem HasUpdateItem_count (M : List MenuItem) :
    HasUpdateItem M = true ↔ 1 ≤ (M.filter (fun it => it.wID = ID_MENU_UPDATE)).length := by
  induction M with
  | nil => simp [HasUpdateItem]
  | cons it r ih =>
    by_cases h : it.wID = ID_MENU_UPDATE
    · simp [HasUpdateItem, h]
    · simp [HasUpdateItem, h, ih]

theorem ApplyUpdateLabel_with_item (env : HostEnv) (fuel n : Nat) (s : Plugin W)
    (M : List MenuItem) (hM : s.menu = some M) (hhas : HasUpdateItem M = true) :
    ApplyUpdateLabel env (fuel + 1) n s =
      some { EnsureMenuIcons env s with
        menu := some (SetMenuItemInfoW M ID_MENU_UPDATE "更新"
          (if (EnsureMenuIcons env s).g.g_MenuReady then
            if (EnsureMenuIcons env s).g.g_UpdateAvailable then
              (EnsureMenuIcons env s).g_hBmpUpdateAvail
            else (EnsureMenuIcons env s).g_hBmpUpdateNone
          else none))
        log := (EnsureMenuIcons env s).log ++ [.drawMenuBar] } := by
  rw [ApplyUpdateLabel, hM]
  simp only [hhas, Bool.not_true, Bool.false_eq_true, if_false]

/-- On a menu that holds the item the refresh returns at once, and a second refresh
in the state it leaves gives the same menu. -/
theorem ApplyUpdateLabel_twice (env : HostEnv) (fuel n fuel2 n2 : Nat) (s : Plugin W)
    (M : List MenuItem) (hM : s.menu = some M) (hhas : HasUpdateItem M = true) :
    ∃ s1 M1, ApplyUpdateLabel env (fuel + 1) n s = some s1 ∧ s1.menu = some M1 ∧
      M1.map (fun it => it.wID) = M.map (fun it => it.wID) ∧
      M1.filter (fun it => it.wID ≠ ID_MENU_UPDATE) =
        M.filter (fun it => it.wID ≠ ID_MENU_UPDATE) ∧
      (M1.filter (fun it => it.wID = ID_MENU_UPDATE)).length =
        (M.filter (fun it => it.wID = ID_MENU_UPDATE)).length ∧
      ∃ s2, ApplyUpdateLabel env (fuel2 + 1) n2 s1 = some s2 ∧ s2.menu = s1.menu := by
  refine ⟨_, _, ApplyUpdateLabel_with_item env fuel n s M hM hhas, rfl,
    SetMenuItemInfoW_ids _ _ _ _, SetMenuItemInfoW_others _ _ _ _,
    SetMenuItemInfoW_count _ _ _ _, ?_⟩
  have hhas1 : HasUpdateItem (SetMenuItemInfoW M ID_MENU_UPDATE "更新"
      (if (EnsureMenuIcons env s).g.g_MenuReady then
        if (EnsureMenuIcons env s).g.g_UpdateAvailable then
          (EnsureMenuIcons env s).g_hBmpUpdateAvail
        else (EnsureMenuIcons env s).g_hBmpUpdateNone
      else none)) = true := by
    rw [HasUpdateItem_iff, SetMenuItemInfoW_ids, ← HasUpdateItem_iff]
    exact hhas
  refine ⟨_, ApplyUpdateLabel_with_item env fuel2 n2 _ _ rfl hhas1, ?_⟩
  simp only [EnsureMenuIcons_menu_log, EnsureMenuIcons_idem, SetMenuItemInfoW_idem]

end Idempotent

/-- C17: for a host menu with at most one item of the identifier `0xE711`, when
`AppendMenuW` succeeds, `ApplyUpdateLabel` returns after at most one nested call; the
menu it leaves has exactly one item of that identifier and the other items as they
were, in their order; and a second `ApplyUpdateLabel` in the state it leaves returns
with the same menu. -/
theorem ApplyUpdateLabel_idempotent {W : Type} (env : HostEnv) (s : Plugin W)
    (M : List MenuItem) (hM : s.menu = some M)
    (hone : (M.filter (fun it => it.wID = ID_MENU_UPDATE)).length ≤ 1)
    (happend : env.appendOk 0 = true) :
    ∃ s1 M1, ApplyUpdateLabel env 2 0 s = some s1 ∧ s1.menu = some M1 ∧
      (M1.filter (fun it => it.wID = ID_MENU_UPDATE)).length = 1 ∧
      M1.filter (fun it => it.wID ≠ ID_MENU_UPDATE) =
        M.filter (fun it => it.wID ≠ ID_MENU_UPDATE) ∧
      ∃ s2, ApplyUpdateLabel env 2 0 s1 = some s2 ∧ s2.menu = s1.menu := by
  by_cases hhas : HasUpdateItem M = true
  · obtain ⟨s1, M1, h1, h2, _, h4, h5, s2, h6, h7⟩ :=
      ApplyUpdateLabel_twice env 1 0 1 0 s M hM hhas
    have hc := (HasUpdateItem_count M).1 hhas
    exact ⟨s1, M1, h1, h2, by omega, h4, s2, h6, h7⟩
  · have hc : (M.filter (fun it => it.wID = ID_MENU_UPDATE)).length = 0 := by
      have := (HasUpdateItem_count M).not.1 hhas
      omega
    have hstep : ApplyUpdateLabel env 2 0 s =
        ApplyUpdateLabel env 1 1 { EnsureMenuIcons env s with
          menu := some (AppendMenuW M ID_MENU_UPDATE "更新") } := by
      rw [ApplyUpdateLabel, hM]
      simp only [hhas, Bool.not_false, if_true, happend]
    obtain ⟨s1, M1, h1, h2, _, h4, h5, s2, h6, h7⟩ :=
      ApplyUpdateLabel_twice env 0 1 1 0 { EnsureMenuIcons env s with
        menu := some (AppendMenuW M ID_MENU_UPDATE "更新") }
        (AppendMenuW M ID_MENU_UPDATE "更新") rfl (HasUpdateItem_AppendMenuW M "更新")
    refine ⟨s1, M1, by rw [hstep]; exact h1, h2, ?_, ?_, s2, h6, h7⟩
    · rw [h5]
      simp [AppendMenuW, List.filter_append, hc]
    · rw [h4]
      simp [AppendMenuW, List.filter_append]

/-- The menu `File` of the host, from the initial state. -/
theorem ApplyUpdateLabel_idempotent_witness :
    (Plugin.initial (some menuFile) : Plugin (List Char)).menu = some menuFile ∧
      (menuFile.filter (fun it => it.wID = ID_MENU_UPDATE)).length ≤ 1 ∧
      hostAnswers.appendOk 0 = true ∧
      ∃ s1 M1, ApplyUpdateLabel hostAnswers 2 0
          (Plugin.initial (some menuFile) : Plugin (List Char)) = some s1 ∧
        s1.menu = some M1 ∧
        (M1.filter (fun it => it.wID = ID_MENU_UPDATE)).length = 1 ∧
        M1.filter (fun it => it.wID ≠ ID_MENU_UPDATE) =
          menuFile.filter (fun it => it.wID ≠ ID_MENU_UPDATE) ∧
        ∃ s2, ApplyUpdateLabel hostAnswers 2 0 s1 = some s2 ∧ s2.menu = s1.menu :=
  ⟨rfl, by decide, rfl,
    ApplyUpdateLabel_idempotent hostAnswers
      (Plugin.initial (some menuFile) : Plugin (List Char)) menuFile rfl (by decide) rfl⟩

/-! ## The icon of the menu item (C12) -/

section Icons

variable {W : Type}

theorem IconsMade_of_eq (s s1 : Plugin W) (h1 : s1.g_hBmpUpdateAvail = s.g_hBmpUpdateAvail)
    (h2 : s1.g_hBmpUpdateNone = s.g_hBmpUpdateNone)
    (h3 : s1.g_MenuIconSizePx = s.g_MenuIconSizePx) (h : IconsMade s) : IconsMade s1 := by
  unfold IconsMade at h ⊢
  rw [h1, h2, h3]
  exact h

/-- After `EnsureMenuIcons` the recorded size is the desired one, and each of the two
bitmaps is the circle of its colour at that size, or null when it was created anew
and `CreateDIBSection` failed. -/
theorem EnsureMenuIcons_icons (env : HostEnv) (s : Plugin W) (h : IconsMade s) :
    (EnsureMenuIcons env s).g_MenuIconSizePx = (if env.iconSize ≤ 0 then 16 else env.iconSize) ∧
      ((EnsureMenuIcons env s).g_hBmpUpdateAvail =
          some { color := RGB 76 175 80, size := if env.iconSize ≤ 0 then 16 else env.iconSize } ∨
        ((EnsureMenuIcons env s).g_hBmpUpdateAvail = none ∧
          env.dibOk (RGB 76 175 80) (if env.iconSize ≤ 0 then 16 else env.iconSize) = false)) ∧
      ((EnsureMenuIcons env s).g_hBmpUpdateNone =
          some { color := RGB 153 153 153,
                 size := if env.iconSize ≤ 0 then 16 else env.iconSize } ∨
        ((EnsureMenuIcons env s).g_hBmpUpdateNone = none ∧
          env.dibOk (RGB 153 153 153) (if env.iconSize ≤ 0 then 16 else env.iconSize) =
            false)) := by
  by_cases hc : s.g_MenuIconSizePx ≠ (if env.iconSize ≤ 0 then 16 else env.iconSize) ∨
      s.g_hBmpUpdateAvail = none ∨ s.g_hBmpUpdateNone = none
  · have h1 : EnsureMenuIcons env s =
        { s with
          g_hBmpUpdateAvail := MakeCircleBitmap env (RGB 76 175 80)
            (if env.iconSize ≤ 0 then 16 else env.iconSize)
          g_hBmpUpdateNone := MakeCircleBitmap env (RGB 153 153 153)
            (if env.iconSize ≤ 0 then 16 else env.iconSize)
          g_MenuIconSizePx := if env.iconSize ≤ 0 then 16 else env.iconSize } := by
      unfold EnsureMenuIcons
      simp only
      rw [if_pos hc]
    rw [h1]
    refine ⟨rfl, ?_, ?_⟩
    · simp only [MakeCircleBitmap]
      cases hd : env.dibOk (RGB 76 175 80) (if env.iconSize ≤ 0 then 16 else env.iconSize)
      · exact Or.inr ⟨by simp, rfl⟩
      · exact Or.inl (by simp)
    · simp only [MakeCircleBitmap]
      cases hd : env.dibOk (RGB 153 153 153) (if env.iconSize ≤ 0 then 16 else env.iconSize)
      · exact Or.inr ⟨by simp, rfl⟩
      · exact Or.inl (by simp)
  · have h1 : EnsureMenuIcons env s = s := by
      unfold EnsureMenuIcons
      simp only
      rw [if_neg hc]
    rw [h1]
    have hsize : s.g_MenuIconSizePx = (if env.iconSize ≤ 0 then 16 else env.iconSize) := by
      by_contra hne
      exact hc (Or.inl hne)
    refine ⟨hsize, Or.inl ?_, Or.inl ?_⟩
    · cases ha : s.g_hBmpUpdateAvail with
      | none => exact absurd (Or.inr (Or.inl ha)) hc
      | some b => rw [h.1 b ha, hsize]
    · cases ha : s.g_hBmpUpdateNone with
      | none => exact absurd (Or.inr (Or.inr ha)) hc
      | some b => rw [h.2 b ha, hsize]

theorem EnsureMenuIcons_IconsMade (env : HostEnv) (s : Plugin W) (h : IconsMade s) :
    IconsMade (EnsureMenuIcons env s) := by
  obtain ⟨h1, h2, h3⟩ := EnsureMenuIcons_icons env s h
  unfold IconsMade
  rw [h1]
  constructor
  · intro b hb
    rcases h2 with h2 | ⟨h2, _⟩
    · rw [h2] at hb
      exact (Option.some.inj hb).symm
    · rw [h2] at hb
      cases hb
  · intro b hb
    rcases h3 with h3 | ⟨h3, _⟩
    · rw [h3] at hb
      exact (Option.some.inj hb).symm
    · rw [h3] at hb
      cases hb

/-- For a window with a menu, the bitmaps and the size that the menu refresh leaves
are those that its first `EnsureMenuIcons` leaves. -/
theorem ApplyUpdateLabel_icons (env : HostEnv) (fuel n : Nat) (s s1 : Plugin W)
    (M : List MenuItem) (hM : s.menu = some M) (h : ApplyUpdateLabel env fuel n s = some s1) :
    s1.g_hBmpUpdateAvail = (EnsureMenuIcons env s).g_hBmpUpdateAvail ∧
      s1.g_hBmpUpdateNone = (EnsureMenuIcons env s).g_hBmpUpdateNone ∧
      s1.g_MenuIconSizePx = (EnsureMenuIcons env s).g_MenuIconSizePx := by
  induction fuel generalizing n s M with
  | zero => cases h
  | succ f ih =>
    rw [ApplyUpdateLabel, hM] at h
    simp only at h
    by_cases hhas : HasUpdateItem M = true
    · simp only [hhas, Bool.not_true, Bool.false_eq_true, if_false, Option.some.injEq] at h
      subst h
      exact ⟨rfl, rfl, rfl⟩
    · simp only [hhas, Bool.not_false, if_true] at h
      obtain ⟨h1, h2, h3⟩ := ih _ _ _ rfl h
      have he := EnsureMenuIcons_menu_log env (EnsureMenuIcons env s)
        (some (if env.appendOk n = true then AppendMenuW M ID_MENU_UPDATE "更新" else M))
        (EnsureMenuIcons env s).log
      rw [EnsureMenuIcons_idem] at he
      rw [he] at h1 h2 h3
      exact ⟨h1, h2, h3⟩

theorem ApplyUpdateLabel_IconsMade (env : HostEnv) (fuel n : Nat) (s s1 : Plugin W)
    (hi : IconsMade s) (h : ApplyUpdateLabel env fuel n s = some s1) : IconsMade s1 := by
  cases hm : s.menu with
  | none =>
    cases fuel with
    | zero => cases h
    | succ f =>
      rw [ApplyUpdateLabel_no_menu env f n s hm] at h
      cases h
      exact hi
  | some M =>
    obtain ⟨h1, h2, h3⟩ := ApplyUpdateLabel_icons env fuel n s s1 M hm h
    exact IconsMade_of_eq _ _ h1 h2 h3 (EnsureMenuIcons_IconsMade env s hi)

theorem EnsureUpdateMenuIfReady_IconsMade (env : HostEnv) (fuel : Nat) (s s1 : Plugin W)
    (hi : IconsMade s) (h : EnsureUpdateMenuIfReady env fuel s = some s1) : IconsMade s1 := by
  unfold EnsureUpdateMenuIfReady at h
  split_ifs at h
  · cases h
    exact hi
  · cases hm : s.menu with
    | none =>
      rw [hm] at h
      cases h
      exact hi
    | some M =>
      rw [hm] at h
      exact ApplyUpdateLabel_IconsMade env fuel 0 s s1 hi h

theorem callOriginal_IconsMade (env : HostEnv) (hWnd msg wParam : Nat) (lParam : Int)
    (s : Plugin W) (hi : IconsMade s) :
    IconsMade (callOriginal env hWnd msg wParam lParam s).2 := by
  obtain ⟨_, h1, h2, h3⟩ := callOriginal_frame env hWnd msg wParam lParam s
  exact IconsMade_of_eq _ _ h1 h2 h3 hi

theorem HookedWndProc_IconsMade (env : HostEnv) (fuel hWnd msg wParam : Nat) (lParam : Int)
    (s s1 : Plugin W) (r : Int) (hi : IconsMade s)
    (h : HookedWndProc env fuel hWnd msg wParam lParam s = some (r, s1)) : IconsMade s1 := by
  unfold HookedWndProc at h
  split_ifs at h
  · cases h2 : EnsureUpdateMenuIfReady env fuel s with
    | none => simp [h2] at h
    | some s2 =>
      simp only [h2, Option.some.injEq] at h
      have hs1 : s1 = (callOriginal env hWnd msg wParam lParam s2).2 := by rw [h]
      rw [hs1]
      exact callOriginal_IconsMade env hWnd msg wParam lParam s2
        (EnsureUpdateMenuIfReady_IconsMade env fuel s s2 hi h2)
  · simp only [Option.some.injEq, Prod.mk.injEq] at h
    rw [← h.2]
    unfold ShowUpdatesDialog
    split_ifs <;> exact hi
  · simp only [Option.some.injEq] at h
    have hs1 : s1 = (callOriginal env hWnd msg wParam lParam s).2 := by rw [h]
    rw [hs1]
    exact callOriginal_IconsMade env hWnd msg wParam lParam s hi
  · cases h2 : ApplyUpdateLabel env fuel 0 s with
    | none => simp [h2] at h
    | some s2 =>
      simp only [h2, Option.some.injEq] at h
      have hs1 : s1 = (callOriginal env hWnd msg wParam lParam s2).2 := by rw [h]
      rw [hs1]
      exact callOriginal_IconsMade env hWnd msg wParam lParam s2
        (ApplyUpdateLabel_IconsMade env fuel 0 s s2 hi h2)
  · cases h2 : EnsureUpdateMenuIfReady env fuel s with
    | none => simp [h2] at h
    | some s2 =>
      simp only [h2, Option.some.injEq, Prod.mk.injEq] at h
      rw [← h.2]
      exact EnsureUpdateMenuIfReady_IconsMade env fuel s s2 hi h2
  · simp only [Option.some.injEq] at h
    have hs1 : s1 = (callOriginal env hWnd msg wParam lParam s).2 := by rw [h]
    rw [hs1]
    exact callOriginal_IconsMade env hWnd msg wParam lParam s hi

theorem InjectorThreadLoop_IconsMade (found : Nat → Option (Nat × Option Nat)) (tries i : Nat)
    (s : Plugin W) (hi : IconsMade s) : IconsMade (InjectorThreadLoop found tries i s) := by
  induction tries generalizing i with
  | zero => exact hi
  | succ t ih =>
    rw [InjectorThreadLoop]
    cases hf : found i with
    | none => exact ih (i + 1)
    | some p =>
      obtain ⟨hWnd, prev⟩ := p
      exact hi

theorem ProcessDetach_IconsMade (reservedNull : Bool) (s : Plugin W) (hi : IconsMade s) :
    IconsMade (ProcessDetach reservedNull s) := by
  unfold ProcessDetach
  cases reservedNull with
  | false => exact hi
  | true =>
    simp only [if_true]
    unfold CleanupMenuIcons IconsMade
    exact ⟨fun b hb => (by cases hb), fun b hb => (by cases hb)⟩

end Icons

theorem PluginStep_IconsMade {W : Type} [LinearOrder W] (U82W : Str → W) (s s1 : Plugin W)
    (h : PluginStep U82W s s1) (hi : IconsMade s) : IconsMade s1 := by
  cases h with
  | worker e _ g1 hw => exact hi
  | locator found => exact InjectorThreadLoop_IconsMade found 50 0 s hi
  | message env fuel hWnd msg wParam lParam _ r _ hm =>
    exact HookedWndProc_IconsMade env fuel hWnd msg wParam lParam s s1 r hi hm
  | dialogProc font owned => exact hi
  | detach reservedNull => exact ProcessDetach_IconsMade reservedNull s hi
  | host menu => exact hi

theorem Reachable_IconsMade {W : Type} [LinearOrder W] (U82W : Str → W) (s : Plugin W)
    (h : Reachable U82W s) : IconsMade s := by
  obtain ⟨menu, hrun⟩ := h
  induction hrun with
  | refl => exact ⟨fun b hb => (by cases hb), fun b hb => (by cases hb)⟩
  | tail _ hstep ih => exact PluginStep_IconsMade U82W _ _ hstep ih

theorem pluginOneUpdate_reachable : Reachable asciiU82W pluginOneUpdate :=
  ⟨some menuFile, Relation.ReflTransGen.single
    (PluginStep.worker envOneUpdate (Plugin.initial (some menuFile)) globalsOneUpdate rfl)⟩

set_option maxRecDepth 100000 in
/-- C12, as stated, fails in two ways in the reachable state in which the worker has
found one update (`g_MenuReady` true, `g_Updates` non-empty) and the menu lacks the
item.  With a host whose `AppendMenuW` always fails the menu refresh never returns, so
the item gets nothing.  With a host whose `CreateDIBSection` fails the refresh returns
and the item has a null bitmap, not the available icon. -/
theorem ApplyUpdateLabel_no_icon :
    Reachable asciiU82W pluginOneUpdate ∧ pluginOneUpdate.g.g_MenuReady = true ∧
      pluginOneUpdate.g.g_Updates ≠ [] ∧ pluginOneUpdate.menu = some menuFile ∧
      HasUpdateItem menuFile = false ∧
      (∀ fuel, ApplyUpdateLabel hostAppendFails fuel 0 pluginOneUpdate = none) ∧
      (ApplyUpdateLabel hostNoBitmaps 2 0 pluginOneUpdate).map
          (fun s1 => s1.menu.map (fun M1 => (findItem M1 ID_MENU_UPDATE).map
            (fun it => it.hbmpItem))) = some (some (some none)) :=
  ⟨pluginOneUpdate_reachable, rfl, by decide, rfl, by decide,
    fun fuel => ApplyUpdateLabel_never_returns hostAppendFails (fun _ => rfl) fuel 0
      pluginOneUpdate menuFile rfl (by decide),
    by decide⟩

/-- C12, amended: in every state reachable after the start, for a window with a menu
that holds the item or for which some call of `AppendMenuW` succeeds, the menu
refresh returns (for every fuel from some fuel on) and leaves the item in the menu
with no bitmap when `g_MenuReady` is false, with the bitmap `g_hBmpUpdateAvail` when
it is true and `g_Updates` is non-empty, and with the bitmap `g_hBmpUpdateNone` when
it is true and `g_Updates` is empty; at that moment `g_hBmpUpdateAvail` is the circle
of colour `RGB(76, 175, 80)` at the menu icon size (16 when the recommended size is
not positive), or null when `CreateDIBSection` fails for it, and `g_hBmpUpdateNone`
is the circle of colour `RGB(153, 153, 153)` at that size, or null in the same
case.  For a window without menu the refresh returns at once and changes nothing. -/
theorem ApplyUpdateLabel_icon {W : Type} [LinearOrder W] (U82W : Str → W) (env : HostEnv)
    (s : Plugin W) (hs : Reachable U82W s) :
    (s.menu = none → ∀ fuel, ApplyUpdateLabel env (fuel + 1) 0 s = some s) ∧
      ∀ M, s.menu = some M → (HasUpdateItem M = false → ∃ n, env.appendOk n = true) →
        ∃ fuel s1 M1 it,
          (∀ fuel2, fuel ≤ fuel2 → ApplyUpdateLabel env fuel2 0 s = some s1) ∧
          s1.menu = some M1 ∧ findItem M1 ID_MENU_UPDATE = some it ∧
          (s.g.g_MenuReady = false → it.hbmpItem = none) ∧
          (s.g.g_MenuReady = true → s.g.g_Updates ≠ [] →
            it.hbmpItem = s1.g_hBmpUpdateAvail) ∧
          (s.g.g_MenuReady = true → s.g.g_Updates = [] →
            it.hbmpItem = s1.g_hBmpUpdateNone) ∧
          (s1.g_hBmpUpdateAvail =
              some { color := RGB 76 175 80,
                     size := if env.iconSize ≤ 0 then 16 else env.iconSize } ∨
            (s1.g_hBmpUpdateAvail = none ∧
              env.dibOk (RGB 76 175 80) (if env.iconSize ≤ 0 then 16 else env.iconSize) =
                false)) ∧
          (s1.g_hBmpUpdateNone =
              some { color := RGB 153 153 153,
                     size := if env.iconSize ≤ 0 then 16 else env.iconSize } ∨
            (s1.g_hBmpUpdateNone = none ∧
              env.dibOk (RGB 153 153 153) (if env.iconSize ≤ 0 then 16 else env.iconSize) =
                false)) := by
  refine ⟨fun hnone fuel => ApplyUpdateLabel_no_menu env fuel 0 s hnone, ?_⟩
  intro M hM happend
  obtain ⟨fuel, s1, hret⟩ := ApplyUpdateLabel_returns_some env s (fun M2 h2 hno => by
    rw [hM] at h2
    cases h2
    exact happend hno)
  have h := hret fuel (le_refl _)
  obtain ⟨M1, it, h1, h2, h3⟩ := ApplyUpdateLabel_item env fuel 0 s s1 M hM h
  obtain ⟨i1, i2, _⟩ := ApplyUpdateLabel_icons env fuel 0 s s1 M hM h
  obtain ⟨_, e2, e3⟩ := EnsureMenuIcons_icons env s (Reachable_IconsMade U82W s hs)
  have hinv := Reachable_available U82W s hs
  refine ⟨fuel, s1, M1, it, hret, h1, h2, ?_, ?_, ?_, by rw [i1]; exact e2,
    by rw [i2]; exact e3⟩
  · intro hr
    rw [h3, hr]
    rfl
  · intro hr hu
    have : s.g.g_UpdateAvailable = true := by
      rw [hinv]
      cases hl : s.g.g_Updates with
      | nil => exact absurd hl hu
      | cons a t => rfl
    rw [h3, hr, this]
    rfl
  · intro hr hu
    have : s.g.g_UpdateAvailable = false := by
      rw [hinv, hu]
      rfl
    rw [h3, hr, this]
    rfl

/-- The state after the worker has found one update, the menu `File` of the host, and
a host whose second `AppendMenuW` succeeds and that creates the bitmaps: the item is
appended and gets the circle of colour `RGB(76, 175, 80)`. -/
theorem ApplyUpdateLabel_icon_witness :
    Reachable asciiU82W pluginOneUpdate ∧ pluginOneUpdate.menu = some menuFile ∧
      (HasUpdateItem menuFile = false → ∃ n, hostSecondAppend.appendOk n = true) ∧
      ∃ fuel s1 M1 it,
        (∀ fuel2, fuel ≤ fuel2 →
          ApplyUpdateLabel hostSecondAppend fuel2 0 pluginOneUpdate = some s1) ∧
        s1.menu = some M1 ∧ findItem M1 ID_MENU_UPDATE = some it ∧
        (pluginOneUpdate.g.g_MenuReady = false → it.hbmpItem = none) ∧
        (pluginOneUpdate.g.g_MenuReady = true → pluginOneUpdate.g.g_Updates ≠ [] →
          it.hbmpItem = s1.g_hBmpUpdateAvail) ∧
        (pluginOneUpdate.g.g_MenuReady = true → pluginOneUpdate.g.g_Updates = [] →
          it.hbmpItem = s1.g_hBmpUpdateNone) ∧
        (s1.g_hBmpUpdateAvail =
            some { color := RGB 76 175 80,
                   size := if hostSecondAppend.iconSize ≤ 0 then 16
                     else hostSecondAppend.iconSize } ∨
          (s1.g_hBmpUpdateAvail = none ∧
            hostSecondAppend.dibOk (RGB 76 175 80)
              (if hostSecondAppend.iconSize ≤ 0 then 16 else hostSecondAppend.iconSize) =
                false)) ∧
        (s1.g_hBmpUpdateNone =
            some { color := RGB 153 153 153,
                   size := if hostSecondAppend.iconSize ≤ 0 then 16
                     else hostSecondAppend.iconSize } ∨
          (s1.g_hBmpUpdateNone = none ∧
            hostSecondAppend.dibOk (RGB 153 153 153)
              (if hostSecondAppend.iconSize ≤ 0 then 16 else hostSecondAppend.iconSize) =
                false)) :=
  ⟨pluginOneUpdate_reachable, rfl, fun _ => ⟨1, rfl⟩,
    (ApplyUpdateLabel_icon asciiU82W hostSecondAppend pluginOneUpdate
      pluginOneUpdate_reachable).2 menuFile rfl (fun _ => ⟨1, rfl⟩)⟩

/-! ## `Trim` and `ReadCatalogExePath` (C15) -/

theorem trimFront_eq (isw : Nat → Bool) (s : WStr) (a : Nat) :
    trimFront isw s a = a + (s.takeWhile isw).length := by
  induction s generalizing a with
  | nil => simp [trimFront]
  | cons c cs ih =>
    by_cases h : isw c = true
    · simp only [trimFront, h, if_true, List.takeWhile_cons_of_pos, List.length_cons, ih]
      omega
    · simp [trimFront, h]

theorem drop_takeWhile_length (isw : Nat → Bool) (s : WStr) :
    s.drop (s.takeWhile isw).length = s.dropWhile isw := by
  induction s with
  | nil => rfl
  | cons c cs ih =>
    by_cases h : isw c = true
    · simp [h, ih]
    · simp [h]

theorem trimBack_spec (isw : Nat → Bool) (s : WStr) (a b : Nat) (hab : a ≤ b)
    (hb : b ≤ s.length) :
    a ≤ trimBack isw s a b ∧ trimBack isw s a b ≤ b ∧
      (s.take (trimBack isw s a b)).drop a = ((s.take b).drop a).rdropWhile isw := by
  induction b with
  | zero =>
    have : a = 0 := by omega
    subst this
    simp [trimBack]
  | succ b ih =>
    have hlt : b < s.length := by omega
    have htake : s.take (b + 1) = s.take b ++ [s.getD b 0] := by
      rw [List.take_succ, List.getD_eq_getElem?_getD, List.getElem?_eq_getElem hlt]
      rfl
    by_cases hc : b + 1 > a ∧ isw (s.getD b 0) = true
    · have hab1 : a ≤ b := by omega
      obtain ⟨h1, h2, h3⟩ := ih hab1 (by omega)
      rw [trimBack, if_pos hc]
      refine ⟨h1, by omega, ?_⟩
      rw [h3, htake, List.drop_append_of_le_length (by simp; omega),
        List.rdropWhile_concat_pos _ _ _ hc.2]
    · rw [trimBack, if_neg hc]
      refine ⟨hab, le_refl _, ?_⟩
      by_cases ha : a = b + 1
      · subst ha
        have : (s.take (b + 1)).drop (b + 1) = [] := by
          apply List.drop_eq_nil_of_le
          simp
        rw [this]
        rfl
      · have hab1 : a ≤ b := by omega
        have hn : ¬ isw (s.getD b 0) = true := fun h => hc ⟨by omega, h⟩
        rw [htake, List.drop_append_of_le_length (by simp; omega),
          List.rdropWhile_concat_neg _ _ _ hn]

/-- The value of `Trim`: the leading code units for which `iswspace` holds are
removed, then the trailing ones. -/
theorem Trim_eq (isw : Nat → Bool) (s : WStr) :
    Trim isw s = (s.dropWhile isw).rdropWhile isw := by
  have ha : trimFront isw s 0 = (s.takeWhile isw).length := by
    rw [trimFront_eq]
    omega
  have hle : (s.takeWhile isw).length ≤ s.length :=
    (List.takeWhile_sublist isw).length_le
  obtain ⟨_, _, h3⟩ := trimBack_spec isw s _ s.length hle (le_refl _)
  unfold Trim
  simp only [ha]
  rw [← List.drop_take, h3, List.take_length, drop_takeWhile_length]

/-- C15: `ReadCatalogExePath` returns 1 exactly when `ReadFileAll` fails on the
settings document, 2 exactly when the document is read and `JsonFindString` with key
`catalogDir` returns `false` on it, 0 exactly when the document is read and
`JsonFindString` returns `true`, and nothing else; on 0 the output path is the
value found by `JsonFindString`, converted by `U82W`, without its leading and
trailing white space; on 1 and 2 the output path is as before the call. -/
theorem ReadCatalogExePath_codes (U82W : Str → WStr) (iswspace : Nat → Bool)
    (settings : Option Str) (outPath : WStr) :
    ((ReadCatalogExePath U82W iswspace settings outPath).1 = 1 ↔ settings = none) ∧
      ((ReadCatalogExePath U82W iswspace settings outPath).1 = 2 ↔
        ∃ data, settings = some data ∧
          (JsonFindString data "catalogDir".toList []).1 = false) ∧
      ((ReadCatalogExePath U82W iswspace settings outPath).1 = 0 ↔
        ∃ data, settings = some data ∧
          (JsonFindString data "catalogDir".toList []).1 = true) ∧
      ((ReadCatalogExePath U82W iswspace settings outPath).1 = 0 ∨
        (ReadCatalogExePath U82W iswspace settings outPath).1 = 1 ∨
        (ReadCatalogExePath U82W iswspace settings outPath).1 = 2) ∧
      (∀ data, settings = some data →
        (JsonFindString data "catalogDir".toList []).1 = true →
        (ReadCatalogExePath U82W iswspace settings outPath).2 =
          List.rdropWhile iswspace (List.dropWhile iswspace
            (U82W (JsonFindString data "catalogDir".toList []).2))) ∧
      ((ReadCatalogExePath U82W iswspace settings outPath).1 ≠ 0 →
        (ReadCatalogExePath U82W iswspace settings outPath).2 = outPath) := by
  cases settings with
  | none => simp [ReadCatalogExePath]
  | some data =>
    simp only [ReadCatalogExePath, Option.some.injEq, exists_eq_left', forall_eq']
    generalize JsonFindString data "catalogDir".toList [] = j
    obtain ⟨b, v⟩ := j
    cases b <;> simp [Trim_eq]

/-! ## The application names of `LaunchExternalNoConsole` (C16) -/

set_option maxRecDepth 100000 in
/-- C16: for the raw path `C:\tools\run.ps1` (not a directory) the one call of
`LaunchExternalNoConsole` is `CreateProcessW` with the application name
`C\Windows\System32\WindowsPowerShell\v1.0\powershell.exe`, whose second code unit is
a backslash and not a colon, so it is a relative path and not the path
`C:\Windows\System32\WindowsPowerShell\v1.0\powershell.exe` of PowerShell; the result
of that call is the returned value.  For `C:\tools\run.bat`, when `COMSPEC` is not
set, the application name is `C\Windows\System32\cmd.exe` in the same way. -/
theorem LaunchExternalNoConsole_application_names
    (createProcessOk : WStr → Option WStr → Option WStr → Bool)
    (shellExecuteResult : WStr → Option WStr → Int) :
    LaunchExternalNoConsole iswspaceAscii towlowerAscii
        (osPlainFiles createProcessOk shellExecuteResult) (wide "C:\\tools\\run.ps1") =
      (createProcessOk (wide "C\\Windows\\System32\\WindowsPowerShell\\v1.0\\powershell.exe")
          (some (wide
            "-NoProfile -ExecutionPolicy Bypass -WindowStyle Hidden -File \"C:\\tools\\run.ps1\""))
          (some (wide "C:\\tools")),
        [Launch.createProcess
          (wide "C\\Windows\\System32\\WindowsPowerShell\\v1.0\\powershell.exe")
          (some (wide
            "-NoProfile -ExecutionPolicy Bypass -WindowStyle Hidden -File \"C:\\tools\\run.ps1\""))
          CREATE_NO_WINDOW (some (wide "C:\\tools")) SW_HIDE]) ∧
      wide "C\\Windows\\System32\\WindowsPowerShell\\v1.0\\powershell.exe" ≠
        wide "C:\\Windows\\System32\\WindowsPowerShell\\v1.0\\powershell.exe" ∧
      (wide "C\\Windows\\System32\\WindowsPowerShell\\v1.0\\powershell.exe").take 2 =
        wide "C\\" ∧
      LaunchExternalNoConsole iswspaceAscii towlowerAscii
        (osPlainFiles createProcessOk shellExecuteResult) (wide "C:\\tools\\run.bat") =
      (createProcessOk (wide "C\\Windows\\System32\\cmd.exe")
          (some (wide "/c \"C:\\tools\\run.bat\"")) (some (wide "C:\\tools")),
        [Launch.createProcess (wide "C\\Windows\\System32\\cmd.exe")
          (some (wide "/c \"C:\\tools\\run.bat\"")) CREATE_NO_WINDOW (some (wide "C:\\tools"))
          SW_HIDE]) := by
  refine ⟨?_, by decide, by decide, ?_⟩
  · rfl
  · rfl

set_option maxRecDepth 100000 in
/-- The other branches on examples: a quoted path with blanks around it and the
extension `.EXE` is started with `CreateProcessW` on the path itself, and goes to
`ShellExecuteW` when that fails; a `.txt` file goes to `ShellExecuteW` with the verb
`open`; a raw path of blanks, or of two quotes, gives `false` and no call. -/
theorem LaunchExternalNoConsole_examples
    (createProcessOk : WStr → Option WStr → Option WStr → Bool)
    (shellExecuteResult : WStr → Option WStr → Int) :
    LaunchExternalNoConsole iswspaceAscii towlowerAscii
        (osPlainFiles createProcessOk shellExecuteResult) (wide "  \"C:\\Tools\\App.EXE\" ") =
      (if createProcessOk (wide "C:\\Tools\\App.EXE") none (some (wide "C:\\Tools")) = true then
        (true, [Launch.createProcess (wide "C:\\Tools\\App.EXE") none CREATE_NO_WINDOW
          (some (wide "C:\\Tools")) SW_SHOWNORMAL])
      else
        (decide (shellExecuteResult (wide "C:\\Tools\\App.EXE") (some (wide "C:\\Tools")) > 32),
          [Launch.createProcess (wide "C:\\Tools\\App.EXE") none CREATE_NO_WINDOW
            (some (wide "C:\\Tools")) SW_SHOWNORMAL,
           Launch.shellExecute (wide "open") (wide "C:\\Tools\\App.EXE")
            (some (wide "C:\\Tools")) SW_SHOWNORMAL])) ∧
    LaunchExternalNoConsole iswspaceAscii towlowerAscii
        (osPlainFiles createProcessOk shellExecuteResult) (wide "C:\\tools\\readme.txt") =
      (decide (shellExecuteResult (wide "C:\\tools\\readme.txt") (some (wide "C:\\tools")) > 32),
        [Launch.shellExecute (wide "open") (wide "C:\\tools\\readme.txt")
          (some (wide "C:\\tools")) SW_SHOWNORMAL]) ∧
    LaunchExternalNoConsole iswspaceAscii towlowerAscii
        (osPlainFiles createProcessOk shellExecuteResult) (wide "   ") = (false, []) ∧
    LaunchExternalNoConsole iswspaceAscii towlowerAscii
        (osPlainFiles createProcessOk shellExecuteResult) (wide "\"\"") = (false, []) :=
  ⟨rfl, rfl, rfl, rfl⟩

/-! ## The scanners terminate (C21) -/

/-- An iteration of the installed scan leaves the loop or moves the position to the
right by at least two bytes (the two quotes of the key), within the text. -/
theorem ParseInstalledJsonStep_progress {W : Type} [LinearOrder W] (U82W : Str → W)
    (json : Str) (pos : Nat) (m : StdMap W) :
    (∃ m2, ParseInstalledJsonStep U82W json pos m = .stop m2) ∨
      ∃ pos2 m2, ParseInstalledJsonStep U82W json pos m = .cont pos2 m2 ∧
        pos + 2 ≤ pos2 ∧ pos2 ≤ json.length := by
  unfold ParseInstalledJsonStep
  cases h1 : strFindChar json '"' pos with
  | none => exact Or.inl ⟨m, rfl⟩
  | some qKey1 =>
    simp only
    have b1 := strFindChar_bounds json '"' pos qKey1 h1
    cases h2 : strFindChar json '"' (qKey1 + 1) with
    | none => exact Or.inl ⟨m, rfl⟩
    | some qKey2 =>
      simp only
      have b2 := strFindChar_bounds json '"' _ qKey2 h2
      cases h3 : strFindChar json ':' qKey2 with
      | none => exact Or.inl ⟨m, rfl⟩
      | some colon =>
        simp only
        cases h4 : ExtractJSONString json (colon + 1) with
        | none => exact Or.inr ⟨qKey2 + 1, m, rfl, by omega, by omega⟩
        | some val => exact Or.inr ⟨qKey2 + 1, _, rfl, by omega, by omega⟩

/-- An iteration of the filtered scan leaves the loop or moves the position to the
right by at least two bytes, within the text. -/
theorem ParseIndexLatestJsonFilteredStep_progress {W : Type} [LinearOrder W]
    (U82W : Str → W) (json : Str) (wanted : List W) (pos : Nat) (m : StdMap W) :
    (∃ m2, ParseIndexLatestJsonFilteredStep U82W json wanted pos m = .stop m2) ∨
      ∃ pos2 m2, ParseIndexLatestJsonFilteredStep U82W json wanted pos m = .cont pos2 m2 ∧
        pos + 2 ≤ pos2 ∧ pos2 ≤ json.length := by
  unfold ParseIndexLatestJsonFilteredStep
  cases h1 : FindToken json pos idToken with
  | none => exact Or.inl ⟨m, rfl⟩
  | some idField =>
    simp only
    have b1 := strFind_bounds json idToken pos idField h1
    have hlen : idToken.length = 4 := rfl
    cases h2 : strFindChar json ':' idField with
    | none => exact Or.inl ⟨m, rfl⟩
    | some colon =>
      simp only
      have b2 := strFindChar_bounds json ':' idField colon h2
      cases h3 : ExtractJSONString json (colon + 1) with
      | none => exact Or.inr ⟨idField + 4, m, rfl, by omega, by omega⟩
      | some idUtf8 =>
        simp only
        cases h4 : strFindChar json '"' (colon + 1) with
        | none => exact Or.inr ⟨idField + 4, m, rfl, by omega, by omega⟩
        | some afterIdVal =>
          simp only
          have b4 := strFindChar_bounds json '"' _ _ h4
          cases h5 : strFindChar json '\x7d' afterIdVal with
          | none => exact Or.inr ⟨idField + 4, m, rfl, by omega, by omega⟩
          | some objClose =>
            simp only
            have b5 := strFindChar_bounds json '\x7d' _ _ h5
            have hnext : pos + 2 ≤ objClose + 1 ∧ objClose + 1 ≤ json.length := by omega
            by_cases hw : isWanted wanted (U82W idUtf8) = true
            · simp only [hw, Bool.not_true, Bool.false_eq_true, if_false]
              cases h6 : FindToken json colon lvToken with
              | none => exact Or.inr ⟨objClose + 1, m, rfl, hnext⟩
              | some lvField =>
                simp only
                by_cases c1 : lvField > objClose
                · simp only [c1, if_true]
                  exact Or.inr ⟨objClose + 1, m, rfl, hnext⟩
                · simp only [c1, if_false]
                  cases h7 : strFindChar json ':' lvField with
                  | none => exact Or.inr ⟨objClose + 1, m, rfl, hnext⟩
                  | some lvColon =>
                    simp only
                    by_cases c2 : lvColon > objClose
                    · simp only [c2, if_true]
                      exact Or.inr ⟨objClose + 1, m, rfl, hnext⟩
                    · simp only [c2, if_false]
                      cases h8 : ExtractJSONString json (lvColon + 1) with
                      | none => exact Or.inr ⟨objClose + 1, m, rfl, hnext⟩
                      | some latestUtf8 =>
                        simp only
                        by_cases hs : (m.set (U82W idUtf8) (U82W latestUtf8)).size ≥
                            wanted.length
                        · rw [if_pos hs]
                          exact Or.inl ⟨_, rfl⟩
                        · rw [if_neg hs]
                          exact Or.inr ⟨objClose + 1, _, rfl, hnext⟩
            · simp only [hw, Bool.not_false, if_true]
              exact Or.inr ⟨objClose + 1, m, rfl, hnext⟩

/-- The loop of the installed scan, started at `pos`, runs a number `n` of iterations
with `2 * n ≤ json.length - pos + 2`: every fuel from `n` on gives the same map,
every smaller fuel gives none. -/
theorem ParseInstalledJsonLoop_iterations {W : Type} [LinearOrder W] (U82W : Str → W)
    (json : Str) (k pos : Nat) (m : StdMap W) (hk : json.length - pos ≤ k) :
    ∃ n r, 1 ≤ n ∧ 2 * n ≤ json.length - pos + 2 ∧
      (∀ fuel, n ≤ fuel → ParseInstalledJsonLoop U82W json fuel pos m = some r) ∧
      ∀ fuel, fuel < n → ParseInstalledJsonLoop U82W json fuel pos m = none := by
  induction k generalizing pos m with
  | zero =>
    rcases ParseInstalledJsonStep_progress U82W json pos m with ⟨m2, h⟩ | ⟨pos2, m2, h, h1, h2⟩
    · refine ⟨1, m2, le_refl _, by omega, ?_, ?_⟩
      · intro fuel hf
        obtain ⟨f, rfl⟩ : ∃ f, fuel = f + 1 := ⟨fuel - 1, by omega⟩
        rw [ParseInstalledJsonLoop, h]
      · intro fuel hf
        have : fuel = 0 := by omega
        subst this
        rfl
    · omega
  | succ k ih =>
    rcases ParseInstalledJsonStep_progress U82W json pos m with ⟨m2, h⟩ | ⟨pos2, m2, h, h1, h2⟩
    · refine ⟨1, m2, le_refl _, by omega, ?_, ?_⟩
      · intro fuel hf
        obtain ⟨f, rfl⟩ : ∃ f, fuel = f + 1 := ⟨fuel - 1, by omega⟩
        rw [ParseInstalledJsonLoop, h]
      · intro fuel hf
        have : fuel = 0 := by omega
        subst this
        rfl
    · obtain ⟨n, r, hn1, hn2, hge, hlt⟩ := ih pos2 m2 (by omega)
      refine ⟨n + 1, r, by omega, by omega, ?_, ?_⟩
      · intro fuel hf
        obtain ⟨f, rfl⟩ : ∃ f, fuel = f + 1 := ⟨fuel - 1, by omega⟩
        rw [ParseInstalledJsonLoop, h]
        exact hge f (by omega)
      · intro fuel hf
        cases fuel with
        | zero => rfl
        | succ f =>
          rw [ParseInstalledJsonLoop, h]
          exact hlt f (by omega)

/-- The loop of the filtered scan, started at `pos`, runs a number `n` of iterations
with `2 * n ≤ json.length - pos + 2`: every fuel from `n` on gives the same map,
every smaller fuel gives none. -/
theorem ParseIndexLatestJsonFilteredLoop_iterations {W : Type} [LinearOrder W]
    (U82W : Str → W) (json : Str) (wanted : List W) (k pos : Nat) (m : StdMap W)
    (hk : json.length - pos ≤ k) :
    ∃ n r, 1 ≤ n ∧ 2 * n ≤ json.length - pos + 2 ∧
      (∀ fuel, n ≤ fuel →
        ParseIndexLatestJsonFilteredLoop U82W json wanted fuel pos m = some r) ∧
      ∀ fuel, fuel < n →
        ParseIndexLatestJsonFilteredLoop U82W json wanted fuel pos m = none := by
  induction k generalizing pos m with
  | zero =>
    rcases ParseIndexLatestJsonFilteredStep_progress U82W json wanted pos m with
      ⟨m2, h⟩ | ⟨pos2, m2, h, h1, h2⟩
    · refine ⟨1, m2, le_refl _, by omega, ?_, ?_⟩
      · intro fuel hf
        obtain ⟨f, rfl⟩ : ∃ f, fuel = f + 1 := ⟨fuel - 1, by omega⟩
        rw [ParseIndexLatestJsonFilteredLoop, h]
      · intro fuel hf
        have : fuel = 0 := by omega
        subst this
        rfl
    · omega
  | succ k ih =>
    rcases ParseIndexLatestJsonFilteredStep_progress U82W json wanted pos m with
      ⟨m2, h⟩ | ⟨pos2, m2, h, h1, h2⟩
    · refine ⟨1, m2, le_refl _, by omega, ?_, ?_⟩
      · intro fuel hf
        obtain ⟨f, rfl⟩ : ∃ f, fuel = f + 1 := ⟨fuel - 1, by omega⟩
        rw [ParseIndexLatestJsonFilteredLoop, h]
      · intro fuel hf
        have : fuel = 0 := by omega
        subst this
        rfl
    · obtain ⟨n, r, hn1, hn2, hge, hlt⟩ := ih pos2 m2 (by omega)
      refine ⟨n + 1, r, by omega, by omega, ?_, ?_⟩
      · intro fuel hf
        obtain ⟨f, rfl⟩ : ∃ f, fuel = f + 1 := ⟨fuel - 1, by omega⟩
        rw [ParseIndexLatestJsonFilteredLoop, h]
        exact hge f (by omega)
      · intro fuel hf
        cases fuel with
        | zero => rfl
        | succ f =>
          rw [ParseIndexLatestJsonFilteredLoop, h]
          exact hlt f (by omega)

/-- C21: on every byte string, an iteration of the loop of `ParseInstalledJson` and an
iteration of the loop of `ParseIndexLatestJsonFiltered` either leaves the loop or
sets the position to a greater value (by at least two) that is within the text; each
loop runs a number `n` of iterations, the one that leaves the loop included, with
`1 ≤ n ≤ json.length / 2 + 1`, hence `n ≤ json.length` on a non-empty text (on the
empty text the one iteration leaves the loop at once); and both functions return. -/
theorem ParseJson_loops_terminate {W : Type} [LinearOrder W] (U82W : Str → W) (json : Str)
    (idsWanted : List W) :
    (∀ pos m, (∃ m2, ParseInstalledJsonStep U82W json pos m = .stop m2) ∨
        ∃ pos2 m2, ParseInstalledJsonStep U82W json pos m = .cont pos2 m2 ∧
          pos + 2 ≤ pos2 ∧ pos2 ≤ json.length) ∧
      (∀ pos m,
        (∃ m2, ParseIndexLatestJsonFilteredStep U82W json idsWanted pos m = .stop m2) ∨
        ∃ pos2 m2, ParseIndexLatestJsonFilteredStep U82W json idsWanted pos m =
            .cont pos2 m2 ∧ pos + 2 ≤ pos2 ∧ pos2 ≤ json.length) ∧
      (∃ n r, 1 ≤ n ∧ n ≤ json.length / 2 + 1 ∧ (json ≠ [] → n ≤ json.length) ∧
        (∀ fuel, n ≤ fuel → ParseInstalledJsonLoop U82W json fuel 0 [] = some r) ∧
        (∀ fuel, fuel < n → ParseInstalledJsonLoop U82W json fuel 0 [] = none) ∧
        ParseInstalledJson U82W json = some r) ∧
      (∃ n r, 1 ≤ n ∧ n ≤ json.length / 2 + 1 ∧ (json ≠ [] → n ≤ json.length) ∧
        (∀ fuel, n ≤ fuel →
          ParseIndexLatestJsonFilteredLoop U82W json idsWanted fuel 0 [] = some r) ∧
        (∀ fuel, fuel < n →
          ParseIndexLatestJsonFilteredLoop U82W json idsWanted fuel 0 [] = none) ∧
        ParseIndexLatestJsonFiltered U82W json idsWanted =
          some (if idsWanted.isEmpty then [] else r)) := by
  refine ⟨ParseInstalledJsonStep_progress U82W json,
    ParseIndexLatestJsonFilteredStep_progress U82W json idsWanted, ?_, ?_⟩
  · obtain ⟨n, r, h1, h2, hge, hlt⟩ :=
      ParseInstalledJsonLoop_iterations U82W json json.length 0 [] (by omega)
    have hpos : json ≠ [] → 0 < json.length := fun h => List.length_pos.2 h
    refine ⟨n, r, h1, by omega, fun h => ?_, hge, hlt, hge _ (by omega)⟩
    have := hpos h
    omega
  · obtain ⟨n, r, h1, h2, hge, hlt⟩ :=
      ParseIndexLatestJsonFilteredLoop_iterations U82W json idsWanted json.length 0 []
        (by omega)
    have hpos : json ≠ [] → 0 < json.length := fun h => List.length_pos.2 h
    refine ⟨n, r, h1, by omega, fun h => ?_, hge, hlt, ?_⟩
    · have := hpos h
      omega
    · unfold ParseIndexLatestJsonFiltered
      by_cases hw : idsWanted.isEmpty = true
      · rw [if_pos hw, if_pos hw]
      · rw [if_neg hw, if_neg hw]
        exact hge _ (by omega)

end UpdateChecker
